import Mathlib

/-!
# Essentia: a shallow embedding of the pool, `VectorEx` and some algorithms

* `Pool` (src/essentia/pool.cpp) is a set of twelve `std::map<std::string, _>`
  sub-maps, one per stored type.  Each sub-map is embedded as a key-ordered
  association list, the operations as functions from a pool to an outcome and
  the pool afterwards (so that the state after a thrown exception can be
  inspected).  The stored values are never computed on by the pool, so `Real`,
  `Tensor<Real>` and `TNT::Array2D<Real>` are type parameters `R`, `T` and
  `A`.  A `VectorEx<X>` held by the pool is embedded by its logical contents,
  a `List X`.  Sizes and loop counters are natural numbers (the `int` counters
  of the source are taken not to overflow), and the locks are left out: each
  call runs alone.
* `VectorExT` (src/essentia/types.h) and `RogueVector` (roguevector.h) are
  embedded with the external memory a view points into.
* The streaming chain `VectorInput -> Copy -> output` is modelled from the
  specification, its sources being absent.
* `Tristimulus`, `PitchSalienceFunction` and `PitchContoursMonoMelody`
  (src/algorithms/tonal) and `Viterbi` (src/algorithms/standard) are embedded
  over the rationals; a computation ends in a value, in an exception or in
  undefined behaviour (a read outside a vector, a conversion out of range).
-/

set_option autoImplicit false

namespace Essentia

/-! ## Exceptions and outcomes -/

/-- The `EssentiaException`s thrown in pool.cpp, one constructor per message,
carrying the strings spliced into the message. -/
inductive EssentiaException where
  /-- "Pool::add/set value contains invalid numbers (NaN or inf)" -/
  | invalidNumbers
  /-- "... that name already exists but contains a different data type than value" -/
  | differentDataType (name : String)
  /-- "... has a parent descriptor name already in the pool (e.g. ...)" -/
  | parentDescriptor (name parent : String)
  /-- "... has child descriptor names (e.g. ...)" -/
  | childDescriptor (name child : String)
  /-- "Pool::merge, cannot merge descriptor names with the same name ... unless a merge type ... is specified" -/
  | mergeTypeMissing (name : String)
  /-- "Pool::merge, cannot interleave descriptors with different sizes :" -/
  | interleaveSizes (name : String)
  /-- "Pool::merge, unknown merge type: " -/
  | unknownMergeType (mergeType : String)
  /-- "Pool::mergeSingle, values for single value descriptors can only be replaced ..." -/
  | singleOnlyReplaced (name : String)
  /-- "Pool: there exists a DescriptorName that contains two types of data: " -/
  | twoTypesOfData (name : String)
  deriving DecidableEq, Repr

/-- How a call ends: it returns, it throws, or it indexes a vector out of
range (undefined behaviour in C++). -/
inductive Outcome where
  | ok
  | throws (e : EssentiaException)
  | undefinedBehaviour
  deriving DecidableEq, Repr

/-- The call raised an `EssentiaException`. -/
def Outcome.isThrow : Outcome → Bool
  | .throws _ => true
  | _ => false

/-! ## `std::string` and `std::map<std::string, _>` -/

/-- The test `s.find(pre) == 0` of pool.cpp: `pre` occurs in `s` at position 0. -/
def findAtZero (s pre : String) : Bool :=
  pre.data.isPrefixOf s.data

/-- A `std::map<std::string, α>`: the entries in iteration (key) order. -/
abbrev PMap (α : Type) := List (String × α)

namespace PMap

variable {α : Type}

/-- The lookup `m.find(k)`; `none` stands for `m.end()`. -/
def find : PMap α → String → Option α
  | [], _ => none
  | (k', v) :: r, k => if k = k' then some v else find r k

/-- The value `m.find(k) != m.end()`. -/
def contains (m : PMap α) (k : String) : Bool :=
  (m.find k).isSome

/-- The assignment `m[k] = v`: overwrite the entry of `k`, or create it at its
place in key order (`std::less<std::string>`, the lexicographic order of the
characters). -/
def assign : PMap α → String → α → PMap α
  | [], k, v => [(k, v)]
  | (k', v') :: r, k, v =>
    if k.data < k'.data then (k, v) :: (k', v') :: r
    else if k = k' then (k, v) :: r
    else (k', v') :: assign r k v

/-- The value read through `m[k]`: the stored one, or a value-initialised
one when `k` is new. -/
def subscript (dflt : α) (m : PMap α) (k : String) : α :=
  (m.find k).getD dflt

/-- The call `m.erase(it)` where `it` points at the entry of `k`. -/
def erase (m : PMap α) (k : String) : PMap α :=
  m.filter (fun e => decide (e.1 ≠ k))

/-- The call `m.insert(make_pair(k, v))`: no effect when `k` is present. -/
def insert (m : PMap α) (k : String) (v : α) : PMap α :=
  if m.contains k then m else m.assign k v

/-- The keys in iteration order. -/
def keys (m : PMap α) : List String :=
  m.map Prod.fst

/-- The number of entries, `m.size()`. -/
def size (m : PMap α) : Nat :=
  m.length

/-- The statement `m[k].push_back(x)` on a map of vectors. -/
def pushBack {β : Type} (m : PMap (List β)) (k : String) (x : β) : PMap (List β) :=
  m.assign k (m.subscript [] k ++ [x])

end PMap

/-! ## The pool -/

/-- The names `tname` of the multi-value sub-maps `_pool##tname`. -/
inductive MultiName where
  | real | vectorReal | string | vectorString | stereoSample | tensorReal | array2DReal
  deriving DecidableEq, Repr

/-- The names of the single-value sub-maps `_poolSingle##tname`. -/
inductive SingleName where
  | real | string | vectorReal | vectorString | tensorReal
  deriving DecidableEq, Repr

/-- The element type stored in a multi-value sub-map (`StereoSample` is
`Tuple2<Real>`). -/
@[reducible] def MultiName.type (R T A : Type) : MultiName → Type
  | .real => R
  | .vectorReal => List R
  | .string => String
  | .vectorString => List String
  | .stereoSample => R × R
  | .tensorReal => T
  | .array2DReal => A

/-- The type stored in a single-value sub-map. -/
@[reducible] def SingleName.type (R T : Type) : SingleName → Type
  | .real => R
  | .string => String
  | .vectorReal => List R
  | .vectorString => List String
  | .tensorReal => T

/-- The data members of `class Pool`. -/
structure Pool (R T A : Type) where
  _poolReal : PMap (List R) := []
  _poolVectorReal : PMap (List (List R)) := []
  _poolString : PMap (List String) := []
  _poolVectorString : PMap (List (List String)) := []
  _poolArray2DReal : PMap (List A) := []
  _poolTensorReal : PMap (List T) := []
  _poolStereoSample : PMap (List (R × R)) := []
  _poolSingleReal : PMap R := []
  _poolSingleString : PMap String := []
  _poolSingleVectorReal : PMap (List R) := []
  _poolSingleVectorString : PMap (List String) := []
  _poolSingleTensorReal : PMap T := []

namespace Pool

variable {R T A : Type}

/-- A freshly constructed pool. -/
def empty : Pool R T A := {}

/-- Read `_pool##tname`. -/
def getMulti (p : Pool R T A) : (t : MultiName) → PMap (List (t.type R T A))
  | .real => p._poolReal
  | .vectorReal => p._poolVectorReal
  | .string => p._poolString
  | .vectorString => p._poolVectorString
  | .stereoSample => p._poolStereoSample
  | .tensorReal => p._poolTensorReal
  | .array2DReal => p._poolArray2DReal

/-- Write `_pool##tname`. -/
def setMulti (p : Pool R T A) : (t : MultiName) → PMap (List (t.type R T A)) → Pool R T A
  | .real, m => { p with _poolReal := m }
  | .vectorReal, m => { p with _poolVectorReal := m }
  | .string, m => { p with _poolString := m }
  | .vectorString, m => { p with _poolVectorString := m }
  | .stereoSample, m => { p with _poolStereoSample := m }
  | .tensorReal, m => { p with _poolTensorReal := m }
  | .array2DReal, m => { p with _poolArray2DReal := m }

/-- Read `_poolSingle##tname`. -/
def getSingle (p : Pool R T A) : (t : SingleName) → PMap (t.type R T)
  | .real => p._poolSingleReal
  | .string => p._poolSingleString
  | .vectorReal => p._poolSingleVectorReal
  | .vectorString => p._poolSingleVectorString
  | .tensorReal => p._poolSingleTensorReal

/-- Write `_poolSingle##tname`. -/
def setSingle (p : Pool R T A) : (t : SingleName) → PMap (t.type R T) → Pool R T A
  | .real, m => { p with _poolSingleReal := m }
  | .string, m => { p with _poolSingleString := m }
  | .vectorReal, m => { p with _poolSingleVectorReal := m }
  | .vectorString, m => { p with _poolSingleVectorString := m }
  | .tensorReal, m => { p with _poolSingleTensorReal := m }

/-- The loop `ADD_DESC_NAMES` of `descriptorNamesNoLocking`: for each key of
the sub-map in order, `descNames[i++] = it->first`. -/
def ADD_DESC_NAMES (keys : List String) (st : List String × Nat) : List String × Nat :=
  keys.foldl (fun s k => (s.1.set s.2 k, s.2 + 1)) st

/-- `Pool::descriptorNamesNoLocking`: a vector sized by the twelve sub-map
sizes, filled from index 0 by eleven `ADD_DESC_NAMES` loops (there is none for
`SingleTensorReal`). -/
def descriptorNamesNoLocking (p : Pool R T A) : List String :=
  let descNames : List String :=
    List.replicate (p._poolReal.size + p._poolVectorReal.size + p._poolString.size +
      p._poolVectorString.size + p._poolArray2DReal.size + p._poolTensorReal.size +
      p._poolStereoSample.size + p._poolSingleReal.size + p._poolSingleString.size +
      p._poolSingleVectorReal.size + p._poolSingleVectorString.size +
      p._poolSingleTensorReal.size) ""
  let st : List String × Nat := (descNames, 0)
  let st := ADD_DESC_NAMES p._poolSingleReal.keys st
  let st := ADD_DESC_NAMES p._poolReal.keys st
  let st := ADD_DESC_NAMES p._poolSingleVectorReal.keys st
  let st := ADD_DESC_NAMES p._poolVectorReal.keys st
  let st := ADD_DESC_NAMES p._poolSingleString.keys st
  let st := ADD_DESC_NAMES p._poolString.keys st
  let st := ADD_DESC_NAMES p._poolSingleVectorString.keys st
  let st := ADD_DESC_NAMES p._poolVectorString.keys st
  let st := ADD_DESC_NAMES p._poolArray2DReal.keys st
  let st := ADD_DESC_NAMES p._poolTensorReal.keys st
  let st := ADD_DESC_NAMES p._poolStereoSample.keys st
  st.1

/-- The loop of `Pool::validateKey` over `allNames`: the first exception
thrown, if any. -/
def validateKeyLoop (name : String) : List String → Option EssentiaException
  | [] => none
  | n :: rest =>
    if name = n then some (.differentDataType name)
    else if findAtZero name (n ++ ".") then some (.parentDescriptor name n)
    else if findAtZero n (name ++ ".") then some (.childDescriptor name n)
    else validateKeyLoop name rest

/-- `Pool::validateKey`. -/
def validateKey (p : Pool R T A) (name : String) : Option EssentiaException :=
  validateKeyLoop name p.descriptorNamesNoLocking

/-- The body shared by every `Pool::add` (the macro `SPECIALIZE_ADD_IMPL` and
the overloads written out for `Tensor<Real>` and `Array2D<Real>`), acting on
the sub-map `_pool##tname`.  `isValid` is the overload of `isValid` at the
value type (declared outside pool.cpp). -/
def SPECIALIZE_ADD_IMPL (t : MultiName) (isValid : t.type R T A → Bool)
    (name : String) (value : t.type R T A) (validityCheck : Bool)
    (p : Pool R T A) : Outcome × Pool R T A :=
  if validityCheck && !isValid value then (.throws .invalidNumbers, p)
  else if (p.getMulti t).contains name then
    (.ok, p.setMulti t ((p.getMulti t).pushBack name value))
  else
    match p.validateKey name with
    | some e => (.throws e, p)
    | none => (.ok, p.setMulti t ((p.getMulti t).pushBack name value))

/-- `Pool::add(name, value, validityCheck)` at the sub-map `tname`. -/
def add (t : MultiName) (isValid : t.type R T A → Bool)
    (name : String) (value : t.type R T A) (validityCheck : Bool)
    (p : Pool R T A) : Outcome × Pool R T A :=
  SPECIALIZE_ADD_IMPL t isValid name value validityCheck p

/-- The body of `Pool::set` (the macro `SPECIALIZE_SET_IMPL`, and the overload
written out for `Tensor<Real>`, whose `resize(value.dimensions())` is followed
by the assignment of `value`), acting on `_poolSingle##tname`. -/
def SPECIALIZE_SET_IMPL (t : SingleName) (isValid : t.type R T → Bool)
    (name : String) (value : t.type R T) (validityCheck : Bool)
    (p : Pool R T A) : Outcome × Pool R T A :=
  if validityCheck && !isValid value then (.throws .invalidNumbers, p)
  else if (p.getSingle t).contains name then
    (.ok, p.setSingle t ((p.getSingle t).assign name value))
  else
    match p.validateKey name with
    | some e => (.throws e, p)
    | none => (.ok, p.setSingle t ((p.getSingle t).assign name value))

/-- `Pool::set(name, value, validityCheck)` at the sub-map `Single##tname`. -/
def set (t : SingleName) (isValid : t.type R T → Bool)
    (name : String) (value : t.type R T) (validityCheck : Bool)
    (p : Pool R T A) : Outcome × Pool R T A :=
  SPECIALIZE_SET_IMPL t isValid name value validityCheck p

/-- The loop `for (int i = lo; i < hi; i++)` whose body reads vectors at
index `i`; `none` when a read is out of range. -/
def forRange {σ : Type} (lo hi : Nat) (body : Nat → σ → Option σ) (s : σ) : Option σ :=
  (List.range' lo (hi - lo)).foldlM (fun s i => body i s) s

/-- The body `_pool[name].push_back(value[i])` of the copying loops. -/
def pushAt {β : Type} (name : String) (value : List β) (i : Nat)
    (m : PMap (List β)) : Option (PMap (List β)) :=
  value[i]?.map (fun x => m.pushBack name x)

/-- The body `_pool[name].push_back(temp[i]); _pool[name].push_back(value[i])`
of the interleaving loop. -/
def pushBothAt {β : Type} (name : String) (temp value : List β) (i : Nat)
    (m : PMap (List β)) : Option (PMap (List β)) :=
  match temp[i]?, value[i]? with
  | some a, some b => some ((m.pushBack name a).pushBack name b)
  | _, _ => none

/-- Wrap the sub-map computed by a branch: out-of-range indexing is undefined
behaviour, otherwise the call returns with the sub-map stored. -/
def finishMulti (p : Pool R T A) (t : MultiName)
    (m : Option (PMap (List (t.type R T A)))) : Outcome × Pool R T A :=
  match m with
  | some m => (.ok, p.setMulti t m)
  | none => (.undefinedBehaviour, p)

/-- The branch of `merge` for a key that is new to `_pool##tname`:
`validateKey(name)`, `push_back(value[0])`, then the loop from index 1. -/
def mergeNewKey (t : MultiName) (name : String) (value : List (t.type R T A))
    (p : Pool R T A) : Outcome × Pool R T A :=
  match p.validateKey name with
  | some e => (.throws e, p)
  | none =>
    finishMulti p t
      ((pushAt name value 0 (p.getMulti t)).bind
        (forRange 1 value.length (pushAt name value)))

/-- The branch `mergeType=="interleave"` of `merge`, after the size test:
copy the old vector to `temp`, erase the entry, push `temp[0]`, `value[0]`,
then the loop from index 1 to `temp.size()`. -/
def mergeInterleave (t : MultiName) (name : String) (value : List (t.type R T A))
    (p : Pool R T A) : Outcome × Pool R T A :=
  let temp := (p.getMulti t).subscript [] name
  finishMulti p t
    ((pushBothAt name temp value 0 ((p.getMulti t).erase name)).bind
      (forRange 1 temp.length (pushBothAt name temp value)))

/-- The macro `SPECIALIZE_MERGE_IMPL`: `Pool::merge(name, value, mergeType)`
for the sub-maps Real, VectorReal, String, VectorString, StereoSample and
TensorReal. -/
def SPECIALIZE_MERGE_IMPL (t : MultiName) (name : String)
    (value : List (t.type R T A)) (mergeType : String)
    (p : Pool R T A) : Outcome × Pool R T A :=
  if value.isEmpty then (.ok, p)
  else if (p.getMulti t).contains name then
    if mergeType = "" then (.throws (.mergeTypeMissing name), p)
    else if mergeType = "append" then
      finishMulti p t (forRange 0 value.length (pushAt name value) (p.getMulti t))
    else if mergeType = "replace" then
      (.ok, p.setMulti t (((p.getMulti t).erase name).insert name value))
    else if mergeType = "interleave" then
      if value.length ≠ ((p.getMulti t).subscript [] name).length then
        (.throws (.interleaveSizes name), p)
      else mergeInterleave t name value p
    else (.throws (.unknownMergeType mergeType), p)
  else mergeNewKey t name value p

/-- The overload `Pool::merge(name, VectorEx<Array2D<Real>>, mergeType)`: no
test for an empty `value`, and "replace" rebuilds the vector element by
element (`copy()` yields an equal array). -/
def mergeArray2D (name : String) (value : List A) (mergeType : String)
    (p : Pool R T A) : Outcome × Pool R T A :=
  if (p.getMulti .array2DReal).contains name then
    if mergeType = "" then (.throws (.mergeTypeMissing name), p)
    else if mergeType = "append" then
      finishMulti p .array2DReal
        (forRange 0 value.length (pushAt name value) (p.getMulti .array2DReal))
    else if mergeType = "replace" then
      finishMulti p .array2DReal
        (forRange 0 value.length (pushAt name value)
          (((p.getMulti .array2DReal).erase name).assign name []))
    else if mergeType = "interleave" then
      if value.length ≠ ((p.getMulti .array2DReal).subscript [] name).length then
        (.throws (.interleaveSizes name), p)
      else mergeInterleave .array2DReal name value p
    else (.throws (.unknownMergeType mergeType), p)
  else mergeNewKey .array2DReal name value p

/-- `Pool::merge(name, value, mergeType)` at the sub-map `tname`. -/
def merge (t : MultiName) (name : String) (value : List (t.type R T A))
    (mergeType : String) (p : Pool R T A) : Outcome × Pool R T A :=
  match t, value with
  | .array2DReal, value => mergeArray2D name value mergeType p
  | t, value => SPECIALIZE_MERGE_IMPL t name value mergeType p

/-- The macro `SPECIALIZE_MERGE_SINGLE_IMPL`: `Pool::mergeSingle`. -/
def SPECIALIZE_MERGE_SINGLE_IMPL (t : SingleName) (name : String)
    (value : t.type R T) (mergeType : String)
    (p : Pool R T A) : Outcome × Pool R T A :=
  if (p.getSingle t).contains name then
    if mergeType = "replace" then
      (.ok, p.setSingle t (((p.getSingle t).erase name).insert name value))
    else (.throws (.singleOnlyReplaced name), p)
  else
    match p.validateKey name with
    | some e => (.throws e, p)
    | none => (.ok, p.setSingle t ((p.getSingle t).insert name value))

/-- `Pool::mergeSingle(name, value, mergeType)` at `Single##tname`. -/
def mergeSingle (t : SingleName) (name : String) (value : t.type R T)
    (mergeType : String) (p : Pool R T A) : Outcome × Pool R T A :=
  SPECIALIZE_MERGE_SINGLE_IMPL t name value mergeType p

/-- The block `ADD_DESC_NAMES` of `Pool::descriptorNames()`: grow `descNames`
by the size of the sub-map, then `descNames[i++] = it->first` for each key. -/
def ADD_DESC_NAMES_RESIZE (keys : List String) (st : List String × Nat) :
    List String × Nat :=
  ADD_DESC_NAMES keys (st.1 ++ List.replicate keys.length "", st.2)

/-- `Pool::descriptorNames()`: the keys of all twelve sub-maps. -/
def descriptorNames (p : Pool R T A) : List String :=
  let st : List String × Nat := ([], 0)
  let st := ADD_DESC_NAMES_RESIZE p._poolSingleReal.keys st
  let st := ADD_DESC_NAMES_RESIZE p._poolReal.keys st
  let st := ADD_DESC_NAMES_RESIZE p._poolSingleVectorReal.keys st
  let st := ADD_DESC_NAMES_RESIZE p._poolVectorReal.keys st
  let st := ADD_DESC_NAMES_RESIZE p._poolSingleString.keys st
  let st := ADD_DESC_NAMES_RESIZE p._poolString.keys st
  let st := ADD_DESC_NAMES_RESIZE p._poolSingleVectorString.keys st
  let st := ADD_DESC_NAMES_RESIZE p._poolVectorString.keys st
  let st := ADD_DESC_NAMES_RESIZE p._poolArray2DReal.keys st
  let st := ADD_DESC_NAMES_RESIZE p._poolTensorReal.keys st
  let st := ADD_DESC_NAMES_RESIZE p._poolSingleTensorReal.keys st
  let st := ADD_DESC_NAMES_RESIZE p._poolStereoSample.keys st
  st.1

/-- The number of sub-maps that hold the key `k`. -/
def subMapsHolding (p : Pool R T A) (k : String) : Nat :=
  ([MultiName.real, .vectorReal, .string, .vectorString, .stereoSample, .tensorReal,
      .array2DReal].filter (fun t => (p.getMulti t).contains k)).length +
  ([SingleName.real, .string, .vectorReal, .vectorString, .tensorReal].filter
      (fun t => (p.getSingle t).contains k)).length

/-- The key `a` is a dotted-namespace parent of the key `b`: `b` starts with
`a` followed by a dot. -/
def isParentOf (a b : String) : Bool :=
  findAtZero b (a ++ ".")

/-- The alternating sequence old[0], new[0], old[1], new[1], ... that the
specification of `merge` with mode "interleave" describes. -/
def interleaved {β : Type} : List β → List β → List β
  | o :: os, n :: ns => o :: n :: interleaved os ns
  | _, _ => []

/-- `Pool::clear`: empty all twelve sub-maps. -/
def clear (_p : Pool R T A) : Pool R T A := {}

/-- `Pool::remove`: the blocks `SEARCH_AND_DESTROY`, in their order; the first
sub-map that holds `name` loses it and the call returns.  There is no block
for `SingleTensorReal`. -/
def remove (name : String) (p : Pool R T A) : Pool R T A :=
  if p._poolSingleReal.contains name then
    { p with _poolSingleReal := p._poolSingleReal.erase name }
  else if p._poolReal.contains name then
    { p with _poolReal := p._poolReal.erase name }
  else if p._poolSingleVectorReal.contains name then
    { p with _poolSingleVectorReal := p._poolSingleVectorReal.erase name }
  else if p._poolVectorReal.contains name then
    { p with _poolVectorReal := p._poolVectorReal.erase name }
  else if p._poolSingleString.contains name then
    { p with _poolSingleString := p._poolSingleString.erase name }
  else if p._poolString.contains name then
    { p with _poolString := p._poolString.erase name }
  else if p._poolSingleVectorString.contains name then
    { p with _poolSingleVectorString := p._poolSingleVectorString.erase name }
  else if p._poolVectorString.contains name then
    { p with _poolVectorString := p._poolVectorString.erase name }
  else if p._poolArray2DReal.contains name then
    { p with _poolArray2DReal := p._poolArray2DReal.erase name }
  else if p._poolTensorReal.contains name then
    { p with _poolTensorReal := p._poolTensorReal.erase name }
  else if p._poolStereoSample.contains name then
    { p with _poolStereoSample := p._poolStereoSample.erase name }
  else p

/-- The `while` loop of `SEARCH_AND_DESTROY` in `Pool::removeNamespace`, the
iterators `it` and `tmpIt` being positions in the map: an entry whose key
starts with `pre` (that is `ns + "."`) is erased and `it` goes back to
`begin()` (when `pos == 0`) or to `tmpIt`; any other entry is stepped over.
The first argument bounds the number of iterations. -/
def removeNamespaceLoop {α : Type} (pre : String) :
    Nat → PMap α → Nat → Nat → Nat → PMap α
  | 0, m, _, _, _ => m
  | fuel + 1, m, it, pos, tmpIt =>
    match m[it]? with
    | none => m
    | some e =>
      if findAtZero e.1 pre then
        if pos = 0 then removeNamespaceLoop pre fuel (m.eraseIdx it) 0 pos tmpIt
        else removeNamespaceLoop pre fuel (m.eraseIdx it) tmpIt pos tmpIt
      else removeNamespaceLoop pre fuel m (it + 1) (pos + 1) it

/-- One block `SEARCH_AND_DESTROY` of `Pool::removeNamespace` on a sub-map;
each iteration erases an entry or advances `it`, and `it` steps back by at
most one per erasure, so `2 * size + 1` iterations are enough. -/
def SEARCH_AND_DESTROY {α : Type} (ns : String) (m : PMap α) : PMap α :=
  removeNamespaceLoop (ns ++ ".") (2 * m.size + 1) m 0 0 0

/-- `Pool::removeNamespace`: eleven `SEARCH_AND_DESTROY` blocks; there is none
for `SingleTensorReal`. -/
def removeNamespace (ns : String) (p : Pool R T A) : Pool R T A :=
  { p with
    _poolSingleReal := SEARCH_AND_DESTROY ns p._poolSingleReal
    _poolReal := SEARCH_AND_DESTROY ns p._poolReal
    _poolSingleVectorReal := SEARCH_AND_DESTROY ns p._poolSingleVectorReal
    _poolVectorReal := SEARCH_AND_DESTROY ns p._poolVectorReal
    _poolSingleString := SEARCH_AND_DESTROY ns p._poolSingleString
    _poolString := SEARCH_AND_DESTROY ns p._poolString
    _poolSingleVectorString := SEARCH_AND_DESTROY ns p._poolSingleVectorString
    _poolVectorString := SEARCH_AND_DESTROY ns p._poolVectorString
    _poolTensorReal := SEARCH_AND_DESTROY ns p._poolTensorReal
    _poolArray2DReal := SEARCH_AND_DESTROY ns p._poolArray2DReal
    _poolStereoSample := SEARCH_AND_DESTROY ns p._poolStereoSample }

/-- A call of one of the storing operations, with its arguments. -/
inductive Call (R T A : Type) where
  | add (t : MultiName) (isValid : t.type R T A → Bool) (name : String)
      (value : t.type R T A) (validityCheck : Bool)
  | set (t : SingleName) (isValid : t.type R T → Bool) (name : String)
      (value : t.type R T) (validityCheck : Bool)
  | merge (t : MultiName) (name : String) (value : List (t.type R T A))
      (mergeType : String)
  | mergeSingle (t : SingleName) (name : String) (value : t.type R T)
      (mergeType : String)

/-- Perform a call on a pool. -/
def Call.run : Call R T A → Pool R T A → Outcome × Pool R T A
  | .add t isValid name value validityCheck, p => Pool.add t isValid name value validityCheck p
  | .set t isValid name value validityCheck, p => Pool.set t isValid name value validityCheck p
  | .merge t name value mergeType, p => Pool.merge t name value mergeType p
  | .mergeSingle t name value mergeType, p => Pool.mergeSingle t name value mergeType p

/-- Every sub-map is a `std::map`: its keys are strictly increasing. -/
def wellFormed (p : Pool R T A) : Prop :=
  (∀ t, ((p.getMulti t).keys.map String.data).Pairwise (fun a b => a < b)) ∧
  (∀ t, ((p.getSingle t).keys.map String.data).Pairwise (fun a b => a < b))

/-- The naming invariant, first half: no key is held by two sub-maps. -/
def oneSubMapPerKey (p : Pool R T A) : Prop :=
  ∀ k, p.subMapsHolding k ≤ 1

end Pool

/-! ## `VectorEx` (src/essentia/types.h) and `RogueVector` (roguevector.h)

A `VectorExT` owns a `std::vector` (`vec_`) or aliases external memory through
an `array_view` (`view_`).  The external memory is a list of elements, a
pointer into it is an offset (`none` is `nullptr`), and every operation maps
the memory and the vector to the memory and the vector afterwards. -/

/-- `array_view<T>`: a pointer and a length. -/
structure array_view where
  ptr_ : Option Nat := none
  len_ : Nat := 0
  deriving DecidableEq, Repr

/-- The elements `[begin(), end())` of a view, read from the memory. -/
def array_view.elems {T : Type} (mem : List T) (v : array_view) : List T :=
  match v.ptr_ with
  | none => []
  | some a => (mem.drop a).take v.len_

/-- `array_view::clear`. -/
def array_view.clear (_v : array_view) : array_view := { ptr_ := none, len_ := 0 }

/-- The data members of `VectorExT<T, VEC_T>`. -/
structure VectorExT (T : Type) where
  vec_ : List T := []
  view_ : array_view := {}
  deriving DecidableEq, Repr

namespace VectorExT

variable {T : Type}

/-- `setReferenceData(data, size)`. -/
def setReferenceData (data : Option Nat) (size : Nat) (mem : List T) (_v : VectorExT T) :
    List T × VectorExT T :=
  (mem, { view_ := { ptr_ := data, len_ := size }, vec_ := [] })

/-- `size()`. -/
def size (v : VectorExT T) : Nat :=
  if v.view_.len_ ≠ 0 then v.view_.len_ else v.vec_.length

/-- `empty()`. -/
def empty (v : VectorExT T) : Bool :=
  v.view_.len_ == 0 && v.vec_.isEmpty

/-- `operator[](i)`; `none` when the read is outside the memory or the
vector. -/
def subscript (mem : List T) (v : VectorExT T) (i : Nat) : Option T :=
  if v.view_.len_ ≠ 0 then
    match v.view_.ptr_ with
    | none => none
    | some a => mem[a + i]?
  else v.vec_[i]?

/-- The elements at the indices `0 .. size()-1`. -/
def toList (mem : List T) (v : VectorExT T) : List T :=
  if v.view_.len_ ≠ 0 then v.view_.elems mem else v.vec_

/-- `make_vector()`: copy the viewed elements into `vec_` when there is a
view, and clear the view. -/
def make_vector (mem : List T) (v : VectorExT T) : List T × VectorExT T :=
  (mem, { vec_ := if v.view_.len_ ≠ 0 then v.view_.elems mem else v.vec_,
          view_ := v.view_.clear })

/-- `push_back(x)`: `make_vector().push_back(x)`. -/
def push_back (x : T) (mem : List T) (v : VectorExT T) : List T × VectorExT T :=
  let r := make_vector mem v
  (r.1, { r.2 with vec_ := r.2.vec_ ++ [x] })

/-- `std::vector::resize(n)`: cut to `n` elements or pad with
value-initialised elements `dflt`. -/
def vectorResize (dflt : T) (n : Nat) (xs : List T) : List T :=
  xs.take n ++ List.replicate (n - xs.length) dflt

/-- `resize(new_size)`: shorten the view when `new_size <= view_.size()`,
otherwise `make_vector().resize(new_size)`. -/
def resize (dflt : T) (new_size : Nat) (mem : List T) (v : VectorExT T) :
    List T × VectorExT T :=
  if new_size ≤ v.view_.len_ then
    (mem, { v with view_ := { ptr_ := v.view_.ptr_, len_ := new_size } })
  else
    let r := make_vector mem v
    (r.1, { r.2 with vec_ := vectorResize dflt new_size r.2.vec_ })

/-- `clear()`. -/
def clear (mem : List T) (_v : VectorExT T) : List T × VectorExT T :=
  (mem, { vec_ := [], view_ := { ptr_ := none, len_ := 0 } })

end VectorExT

/-- The data members of `RogueVector<T>`: the `VectorEx` base and `data_`,
`size_`. -/
structure RogueVector (T : Type) extends VectorExT T where
  data_ : Option Nat := none
  size_ : Nat := 0

/-- The constructor `RogueVector(T* tab, size_t size)`. -/
def RogueVector.ofData {T : Type} (tab : Option Nat) (size : Nat) (mem : List T) :
    List T × RogueVector T :=
  let r := VectorExT.setReferenceData tab size mem {}
  (r.1, { toVectorExT := r.2 })

/-! ## A streaming network `VectorInput -> Copy -> output` -/

namespace Streaming

/-- Modelled from the spec: the status returned by one activation of a
streaming algorithm (§4.2); vectorinput.h, copy.h, vectoroutput.h and
network.h are not among the sources. -/
inductive AlgorithmStatus where
  | OK | NO_INPUT | NO_OUTPUT | PASS
  deriving DecidableEq, Repr

/-- Modelled from the spec: the state of the chain (§3, §4.1).  A Buffer with
its single consumer is the sequence of elements between the Sink's read cursor
and the Source's write cursor; `pending` is the part of the input array that
`VectorInput` has not produced, `output` the caller's container. -/
structure Net (α : Type) where
  pending : List α
  buf1 : List α := []
  buf2 : List α := []
  output : List α := []

/-- Modelled from the spec: the algorithms of the chain; `output fromCopy` is
the vector output connected to `Copy` (`true`) or straight to `VectorInput`
(`false`). -/
inductive Node where
  | vectorInput
  | copy
  | output (fromCopy : Bool)
  deriving DecidableEq, Repr

/-- Modelled from the spec: one activation (§4.1, §4.2), each port acquiring
and releasing one element.  A producer whose Buffer already holds `cap`
elements is blocked (`NO_OUTPUT`); a consumer with nothing to acquire reports
`NO_INPUT`; `VectorInput` with nothing left has nothing to do (`PASS`). -/
def activate {α : Type} (cap : Nat) : Node → Net α → AlgorithmStatus × Net α
  | .vectorInput, s =>
    match s.pending with
    | [] => (.PASS, s)
    | x :: rest =>
      if s.buf1.length < cap then (.OK, { s with pending := rest, buf1 := s.buf1 ++ [x] })
      else (.NO_OUTPUT, s)
  | .copy, s =>
    match s.buf1 with
    | [] => (.NO_INPUT, s)
    | x :: rest =>
      if s.buf2.length < cap then (.OK, { s with buf1 := rest, buf2 := s.buf2 ++ [x] })
      else (.NO_OUTPUT, s)
  | .output true, s =>
    match s.buf2 with
    | [] => (.NO_INPUT, s)
    | x :: rest => (.OK, { s with buf2 := rest, output := s.output ++ [x] })
  | .output false, s =>
    match s.buf1 with
    | [] => (.NO_INPUT, s)
    | x :: rest => (.OK, { s with buf1 := rest, output := s.output ++ [x] })

/-- Modelled from the spec: step 2 of the scheduler (§4.3) for one node:
activate it, and while it reports `OK` retry it, at most `bound` times.  The
flag tells whether progress was made. -/
def drain {α : Type} (cap : Nat) (n : Node) : Nat → Net α → Bool × Net α
  | 0, s => (false, s)
  | bound + 1, s =>
    match activate cap n s with
    | (.OK, s') => (true, (drain cap n bound s').2)
    | _ => (false, s)

/-- Modelled from the spec: one pass over the ordered node list (§4.3). -/
def pass {α : Type} (cap bound : Nat) : List Node → Net α → Bool × Net α
  | [], s => (false, s)
  | n :: ns, s =>
    let r := drain cap n bound s
    let r' := pass cap bound ns r.2
    (r.1 || r'.1, r'.2)

/-- Modelled from the spec: how a run ends (§4.3, step 3): cleanly, or stalled
with input left in the root source. -/
inductive RunResult (α : Type) where
  | finished (s : Net α)
  | stalled (s : Net α)

/-- Modelled from the spec: the run (§4.3): repeat passes until one makes no
progress; `none` when `fuel` passes were not enough. -/
def run {α : Type} (cap bound : Nat) (nodes : List Node) : Nat → Net α → Option (RunResult α)
  | 0, _ => none
  | fuel + 1, s =>
    let r := pass cap bound nodes s
    if r.1 then run cap bound nodes fuel r.2
    else if r.2.pending.isEmpty then some (.finished r.2) else some (.stalled r.2)

/-- The network of `TEST(Copy, _)`, in execution order. -/
def withCopy : List Node := [.vectorInput, .copy, .output true]

/-- The network of `TEST(VectorOutput, _)`, in execution order. -/
def direct : List Node := [.vectorInput, .output false]

/-- The number of port transfers still to come: the measure that every `OK`
activation lowers. -/
def Net.work {α : Type} (s : Net α) : Nat :=
  3 * s.pending.length + 2 * s.buf1.length + s.buf2.length

end Streaming

/-! ## Standard algorithms

`Real` is taken as the rationals (exact arithmetic); `compute()` returns its
outputs, throws an `EssentiaException` with a message, or reads a vector out
of range. -/

/-- The outcome of a `compute()`. -/
inductive Computed (α : Type) where
  | ok (a : α)
  | throws (msg : String)
  | undefinedBehaviour
  deriving DecidableEq, Repr

/-- The call threw an `EssentiaException`. -/
def Computed.isThrow {α : Type} : Computed α → Bool
  | .throws _ => true
  | _ => false

/-- Sequencing: an exception or an out-of-range read ends the computation. -/
def Computed.bind {α β : Type} (c : Computed α) (f : α → Computed β) : Computed β :=
  match c with
  | .ok a => f a
  | .throws msg => .throws msg
  | .undefinedBehaviour => .undefinedBehaviour

/-- The read `xs[i]`. -/
def readAt {α : Type} (xs : List α) (i : Nat) : Computed α :=
  match xs[i]? with
  | some x => .ok x
  | none => .undefinedBehaviour

namespace Tristimulus

/-- The loop `for (i=1; i<size; i++) if (frequencies[i] <= frequencies[i-1])`
finds a peak out of order. -/
def notOrdered : List ℚ → Bool
  | a :: b :: rest => decide (b ≤ a) || notOrdered (b :: rest)
  | _ => false

/-- `Tristimulus::compute`. -/
def compute (frequencies magnitudes : List ℚ) : Computed (List ℚ) :=
  if magnitudes.length ≠ frequencies.length then
    .throws "Tristimulus: frequency and magnitude vectors are of different size"
  else if notOrdered frequencies then
    .throws "Tristimulus: harmonic peaks are not ordered by frequency"
  else
    let sum := magnitudes.foldl (fun acc m => acc + m) 0
    if sum = 0 then .ok [0, 0, 0]
    else
      (readAt magnitudes 0).bind fun m0 =>
      if frequencies.length < 4 then .ok [m0 / sum, 0, 0]
      else
        (readAt magnitudes 1).bind fun m1 =>
        (readAt magnitudes 2).bind fun m2 =>
        (readAt magnitudes 3).bind fun m3 =>
        if frequencies.length < 5 then .ok [m0 / sum, (m1 + m2 + m3) / sum, 0]
        else
          let sum_4 := (magnitudes.drop 4).foldl (fun acc m => acc + m) 0
          .ok [m0 / sum, (m1 + m2 + m3) / sum, sum_4 / sum]

end Tristimulus

namespace PitchSalienceFunction

/-- The sanity loop of `compute`: for each peak, `frequencies[i] <= 0` throws,
then `magnitudes[i] <= 0` throws; the message of the first throw. -/
def sanityChecks : List ℚ → List ℚ → Option String
  | f :: fs, m :: ms =>
    if f ≤ 0 then some "PitchSalienceFunction: spectral peak frequencies must be positive"
    else if m ≤ 0 then some "PitchSalienceFunction: spectral peak magnitudes must be positive"
    else sanityChecks fs ms
  | _, _ => none

/-- `PitchSalienceFunction::compute`.  `numberBins` is `_numberBins`; the
accumulation of the salience after the sanity checks (lines 109-136, built on
`pow` and `log2`) is the parameter `salience`. -/
def compute (numberBins : Nat) (salience : List ℚ → List ℚ → List ℚ)
    (frequencies magnitudes : List ℚ) : Computed (List ℚ) :=
  if magnitudes.length ≠ frequencies.length then
    .throws "PitchSalienceFunction: frequency and magnitude input vectors must have the same size"
  else if frequencies.isEmpty then .ok (List.replicate numberBins 0)
  else
    match sanityChecks frequencies magnitudes with
    | some msg => .throws msg
    | none => .ok (salience frequencies magnitudes)

end PitchSalienceFunction

namespace PitchContoursMonoMelody

/-- The C function `round`: to the nearest integer, halves away from zero. -/
def cround (x : ℚ) : ℤ :=
  if 0 ≤ x then ⌊x + 1 / 2⌋ else ⌈x - 1 / 2⌉

/-- `(size_t) round(x / _frameDuration)`; the conversion of a value that
`size_t` (64 bits) cannot hold is undefined. -/
def frameIndex (frameDuration x : ℚ) : Computed Nat :=
  if cround (x / frameDuration) < 0 ∨ 2 ^ 64 ≤ cround (x / frameDuration) then
    .undefinedBehaviour
  else .ok (cround (x / frameDuration)).toNat

/-- The member vectors filled by the two loops at the head of `compute`. -/
structure Stats where
  _contoursBinsMean : List ℚ := []
  _contoursBinsStddev : List ℚ := []
  _contoursSaliencesMean : List ℚ := []
  _contoursStartIndices : List Nat := []
  _contoursEndIndices : List Nat := []
  _contoursSaliencesTotal : List ℚ := []
  _contoursSelected : List Nat := []

/-- The first loop of `compute`, from contour `i` on, `n` contours left:
`mean(contoursBins[i])`, `stddev(contoursBins[i], mean)`,
`mean(contoursSaliences[i])`.  `mean` and `stddev` (essentiamath.h) are
parameters. -/
def statsLoop (mean : List ℚ → Computed ℚ) (stddev : List ℚ → ℚ → Computed ℚ)
    (contoursBins contoursSaliences : List (List ℚ)) : Nat → Nat → Stats → Computed Stats
  | 0, _, st => .ok st
  | n + 1, i, st =>
    (readAt contoursBins i).bind fun bins =>
    (mean bins).bind fun bm =>
    (stddev bins bm).bind fun bs =>
    (readAt contoursSaliences i).bind fun sal =>
    (mean sal).bind fun sm =>
    statsLoop mean stddev contoursBins contoursSaliences n (i + 1)
      { st with _contoursBinsMean := st._contoursBinsMean ++ [bm]
                _contoursBinsStddev := st._contoursBinsStddev ++ [bs]
                _contoursSaliencesMean := st._contoursSaliencesMean ++ [sm] }

/-- The second loop of `compute`: the start index from `contoursStartTimes[i]`,
the end index `start + contoursBins[i].size() - 1` (in `size_t`, modulo
`2 ^ 64`), the total salience of `contoursSaliences[i]`, and the contour
selected. -/
def indexLoop (frameDuration : ℚ) (contoursBins contoursSaliences : List (List ℚ))
    (contoursStartTimes : List ℚ) : Nat → Nat → Stats → Computed Stats
  | 0, _, st => .ok st
  | n + 1, i, st =>
    (readAt contoursStartTimes i).bind fun start =>
    (frameIndex frameDuration start).bind fun startIndex =>
    (readAt contoursBins i).bind fun bins =>
    (readAt contoursSaliences i).bind fun sal =>
    indexLoop frameDuration contoursBins contoursSaliences contoursStartTimes n (i + 1)
      { st with _contoursStartIndices := st._contoursStartIndices ++ [startIndex]
                _contoursEndIndices :=
                  st._contoursEndIndices ++
                    [(startIndex + bins.length + (2 ^ 64 - 1)) % 2 ^ 64]
                _contoursSaliencesTotal :=
                  st._contoursSaliencesTotal ++ [sal.foldl (fun acc x => acc + x) 0]
                _contoursSelected := st._contoursSelected ++ [i] }

/-- `PitchContoursMonoMelody::compute` down to the test `if (!_numberFrames)`
(lines 85-131).  `Out` is the state of the two output vectors,
`resizeOutputs` their `resize(_numberFrames)`, and `rest` the remainder of the
function (lines 133-215). -/
def compute {Out : Type} (frameDuration : ℚ)
    (mean : List ℚ → Computed ℚ) (stddev : List ℚ → ℚ → Computed ℚ)
    (resizeOutputs : Nat → Out → Out)
    (rest : Nat → Stats → Out → Computed Out)
    (contoursBins contoursSaliences : List (List ℚ)) (contoursStartTimes : List ℚ)
    (duration : ℚ) (out : Out) : Computed Out :=
  (frameIndex frameDuration duration).bind fun numberFrames =>
  let numberContours := contoursBins.length
  (statsLoop mean stddev contoursBins contoursSaliences numberContours 0 {}).bind fun st =>
  (indexLoop frameDuration contoursBins contoursSaliences contoursStartTimes
      numberContours 0 st).bind fun st =>
  if duration < 0 then
    .throws "PitchContoursMonoMelody: specified duration of the input signal must be non-negative"
  else if numberContours ≠ contoursSaliences.length ∧
      numberContours ≠ contoursStartTimes.length then
    .throws "PitchContoursMelody: contoursBins, contoursSaliences, and contoursStartTimes input vectors must have the same size"
  else
    let out := resizeOutputs numberFrames out
    if numberFrames = 0 then .ok out
    else rest numberFrames st out

end PitchContoursMonoMelody

/-! ## Further operations of the pool and of `VectorEx` -/

namespace Pool

variable {R T A : Type}

/-- The loop of `checkIntegrity` over the sorted names: the first name that
equals its successor (`descNames[i] == descNames[i+1]`). -/
def firstRepeated : List String → Option String
  | a :: b :: rest => if a = b then some a else firstRepeated (b :: rest)
  | _ => none

/-- `Pool::checkIntegrity`: sort the names of `descriptorNamesNoLocking`
(`std::sort`, the order of `std::string`) and throw at the first name that
occurs twice. -/
def checkIntegrity (p : Pool R T A) : Outcome :=
  match firstRepeated
      (p.descriptorNamesNoLocking.insertionSort (fun a b => a.data ≤ b.data)) with
  | some name => .throws (.twoTypesOfData name)
  | none => .ok

end Pool

namespace VectorExT

variable {T : Type}

/-- `resize(n, val)`: `clear(); vec_.resize(n, val)`. -/
def resize_val (n : Nat) (val : T) (mem : List T) (v : VectorExT T) :
    List T × VectorExT T :=
  let r := clear mem v
  (r.1, { r.2 with vec_ := vectorResize val n r.2.vec_ })

/-- `insert(position, first, last)`: `position` is the index the iterator
points at (`begin() + position`), `range` the elements of `[first, last)`.
In view mode the elements before `position`, the range, and the elements from
`position.view_pos + 1` to the end of the view are put into `vec_`; otherwise
`vec_.insert(position.itr, first, last)`.  `none` when an iterator range is
not valid (undefined behaviour). -/
def insert (position : Nat) (range : List T) (mem : List T) (v : VectorExT T) :
    Option (List T × VectorExT T) :=
  if v.view_.len_ ≠ 0 then
    if position + 1 ≤ v.view_.len_ then
      some (mem, { vec_ := (v.view_.elems mem).take position ++ range ++
                      (v.view_.elems mem).drop (position + 1),
                   view_ := v.view_.clear })
    else none
  else if position ≤ v.vec_.length then
    some (mem, { v with vec_ := v.vec_.take position ++ range ++ v.vec_.drop position })
  else none

end VectorExT

/-! ## Viterbi (src/algorithms/standard/viterbi.cpp)

The probabilities are rationals (the claim is about exact arithmetic), the
states are `int`s, and the sizes `nState`, `nFrame`, `nTrans` are taken to fit
in an `int`. -/

namespace Viterbi

/-- The read `xs[i]` with an `int` index: undefined outside the vector. -/
def readAtInt {α : Type} (xs : List α) (i : Int) : Computed α :=
  if 0 ≤ i then readAt xs i.toNat else .undefinedBehaviour

/-- The loops `oldDelta[iState] = init[iState] * obs[0][iState]` and
`delta[jState] *= obs[iFrame][jState]` over the states: the products entry by
entry; undefined when the row of `obs` is shorter than the first vector. -/
def timesObs : List ℚ → List ℚ → Computed (List ℚ)
  | [], _ => .ok []
  | _ :: _, [] => .undefinedBehaviour
  | d :: ds, o :: os => (timesObs ds os).bind fun r => .ok (d * o :: r)

/-- The "sparse" loop over `iTrans = 0 .. nTrans-1` (`nTrans` is the size of
`transProb`), which reads `from`, `to` and `transProb` at `iTrans`; the state
is `delta` and the row `psi[iFrame]`. -/
def sparseLoop (oldDelta : List ℚ) :
    List Int → List Int → List ℚ → List ℚ × List Int → Computed (List ℚ × List Int)
  | fromState :: fromRest, toState :: toRest, currentTransProb :: rest, (delta, psiRow) =>
    (readAtInt oldDelta fromState).bind fun oldValue =>
    (readAtInt delta toState).bind fun deltaValue =>
    if oldValue * currentTransProb > deltaValue then
      sparseLoop oldDelta fromRest toRest rest
        (delta.set toState.toNat (oldValue * currentTransProb),
          psiRow.set toState.toNat fromState)
    else sparseLoop oldDelta fromRest toRest rest (delta, psiRow)
  | _, _, [], st => .ok st
  | _, _, _ :: _, _ => .undefinedBehaviour

/-- The frames `iFrame = 1 .. nFrame-1`, one for each further row of `obs`;
the state is `delta`, `oldDelta` and `psi`.  Each frame pushes a row of zeros
on `psi`, runs the sparse loop, multiplies `delta` by the observation row and
normalises into `oldDelta` (or sets `oldDelta` to `1/nState` when `deltasum`
is not positive), and zeroes `delta`. -/
def forwardLoop (nState : Nat) (fromIndex toIndex : List Int) (transProb : List ℚ) :
    List (List ℚ) → List ℚ × List ℚ × List (List Int) →
      Computed (List ℚ × List ℚ × List (List Int))
  | [], st => .ok st
  | row :: rows, (delta, oldDelta, psi) =>
    (sparseLoop oldDelta fromIndex toIndex transProb
      (delta, List.replicate nState 0)).bind fun st =>
    (timesObs st.1 row).bind fun delta2 =>
    forwardLoop nState fromIndex toIndex transProb rows
      (List.replicate nState 0,
        if delta2.sum > 0 then delta2.map (fun x => x / delta2.sum)
        else List.replicate nState (1 / (nState : ℚ)),
        psi ++ [st.2])

/-- The loop that initialises the backward step, from state `iState` on:
`_tempPath[nFrame-1]` becomes the first state whose `oldDelta` exceeds every
earlier one and `bestValue`; `last` is what `_tempPath[nFrame-1]` holds. -/
def bestLoop : List ℚ → Nat → ℚ → Int → Int
  | [], _, _, last => last
  | currentValue :: rest, iState, bestValue, last =>
    if currentValue > bestValue then bestLoop rest (iState + 1) currentValue iState
    else bestLoop rest (iState + 1) bestValue last

/-- The rest of the backward step, `_tempPath[iFrame] =
psi[iFrame+1][_tempPath[iFrame+1]]` for `iFrame = nFrame-2 .. 0`: given the
rows `psi[iFrame+1], psi[iFrame], .., psi[1]` and the state at `iFrame+1`, the
states at the frames `0 .. iFrame`. -/
def backLoop : List (List Int) → Int → Computed (List Int)
  | [], _ => .ok []
  | row :: rows, s =>
    (readAtInt row s).bind fun previous =>
    (backLoop rows previous).bind fun before => .ok (before ++ [previous])

/-- `Viterbi::compute`; the result is the output `path`.  `_tempPath` is the
member of that name as the call finds it.  The first frame divides by
`deltasum`; with a zero `deltasum` the quotients are not numbers, and no
result is modelled. -/
def compute (_tempPath : List Int) (obs : List (List ℚ)) (init : List ℚ)
    (fromIndex toIndex : List Int) (transProb : List ℚ) : Computed (List Int) :=
  if obs.length = 0 ∨ init.length = 0 ∨ fromIndex.length = 0 ∨ toIndex.length = 0
      ∨ transProb.length = 0 then
    .throws "Viterbi: one of the inputs has size zero"
  else
    let nState := init.length
    let nFrame := obs.length
    (readAt obs 0).bind fun row0 =>
    (timesObs init row0).bind fun products =>
    if products.sum = 0 then .undefinedBehaviour
    else
      (forwardLoop nState fromIndex toIndex transProb (obs.drop 1)
        (List.replicate nState 0, products.map (fun x => x / products.sum),
          [List.replicate nState 0])).bind fun st =>
      (backLoop (st.2.2.drop 1).reverse
        (bestLoop st.2.1 0 0
          ((VectorExT.vectorResize 0 nFrame _tempPath).getD (nFrame - 1) 0))).bind
        fun before =>
      .ok (before ++
        [bestLoop st.2.1 0 0
          ((VectorExT.vectorResize 0 nFrame _tempPath).getD (nFrame - 1) 0)])

/-- A state index of a model with `nState` states. -/
def inRange (nState : Nat) (s : Int) : Prop := 0 ≤ s ∧ s < nState

/-- The probability `xs[s]` of a state. -/
def val (xs : List ℚ) (s : Int) : ℚ := xs.getD s.toNat 0

/-- The entry `row[s]` of a row of `psi`. -/
def stateAt (row : List Int) (s : Int) : Int := row.getD s.toNat 0

/-- The transition probability from `a` to `b` in a list of entries
`(from, to, probability)`: the largest probability listed for the pair, 0 when
the pair is not listed. -/
def transOf : List (Int × Int × ℚ) → Int → Int → ℚ
  | [], _, _ => 0
  | e :: rest, a, b =>
    if e.1 = a ∧ e.2.1 = b then max e.2.2 (transOf rest a b) else transOf rest a b

/-- The transition probability `trans(a, b)` that the three input vectors
describe. -/
def trans (fromIndex toIndex : List Int) (transProb : List ℚ) (a b : Int) : ℚ :=
  transOf (List.zip fromIndex (List.zip toIndex transProb)) a b

/-- The factors `trans(s(t-1), s(t)) * obs[t][s(t)]` of a state sequence from
frame `t` on, `previous` being the state at frame `t-1`. -/
def pathProductFrom (tr : Int → Int → ℚ) : Int → List Int → List (List ℚ) → ℚ
  | previous, s :: rest, row :: rows =>
    tr previous s * val row s * pathProductFrom tr s rest rows
  | _, _, _ => 1

/-- The product `init[s0] * obs[0][s0] * prod_t trans(s(t-1), s(t)) *
obs[t][s(t)]` of a state sequence. -/
def pathProduct (init : List ℚ) (obs : List (List ℚ)) (tr : Int → Int → ℚ) :
    List Int → ℚ
  | [] => 1
  | s0 :: rest =>
    val init s0 * val (obs.headD []) s0 * pathProductFrom tr s0 rest obs.tail

/-- What holds of `oldDelta` and `psi` after the frames `done` of `obs`: the
vectors have `nState` entries, some `oldDelta` is positive, `psi` leads from
every state back to frame 0, and either every state sequence so far has
product 0 or `oldDelta[a]` is, up to a positive factor `c`, the largest
product of a sequence ending in `a`, reached by the one `psi` leads back
along. -/
def ForwardInv (nState : Nat) (init : List ℚ) (tr : Int → Int → ℚ)
    (done : List (List ℚ)) (oldDelta : List ℚ) (psi : List (List Int)) : Prop :=
  oldDelta.length = nState ∧
  (∀ a, inRange nState a → 0 ≤ val oldDelta a) ∧
  (∃ a, inRange nState a ∧ 0 < val oldDelta a) ∧
  psi.length = done.length ∧
  (∀ a, inRange nState a → ∃ q, backLoop (psi.drop 1).reverse a = .ok q ∧
    q.length + 1 = done.length ∧ ∀ s ∈ q, inRange nState s) ∧
  ((∀ q a, q.length + 1 = done.length → (∀ s ∈ q, inRange nState s) →
      inRange nState a → pathProduct init done tr (q ++ [a]) = 0) ∨
    ∃ c : ℚ, 0 < c ∧ ∀ a, inRange nState a →
      (∀ q, q.length + 1 = done.length → (∀ s ∈ q, inRange nState s) →
        c * pathProduct init done tr (q ++ [a]) ≤ val oldDelta a) ∧
      (0 < val oldDelta a → ∀ q, backLoop (psi.drop 1).reverse a = .ok q →
        c * pathProduct init done tr (q ++ [a]) = val oldDelta a))

end Viterbi

/-! ## Facts about the sub-maps -/

namespace PMap

variable {α : Type}

theorem find_assign_self (m : PMap α) (k : String) (v : α) :
    (m.assign k v).find k = some v := by
  induction m with
  | nil => simp [assign, find]
  | cons e r ih =>
    obtain ⟨k', v'⟩ := e
    unfold assign
    split
    · simp [find]
    · split
      · simp [find]
      · rename_i hne
        simp [find, hne, ih]

theorem find_assign_of_ne (m : PMap α) (k k' : String) (v : α) (h : k' ≠ k) :
    (m.assign k v).find k' = m.find k' := by
  induction m with
  | nil => simp [assign, find, h]
  | cons e r ih =>
    obtain ⟨k1, v1⟩ := e
    unfold assign
    split
    · simp [find, h]
    · split
      · rename_i heq
        subst heq
        simp [find, h]
      · simp [find, ih]

theorem find_erase_self (m : PMap α) (k : String) : (m.erase k).find k = none := by
  induction m with
  | nil => rfl
  | cons e r ih =>
    obtain ⟨k1, v1⟩ := e
    by_cases h : k1 = k
    · simpa [erase, List.filter, h] using ih
    · have h2 : k ≠ k1 := fun e => h e.symm
      simpa [erase, List.filter, h, find, h2] using ih

theorem find_erase_of_ne (m : PMap α) (k k' : String) (h : k' ≠ k) :
    (m.erase k).find k' = m.find k' := by
  induction m with
  | nil => rfl
  | cons e r ih =>
    obtain ⟨k1, v1⟩ := e
    by_cases h1 : k1 = k
    · subst h1
      simpa [erase, List.filter, find, h] using ih
    · by_cases h2 : k' = k1
      · simp [erase, List.filter, h1, find, h2]
      · simpa [erase, List.filter, h1, find, h2] using ih

theorem contains_eq_true_iff (m : PMap α) (k : String) :
    m.contains k = true ↔ ∃ v, m.find k = some v := by
  simp [contains, Option.isSome_iff_exists]

theorem contains_eq_false_iff (m : PMap α) (k : String) :
    m.contains k = false ↔ m.find k = none := by
  cases h : m.find k <;> simp [contains, h]

theorem find_insert_of_absent (m : PMap α) (k : String) (v : α) (h : m.find k = none) :
    (m.insert k v).find k = some v := by
  have hc : m.contains k = false := (contains_eq_false_iff m k).2 h
  simp [insert, hc, find_assign_self]

theorem find_insert_of_ne (m : PMap α) (k k' : String) (v : α) (h : k' ≠ k) :
    (m.insert k v).find k' = m.find k' := by
  unfold insert
  split
  · rfl
  · exact find_assign_of_ne m k k' v h

theorem find_pushBack_self {β : Type} (m : PMap (List β)) (k : String) (x : β) :
    (m.pushBack k x).find k = some ((m.find k).getD [] ++ [x]) := by
  simp [pushBack, find_assign_self, subscript]

theorem find_pushBack_of_ne {β : Type} (m : PMap (List β)) (k k' : String) (x : β)
    (h : k' ≠ k) : (m.pushBack k x).find k' = m.find k' := by
  simp [pushBack, find_assign_of_ne _ _ _ _ h]

end PMap

/-! ## Facts about the loops -/

theorem forRange_of_ge {σ : Type} (lo hi : Nat) (body : Nat → σ → Option σ) (s : σ)
    (h : hi ≤ lo) : Pool.forRange lo hi body s = some s := by
  have h0 : hi - lo = 0 := Nat.sub_eq_zero_of_le h
  simp [Pool.forRange, h0]

theorem forRange_of_lt {σ : Type} (lo hi : Nat) (body : Nat → σ → Option σ) (s : σ)
    (h : lo < hi) :
    Pool.forRange lo hi body s = (body lo s).bind (Pool.forRange (lo + 1) hi body) := by
  have h1 : hi - lo = (hi - (lo + 1)) + 1 := by omega
  unfold Pool.forRange
  rw [h1, List.range'_succ, List.foldlM_cons]
  rfl

/-- The copying loop from index `lo` appends `xs.drop lo` under `name` and
touches no other key. -/
theorem forRange_pushAt {β : Type} (name : String) (xs : List β) :
    ∀ (n lo : Nat) (m : PMap (List β)) (s : List β),
      xs.length - lo = n → m.find name = some s →
      ∃ m', Pool.forRange lo xs.length (Pool.pushAt name xs) m = some m' ∧
        m'.find name = some (s ++ xs.drop lo) ∧
        ∀ k', k' ≠ name → m'.find k' = m.find k' := by
  intro n
  induction n with
  | zero =>
    intro lo m s hn hs
    have hle : xs.length ≤ lo := by omega
    refine ⟨m, forRange_of_ge _ _ _ _ hle, ?_, fun _ _ => rfl⟩
    simp [List.drop_eq_nil_of_le hle, hs]
  | succ n ih =>
    intro lo m s hn hs
    have hlt : lo < xs.length := by omega
    have hstep : Pool.pushAt name xs lo m = some (m.pushBack name xs[lo]) := by
      simp [Pool.pushAt, List.getElem?_eq_getElem hlt]
    have hfind : (m.pushBack name xs[lo]).find name = some (s ++ [xs[lo]]) := by
      simp [PMap.find_pushBack_self, hs]
    obtain ⟨m', h1, h2, h3⟩ := ih (lo + 1) (m.pushBack name xs[lo]) (s ++ [xs[lo]])
      (by omega) hfind
    refine ⟨m', ?_, ?_, ?_⟩
    · rw [forRange_of_lt _ _ _ _ hlt, hstep]
      exact h1
    · rw [h2, List.drop_eq_getElem_cons hlt]
      simp
    · intro k' hk'
      rw [h3 k' hk', PMap.find_pushBack_of_ne _ _ _ _ hk']

/-- The interleaving loop from index `lo` appends the alternation of
`temp.drop lo` and `value.drop lo` under `name` and touches no other key. -/
theorem forRange_pushBothAt {β : Type} (name : String) (temp value : List β)
    (hlen : value.length = temp.length) :
    ∀ (n lo : Nat) (m : PMap (List β)) (s : List β),
      temp.length - lo = n → m.find name = some s →
      ∃ m', Pool.forRange lo temp.length (Pool.pushBothAt name temp value) m = some m' ∧
        m'.find name = some (s ++ Pool.interleaved (temp.drop lo) (value.drop lo)) ∧
        ∀ k', k' ≠ name → m'.find k' = m.find k' := by
  intro n
  induction n with
  | zero =>
    intro lo m s hn hs
    have hle : temp.length ≤ lo := by omega
    refine ⟨m, forRange_of_ge _ _ _ _ hle, ?_, fun _ _ => rfl⟩
    simp [List.drop_eq_nil_of_le hle, hs, Pool.interleaved]
  | succ n ih =>
    intro lo m s hn hs
    have hlt : lo < temp.length := by omega
    have hlt' : lo < value.length := by omega
    have hstep : Pool.pushBothAt name temp value lo m
        = some ((m.pushBack name temp[lo]).pushBack name value[lo]) := by
      simp [Pool.pushBothAt, List.getElem?_eq_getElem hlt, List.getElem?_eq_getElem hlt']
    have hfind : ((m.pushBack name temp[lo]).pushBack name value[lo]).find name
        = some (s ++ [temp[lo], value[lo]]) := by
      simp [PMap.find_pushBack_self, hs]
    obtain ⟨m', h1, h2, h3⟩ := ih (lo + 1) _ (s ++ [temp[lo], value[lo]]) (by omega) hfind
    refine ⟨m', ?_, ?_, ?_⟩
    · rw [forRange_of_lt _ _ _ _ hlt, hstep]
      exact h1
    · rw [h2, List.drop_eq_getElem_cons hlt, List.drop_eq_getElem_cons hlt']
      simp [Pool.interleaved]
    · intro k' hk'
      rw [h3 k' hk', PMap.find_pushBack_of_ne _ _ _ _ hk',
        PMap.find_pushBack_of_ne _ _ _ _ hk']

theorem length_interleaved {β : Type} :
    ∀ (a b : List β), b.length = a.length →
      (Pool.interleaved a b).length = 2 * a.length := by
  intro a
  induction a with
  | nil => intro b _; simp [Pool.interleaved]
  | cons o os ih =>
    intro b hb
    cases b with
    | nil => simp at hb
    | cons n ns =>
      have := ih ns (by simpa using hb)
      simp [Pool.interleaved, this]
      omega

theorem getElem?_interleaved {β : Type} :
    ∀ (a b : List β), b.length = a.length → ∀ i : Nat,
      (Pool.interleaved a b)[2 * i]? = a[i]? ∧ (Pool.interleaved a b)[2 * i + 1]? = b[i]? := by
  intro a
  induction a with
  | nil =>
    intro b hb i
    have hb' : b = [] := List.length_eq_zero.1 (by simpa using hb)
    subst hb'
    simp [Pool.interleaved]
  | cons o os ih =>
    intro b hb i
    cases b with
    | nil => simp at hb
    | cons n ns =>
      cases i with
      | zero => simp [Pool.interleaved]
      | succ i =>
        have h := ih ns (by simpa using hb) i
        have e1 : 2 * (i + 1) = (2 * i + 1) + 1 := by omega
        have e2 : 2 * (i + 1) + 1 = ((2 * i + 1) + 1) + 1 := by omega
        constructor
        · rw [e1]
          simpa [Pool.interleaved] using h.1
        · rw [e2]
          simpa [Pool.interleaved] using h.2

/-! ## Facts about the name listing -/

theorem set_append_length {α : Type} (pre : List α) (r x : α) (rs : List α) :
    (pre ++ r :: rs).set pre.length x = pre ++ x :: rs := by
  induction pre with
  | nil => rfl
  | cons a pre ih => simp [List.set, ih]

/-- One `ADD_DESC_NAMES` loop, started at the end of the part already filled,
overwrites the next default strings with the keys. -/
theorem ADD_DESC_NAMES_replicate (keys : List String) :
    ∀ (pre : List String) (n : Nat), keys.length ≤ n →
      Pool.ADD_DESC_NAMES keys (pre ++ List.replicate n "", pre.length)
        = ((pre ++ keys) ++ List.replicate (n - keys.length) "", (pre ++ keys).length) := by
  induction keys with
  | nil => intro pre n _; simp [Pool.ADD_DESC_NAMES]
  | cons k ks ih =>
    intro pre n hn
    obtain ⟨n', rfl⟩ : ∃ n', n = n' + 1 := ⟨n - 1, by simp at hn; omega⟩
    have hks : ks.length ≤ n' := by simp at hn; omega
    have h := ih (pre ++ [k]) n' hks
    have e : (k :: ks).foldl (fun s k => (s.1.set s.2 k, s.2 + 1))
        (pre ++ List.replicate (n' + 1) "", pre.length)
        = ks.foldl (fun s k => (s.1.set s.2 k, s.2 + 1))
          ((pre ++ [k]) ++ List.replicate n' "", (pre ++ [k]).length) := by
      rw [List.foldl_cons, List.replicate_succ]
      simp only [set_append_length]
      simp
    unfold Pool.ADD_DESC_NAMES at h ⊢
    rw [e, h]
    simp

theorem keys_length {α : Type} (m : PMap α) : m.keys.length = m.size := by
  simp [PMap.keys, PMap.size]

/-- What `descriptorNamesNoLocking` returns: the keys of the eleven sub-maps it
loops over, then one empty string per key of `_poolSingleTensorReal`. -/
theorem descriptorNamesNoLocking_eq {R T A : Type} (p : Pool R T A) :
    p.descriptorNamesNoLocking =
      p._poolSingleReal.keys ++ p._poolReal.keys ++ p._poolSingleVectorReal.keys ++
      p._poolVectorReal.keys ++ p._poolSingleString.keys ++ p._poolString.keys ++
      p._poolSingleVectorString.keys ++ p._poolVectorString.keys ++
      p._poolArray2DReal.keys ++ p._poolTensorReal.keys ++ p._poolStereoSample.keys ++
      List.replicate p._poolSingleTensorReal.size "" := by
  unfold Pool.descriptorNamesNoLocking
  simp only []
  have start : ∀ n : Nat, (List.replicate n "", 0)
      = (([] : List String) ++ List.replicate n "", ([] : List String).length) := fun _ => rfl
  rw [start]
  rw [ADD_DESC_NAMES_replicate _ _ _ (by rw [keys_length]; omega)]
  rw [ADD_DESC_NAMES_replicate _ _ _ (by rw [keys_length, keys_length]; omega)]
  rw [ADD_DESC_NAMES_replicate _ _ _ (by simp only [keys_length]; omega)]
  rw [ADD_DESC_NAMES_replicate _ _ _ (by simp only [keys_length]; omega)]
  rw [ADD_DESC_NAMES_replicate _ _ _ (by simp only [keys_length]; omega)]
  rw [ADD_DESC_NAMES_replicate _ _ _ (by simp only [keys_length]; omega)]
  rw [ADD_DESC_NAMES_replicate _ _ _ (by simp only [keys_length]; omega)]
  rw [ADD_DESC_NAMES_replicate _ _ _ (by simp only [keys_length]; omega)]
  rw [ADD_DESC_NAMES_replicate _ _ _ (by simp only [keys_length]; omega)]
  rw [ADD_DESC_NAMES_replicate _ _ _ (by simp only [keys_length]; omega)]
  rw [ADD_DESC_NAMES_replicate _ _ _ (by simp only [keys_length]; omega)]
  simp only [keys_length, List.nil_append]
  congr 2
  omega

/-- `validateKey`'s loop accepts `name` exactly when no listed name equals it,
is a parent of it, or is a child of it. -/
theorem validateKeyLoop_eq_none_iff (name : String) (names : List String) :
    Pool.validateKeyLoop name names = none ↔
      ∀ n ∈ names, name ≠ n ∧ Pool.isParentOf n name = false ∧
        Pool.isParentOf name n = false := by
  induction names with
  | nil => simp [Pool.validateKeyLoop]
  | cons n rest ih =>
    unfold Pool.validateKeyLoop
    by_cases h1 : name = n
    · simp [h1]
    · by_cases h2 : findAtZero name (n ++ ".") = true
      · simp [h1, h2, Pool.isParentOf]
      · by_cases h3 : findAtZero n (name ++ ".") = true
        · simp [h1, h2, h3, Pool.isParentOf]
        · simp [h1, h2, h3, Pool.isParentOf, ih]

/-! ## Facts about the pool's fields -/

namespace Pool

variable {R T A : Type}

@[simp] theorem getMulti_setMulti (p : Pool R T A) (t : MultiName)
    (m : PMap (List (t.type R T A))) : (p.setMulti t m).getMulti t = m := by
  cases t <;> rfl

theorem getMulti_setMulti_of_ne (p : Pool R T A) (t t' : MultiName)
    (m : PMap (List (t.type R T A))) (h : t' ≠ t) :
    (p.setMulti t m).getMulti t' = p.getMulti t' := by
  cases t <;> cases t' <;> first | rfl | exact absurd rfl h

@[simp] theorem getSingle_setMulti (p : Pool R T A) (t : MultiName) (t' : SingleName)
    (m : PMap (List (t.type R T A))) : (p.setMulti t m).getSingle t' = p.getSingle t' := by
  cases t <;> cases t' <;> rfl

@[simp] theorem getSingle_setSingle (p : Pool R T A) (t : SingleName)
    (m : PMap (t.type R T)) : (p.setSingle t m).getSingle t = m := by
  cases t <;> rfl

theorem getSingle_setSingle_of_ne (p : Pool R T A) (t t' : SingleName)
    (m : PMap (t.type R T)) (h : t' ≠ t) :
    (p.setSingle t m).getSingle t' = p.getSingle t' := by
  cases t <;> cases t' <;> first | rfl | exact absurd rfl h

@[simp] theorem getMulti_setSingle (p : Pool R T A) (t : SingleName) (t' : MultiName)
    (m : PMap (t.type R T)) : (p.setSingle t m).getMulti t' = p.getMulti t' := by
  cases t <;> cases t' <;> rfl

@[simp] theorem setSingle_setSingle (p : Pool R T A) (t : SingleName)
    (m m' : PMap (t.type R T)) : (p.setSingle t m).setSingle t m' = p.setSingle t m' := by
  cases t <;> rfl

@[simp] theorem setMulti_setMulti (p : Pool R T A) (t : MultiName)
    (m m' : PMap (List (t.type R T A))) : (p.setMulti t m).setMulti t m' = p.setMulti t m' := by
  cases t <;> rfl

@[simp] theorem getSingle_empty (t : SingleName) :
    (empty : Pool R T A).getSingle t = [] := by
  cases t <;> rfl

@[simp] theorem getMulti_empty (t : MultiName) :
    (empty : Pool R T A).getMulti t = [] := by
  cases t <;> rfl

@[simp] theorem validateKey_empty (name : String) :
    (empty : Pool R T A).validateKey name = none := rfl

/-- When the validity test passes, `set` on a key of `_poolSingle##tname`
overwrites its value. -/
theorem set_of_present (t : SingleName) (isValid : t.type R T → Bool) (k : String)
    (w : t.type R T) (vc : Bool) (p : Pool R T A)
    (hw : vc = false ∨ isValid w = true) (hc : (p.getSingle t).contains k = true) :
    set t isValid k w vc p = (.ok, p.setSingle t ((p.getSingle t).assign k w)) := by
  have hvc : (vc && !isValid w) = false := by
    rcases hw with h | h <;> simp [h]
  simp [set, SPECIALIZE_SET_IMPL, hvc, hc]

/-- When the validity test passes, `set` on a key that is in the sub-map or
that `validateKey` accepts stores the value under the key. -/
theorem set_of_accepted (t : SingleName) (isValid : t.type R T → Bool) (k : String)
    (v : t.type R T) (vc : Bool) (p : Pool R T A)
    (hv : vc = false ∨ isValid v = true)
    (hk : (p.getSingle t).contains k = true ∨ p.validateKey k = none) :
    set t isValid k v vc p = (.ok, p.setSingle t ((p.getSingle t).assign k v)) := by
  by_cases hc : (p.getSingle t).contains k = true
  · exact set_of_present t isValid k v vc p hv hc
  · have hval : p.validateKey k = none := hk.resolve_left hc
    have hvc : (vc && !isValid v) = false := by
      rcases hv with h | h <;> simp [h]
    simp [set, SPECIALIZE_SET_IMPL, hvc, hc, hval]

/-- C2. `Pool::set` keeps one value per key and replaces it.  With the validity
test passing for `v` and `w`, and `k` either a key of the sub-map already or
accepted by `validateKey`: `set(k,v)` and then `set(k,w)` both return, the
sub-map then maps `k` to `w`, and every other key of that sub-map and every
other sub-map is as before the two calls; on the empty pool the sub-map is left
with the single entry `(k, w)`. -/
theorem set_replaces (t : SingleName) (isValid : t.type R T → Bool) (k : String)
    (v w : t.type R T) (vc1 vc2 : Bool) (p : Pool R T A)
    (hv : vc1 = false ∨ isValid v = true) (hw : vc2 = false ∨ isValid w = true)
    (hk : (p.getSingle t).contains k = true ∨ p.validateKey k = none) :
    (set t isValid k v vc1 p).1 = .ok ∧
    (set t isValid k w vc2 (set t isValid k v vc1 p).2).1 = .ok ∧
    ((set t isValid k w vc2 (set t isValid k v vc1 p).2).2.getSingle t).find k = some w ∧
    (∀ k', k' ≠ k →
      ((set t isValid k w vc2 (set t isValid k v vc1 p).2).2.getSingle t).find k'
        = (p.getSingle t).find k') ∧
    (∀ t', t' ≠ t →
      (set t isValid k w vc2 (set t isValid k v vc1 p).2).2.getSingle t' = p.getSingle t') ∧
    (∀ t', (set t isValid k w vc2 (set t isValid k v vc1 p).2).2.getMulti t' = p.getMulti t') ∧
    (p = empty →
      (set t isValid k w vc2 (set t isValid k v vc1 p).2).2 = empty.setSingle t [(k, w)]) := by
  have e1 := set_of_accepted t isValid k v vc1 p hv hk
  have hc : ((set t isValid k v vc1 p).2.getSingle t).contains k = true := by
    rw [e1]
    simp [PMap.contains, PMap.find_assign_self]
  have e2 := set_of_present t isValid k w vc2 _ hw hc
  rw [e2, e1]
  refine ⟨rfl, rfl, ?_, ?_, ?_, ?_, ?_⟩
  · simp [PMap.find_assign_self]
  · intro k' hk'
    simp [PMap.find_assign_of_ne _ _ _ _ hk']
  · intro t' ht'
    simp [getSingle_setSingle_of_ne _ _ _ _ ht']
  · intro t'
    simp
  · intro hp
    subst hp
    have hirr : ¬ k.data < k.data := lt_irrefl _
    simp [PMap.assign, hirr]

/-- C2 on the empty pool: `set("a.b", 1); set("a.b", 2)` leaves the single
value 2. -/
theorem set_replaces_witness :
    ((set .real (fun _ => true) "a.b" (2 : Int) false
        (set .real (fun _ => true) "a.b" (1 : Int) false
          (empty : Pool Int Unit Unit)).2).2.getSingle .real) = [("a.b", 2)] := by
  have h := (set_replaces .real (fun _ => true) "a.b" (1 : Int) 2 false false
    (empty : Pool Int Unit Unit) (Or.inl rfl) (Or.inl rfl) (Or.inr rfl)).2.2.2.2.2.2 rfl
  rw [h]
  rfl

/-! ### Naming conflicts seen by `validateKey` -/

theorem mem_keys_of_contains {α : Type} (m : PMap α) (k : String)
    (h : m.contains k = true) : k ∈ m.keys := by
  induction m with
  | nil => simp [PMap.contains, PMap.find] at h
  | cons e r ih =>
    obtain ⟨k1, v1⟩ := e
    by_cases hk : k = k1
    · simp [PMap.keys, hk]
    · have : PMap.contains r k = true := by simpa [PMap.contains, PMap.find, hk] using h
      have := ih this
      simp only [PMap.keys] at this ⊢
      simp [this]

/-- A key of a multi-value sub-map is among the names `validateKey` checks. -/
theorem mem_descriptorNamesNoLocking_of_multi (p : Pool R T A) (t : MultiName) (k : String)
    (h : (p.getMulti t).contains k = true) : k ∈ p.descriptorNamesNoLocking := by
  rw [descriptorNamesNoLocking_eq]
  have hm := mem_keys_of_contains _ k h
  cases t <;> simp only [getMulti] at hm <;> simp [hm]

/-- A key of a single-value sub-map other than `_poolSingleTensorReal` is among
the names `validateKey` checks. -/
theorem mem_descriptorNamesNoLocking_of_single (p : Pool R T A) (t : SingleName)
    (k : String) (ht : t ≠ .tensorReal) (h : (p.getSingle t).contains k = true) :
    k ∈ p.descriptorNamesNoLocking := by
  rw [descriptorNamesNoLocking_eq]
  have hm := mem_keys_of_contains _ k h
  cases t <;> first | exact absurd rfl ht | (simp only [getSingle] at hm; simp [hm])

/-- `validateKey` throws for a name that equals, is a child of, or is a parent
of a name it checks. -/
theorem validateKey_isSome_of_conflict (p : Pool R T A) (name n : String)
    (hn : n ∈ p.descriptorNamesNoLocking)
    (hconf : name = n ∨ isParentOf n name = true ∨ isParentOf name n = true) :
    ∃ e, p.validateKey name = some e := by
  cases hval : p.validateKey name with
  | some e => exact ⟨e, rfl⟩
  | none =>
    have h := (validateKeyLoop_eq_none_iff name _).1 hval n hn
    rcases hconf with h1 | h2 | h3
    · exact absurd h1 h.1
    · simp [h.2.1] at h2
    · simp [h.2.2] at h3

theorem isParentOf_child (k s : String) : isParentOf k (k ++ "." ++ s) = true := by
  simp [isParentOf, findAtZero, String.data_append]

/-- Where the conflicting name is one `validateKey` checks, `add` under a name
that is new to its sub-map throws and stores nothing.  This is the behaviour
C3 and C4 describe, for all sub-maps but `_poolSingleTensorReal`. -/
theorem add_throws_of_conflict (t : MultiName) (isValid : t.type R T A → Bool)
    (name n : String) (x : t.type R T A) (vc : Bool) (p : Pool R T A)
    (hn : n ∈ p.descriptorNamesNoLocking)
    (hconf : name = n ∨ isParentOf n name = true ∨ isParentOf name n = true)
    (hnew : (p.getMulti t).contains name = false) :
    (add t isValid name x vc p).1.isThrow = true ∧ (add t isValid name x vc p).2 = p := by
  obtain ⟨e, he⟩ := validateKey_isSome_of_conflict p name n hn hconf
  unfold add SPECIALIZE_ADD_IMPL
  split
  · exact ⟨rfl, rfl⟩
  · simp [hnew, he, Outcome.isThrow]

/-- The same for `set`. -/
theorem set_throws_of_conflict (t : SingleName) (isValid : t.type R T → Bool)
    (name n : String) (x : t.type R T) (vc : Bool) (p : Pool R T A)
    (hn : n ∈ p.descriptorNamesNoLocking)
    (hconf : name = n ∨ isParentOf n name = true ∨ isParentOf name n = true)
    (hnew : (p.getSingle t).contains name = false) :
    (set t isValid name x vc p).1.isThrow = true ∧ (set t isValid name x vc p).2 = p := by
  obtain ⟨e, he⟩ := validateKey_isSome_of_conflict p name n hn hconf
  unfold set SPECIALIZE_SET_IMPL
  split
  · exact ⟨rfl, rfl⟩
  · simp [hnew, he, Outcome.isThrow]

/-- C3, evaluated where the code departs from it.  A value held in the
single-tensor sub-map is not seen by `validateKey`: after `set("a", tensor)`
the call `add("a.b", 2)` returns and stores, and after `set("a.b", tensor)`
the call `add("a", 1)` returns and stores. -/
theorem add_under_single_tensor_no_conflict :
    (add .real (fun _ => true) "a.b" (2 : Int) false
      (set .tensorReal (fun _ => true) "a" ([7] : List Int) false
        (empty : Pool Int (List Int) Unit)).2)
      = (.ok, { _poolReal := [("a.b", [2])], _poolSingleTensorReal := [("a", [7])] }) ∧
    (add .real (fun _ => true) "a" (1 : Int) false
      (set .tensorReal (fun _ => true) "a.b" ([7] : List Int) false
        (empty : Pool Int (List Int) Unit)).2)
      = (.ok, { _poolReal := [("a", [1])], _poolSingleTensorReal := [("a.b", [7])] }) := by
  constructor <;> rfl

/-- C4, evaluated where the code departs from it.  After `set("a", tensor)` the
name "a" exists as a single tensor, yet `add("a", 1)` (a `Real`) and
`set("a", "x")` (a string) both return and store their value under "a". -/
theorem cross_type_after_single_tensor :
    (add .real (fun _ => true) "a" (1 : Int) false
      (set .tensorReal (fun _ => true) "a" ([7] : List Int) false
        (empty : Pool Int (List Int) Unit)).2)
      = (.ok, { _poolReal := [("a", [1])], _poolSingleTensorReal := [("a", [7])] }) ∧
    (set .string (fun _ => true) "a" "x" false
      (set .tensorReal (fun _ => true) "a" ([7] : List Int) false
        (empty : Pool Int (List Int) Unit)).2)
      = (.ok, { _poolSingleString := [("a", "x")], _poolSingleTensorReal := [("a", [7])] }) := by
  constructor <;> rfl

/-- C5, evaluated where the code departs from it.  From the empty pool,
`set("a", tensor); add("a", 1)` reaches a pool in which "a" is a key of two
sub-maps, and `set("a", tensor); add("a.b", 2)` reaches one in which the
stored key "a" is a parent of the stored key "a.b". -/
theorem naming_invariant_broken_by_single_tensor :
    subMapsHolding
      (add .real (fun _ => true) "a" (1 : Int) false
        (set .tensorReal (fun _ => true) "a" ([7] : List Int) false
          (empty : Pool Int (List Int) Unit)).2).2 "a" = 2 ∧
    (descriptorNames
      (add .real (fun _ => true) "a.b" (2 : Int) false
        (set .tensorReal (fun _ => true) "a" ([7] : List Int) false
          (empty : Pool Int (List Int) Unit)).2).2 = ["a.b", "a"] ∧
      isParentOf "a" "a.b" = true) := by
  decide

/-! ### `merge` -/

theorem merge_of_specialized (t : MultiName) (h : t ≠ .array2DReal) (name : String)
    (value : List (t.type R T A)) (mergeType : String) (p : Pool R T A) :
    merge t name value mergeType p = SPECIALIZE_MERGE_IMPL t name value mergeType p := by
  cases t <;> first | rfl | exact absurd rfl h

theorem merge_array2DReal (name : String) (value : List A) (mergeType : String)
    (p : Pool R T A) :
    merge .array2DReal name value mergeType p = mergeArray2D name value mergeType p := rfl

/-- The macro's merge on an existing key with a non-empty `value`: the
dispatch on `mergeType`. -/
theorem specialized_merge_of_present (t : MultiName) (name : String)
    (value : List (t.type R T A)) (mergeType : String) (p : Pool R T A)
    (hne : value ≠ []) (hc : (p.getMulti t).contains name = true) :
    SPECIALIZE_MERGE_IMPL t name value mergeType p =
      if mergeType = "" then (.throws (.mergeTypeMissing name), p)
      else if mergeType = "append" then
        finishMulti p t (forRange 0 value.length (pushAt name value) (p.getMulti t))
      else if mergeType = "replace" then
        (.ok, p.setMulti t (((p.getMulti t).erase name).insert name value))
      else if mergeType = "interleave" then
        if value.length ≠ ((p.getMulti t).subscript [] name).length then
          (.throws (.interleaveSizes name), p)
        else mergeInterleave t name value p
      else (.throws (.unknownMergeType mergeType), p) := by
  have he : value.isEmpty = false := by
    cases value with
    | nil => exact absurd rfl hne
    | cons _ _ => rfl
  simp [SPECIALIZE_MERGE_IMPL, he, hc]

/-- The macro's merge of an empty `value` returns at once. -/
theorem specialized_merge_of_empty (t : MultiName) (name : String) (mergeType : String)
    (p : Pool R T A) :
    SPECIALIZE_MERGE_IMPL t name ([] : List (t.type R T A)) mergeType p = (.ok, p) := by
  simp [SPECIALIZE_MERGE_IMPL]

/-- The interleaving branch on sequences of one non-zero length. -/
theorem mergeInterleave_spec (t : MultiName) (k : String)
    (old new : List (t.type R T A)) (p : Pool R T A)
    (hold : (p.getMulti t).find k = some old) (hlen : new.length = old.length)
    (hne : new ≠ []) :
    ∃ m', mergeInterleave t k new p = (.ok, p.setMulti t m') ∧
      m'.find k = some (interleaved old new) ∧
      ∀ k', k' ≠ k → m'.find k' = (p.getMulti t).find k' := by
  have hsub : (p.getMulti t).subscript [] k = old := by simp [PMap.subscript, hold]
  cases new with
  | nil => exact absurd rfl hne
  | cons n ns =>
    cases old with
    | nil => simp at hlen
    | cons o os =>
      have hfind : ((((p.getMulti t).erase k).pushBack k o).pushBack k n).find k
          = some [o, n] := by
        simp [PMap.find_pushBack_self, PMap.find_erase_self]
      obtain ⟨m', h1, h2, h3⟩ := forRange_pushBothAt k (o :: os) (n :: ns) hlen
        ((o :: os).length - 1) 1 _ [o, n] rfl hfind
      refine ⟨m', ?_, ?_, ?_⟩
      · unfold mergeInterleave
        rw [hsub]
        have h0 : pushBothAt k (o :: os) (n :: ns) 0 ((p.getMulti t).erase k)
            = some ((((p.getMulti t).erase k).pushBack k o).pushBack k n) := by
          simp [pushBothAt]
        show finishMulti p t ((pushBothAt k (o :: os) (n :: ns) 0 ((p.getMulti t).erase k)).bind
          (forRange 1 (o :: os).length (pushBothAt k (o :: os) (n :: ns)))) = _
        rw [h0, Option.some_bind, h1]
        rfl
      · rw [h2]
        simp [interleaved]
      · intro k' hk'
        rw [h3 k' hk', PMap.find_pushBack_of_ne _ _ _ _ hk',
          PMap.find_pushBack_of_ne _ _ _ _ hk', PMap.find_erase_of_ne _ _ _ hk']

/-- C6. `merge` with mode "interleave" on a key holding `old`, given `new` of
the same length `n`: the call returns and the key then holds the sequence of
length `2n` whose element `2i` is `old[i]` and whose element `2i+1` is
`new[i]`, that is old[0], new[0], old[1], new[1], ...  (For `Array2D<Real>`,
whose overload has no test for an empty `value`, `n` is taken non-zero.) -/
theorem merge_interleave_alternates (t : MultiName) (k : String)
    (old new : List (t.type R T A)) (p : Pool R T A)
    (hold : (p.getMulti t).find k = some old) (hlen : new.length = old.length)
    (ht : t ≠ .array2DReal ∨ new ≠ []) :
    (merge t k new "interleave" p).1 = .ok ∧
    ∃ r, ((merge t k new "interleave" p).2.getMulti t).find k = some r ∧
      r = interleaved old new ∧ r.length = 2 * old.length ∧
      ∀ i : Nat, r[2 * i]? = old[i]? ∧ r[2 * i + 1]? = new[i]? := by
  have hc : (p.getMulti t).contains k = true := (PMap.contains_eq_true_iff _ _).2 ⟨old, hold⟩
  have hsub : (p.getMulti t).subscript [] k = old := by simp [PMap.subscript, hold]
  have key : merge t k new "interleave" p = (.ok, p) ∧ new = [] ∨
      ∃ m', merge t k new "interleave" p = (.ok, p.setMulti t m') ∧
        m'.find k = some (interleaved old new) := by
    by_cases hne : new = []
    · left
      have ht' : t ≠ .array2DReal := ht.resolve_right (fun h => h hne)
      subst hne
      exact ⟨by rw [merge_of_specialized t ht', specialized_merge_of_empty], rfl⟩
    · right
      obtain ⟨m', h1, h2, _⟩ := mergeInterleave_spec t k old new p hold hlen hne
      refine ⟨m', ?_, h2⟩
      by_cases ht' : t = .array2DReal
      · subst ht'
        rw [merge_array2DReal]
        simp [mergeArray2D, hc, hsub, hlen, h1]
      · rw [merge_of_specialized t ht', specialized_merge_of_present t k new _ p hne hc]
        simp [hsub, hlen, h1]
  rcases key with ⟨h, hnil⟩ | ⟨m', h, hm'⟩
  · subst hnil
    have hold' : old = [] := List.length_eq_zero.1 (by simpa using hlen.symm)
    subst hold'
    rw [h]
    exact ⟨rfl, [], hold, by simp [interleaved], rfl, by simp⟩
  · rw [h]
    refine ⟨rfl, interleaved old new, by simpa using hm', rfl,
      length_interleaved old new hlen, getElem?_interleaved old new hlen⟩

/-- The `Array2D<Real>` overload has no test for an empty `value`: when the
key holds the empty sequence (as after a "replace" by an empty one) and the
incoming sequence is empty, the sizes agree and `temp[0]` is read out of
range. -/
theorem mergeArray2D_interleave_both_empty :
    merge .array2DReal "k" ([] : List Unit) "interleave"
        ({ _poolArray2DReal := [("k", [])] } : Pool Int Unit Unit)
      = (.undefinedBehaviour, { _poolArray2DReal := [("k", [])] }) := by
  rfl

/-- C6 at the input of the specification: [10, 20] interleaved with [1, 2]
gives [10, 1, 20, 2]. -/
theorem merge_interleave_alternates_witness :
    ∃ r, ((merge .real "k" ([1, 2] : List Int) "interleave"
        ({ _poolReal := [("k", [10, 20])] } : Pool Int Unit Unit)).2.getMulti .real).find "k"
        = some r ∧ r = [10, 1, 20, 2] := by
  obtain ⟨r, h1, h2, _⟩ := (merge_interleave_alternates .real "k" ([10, 20] : List Int) [1, 2]
    ({ _poolReal := [("k", [10, 20])] } : Pool Int Unit Unit) rfl rfl (Or.inl (by decide))).2
  exact ⟨r, h1, by rw [h2]; rfl⟩

/-- C7, refuted as stated: on the pool reached by `add("k",10); add("k",20)`,
`merge("k", [], "interleave")` has an incoming length 0 against an existing
length 2, and it returns without raising anything. -/
theorem merge_interleave_empty_incoming_returns :
    ((add .real (fun _ => true) "k" (20 : Int) false
        (add .real (fun _ => true) "k" (10 : Int) false
          (empty : Pool Int Unit Unit)).2).2.getMulti .real).find "k" = some [10, 20] ∧
    (merge .real "k" ([] : List Int) "interleave"
      (add .real (fun _ => true) "k" (20 : Int) false
        (add .real (fun _ => true) "k" (10 : Int) false
          (empty : Pool Int Unit Unit)).2).2).1 = .ok := by
  decide

/-- C7, amended.  `merge` with mode "interleave" on a key holding `old` throws
"cannot interleave descriptors with different sizes" and leaves the pool as it
was whenever the incoming sequence has another length and is non-empty (or the
type is `Array2D<Real>`); for the other types an empty incoming sequence makes
the call return at once, the pool as it was. -/
theorem merge_interleave_length_mismatch (t : MultiName) (k : String)
    (old new : List (t.type R T A)) (p : Pool R T A)
    (hold : (p.getMulti t).find k = some old) (hlen : new.length ≠ old.length) :
    (t = .array2DReal ∨ new ≠ [] →
      merge t k new "interleave" p = (.throws (.interleaveSizes k), p)) ∧
    (t ≠ .array2DReal → new = [] → merge t k new "interleave" p = (.ok, p)) := by
  have hc : (p.getMulti t).contains k = true := (PMap.contains_eq_true_iff _ _).2 ⟨old, hold⟩
  have hsub : (p.getMulti t).subscript [] k = old := by simp [PMap.subscript, hold]
  constructor
  · intro ht
    by_cases ht' : t = .array2DReal
    · subst ht'
      rw [merge_array2DReal]
      simp [mergeArray2D, hc, hsub, hlen]
    · have hne : new ≠ [] := ht.resolve_left ht'
      rw [merge_of_specialized t ht', specialized_merge_of_present t k new _ p hne hc]
      simp [hsub, hlen]
  · intro ht' hnil
    subst hnil
    rw [merge_of_specialized t ht', specialized_merge_of_empty]

/-- C7 amended, at `merge("k", [1], "interleave")` against [10, 20]. -/
theorem merge_interleave_length_mismatch_witness :
    merge .real "k" ([1] : List Int) "interleave"
        ({ _poolReal := [("k", [10, 20])] } : Pool Int Unit Unit)
      = (.throws (.interleaveSizes "k"), { _poolReal := [("k", [10, 20])] }) :=
  (merge_interleave_length_mismatch .real "k" ([10, 20] : List Int) [1]
    ({ _poolReal := [("k", [10, 20])] } : Pool Int Unit Unit) rfl (by decide)).1
    (Or.inr (by decide))

/-- C8. `merge` with mode "append" on a key holding `s`: the call returns and
the key then holds `s` followed by the incoming sequence. -/
theorem merge_append (t : MultiName) (k : String)
    (s new : List (t.type R T A)) (p : Pool R T A)
    (hs : (p.getMulti t).find k = some s) :
    (merge t k new "append" p).1 = .ok ∧
    ((merge t k new "append" p).2.getMulti t).find k = some (s ++ new) := by
  have hc : (p.getMulti t).contains k = true := (PMap.contains_eq_true_iff _ _).2 ⟨s, hs⟩
  obtain ⟨m', h1, h2, _⟩ := forRange_pushAt k new new.length 0 (p.getMulti t) s rfl hs
  have hloop : finishMulti p t (forRange 0 new.length (pushAt k new) (p.getMulti t))
      = (.ok, p.setMulti t m') := by
    rw [h1]
    rfl
  by_cases ht' : t = .array2DReal
  · subst ht'
    rw [merge_array2DReal]
    simp [mergeArray2D, hc, hloop, h2]
  · by_cases hne : new = []
    · subst hne
      rw [merge_of_specialized t ht', specialized_merge_of_empty]
      simp [hs]
    · rw [merge_of_specialized t ht', specialized_merge_of_present t k new _ p hne hc]
      simp [hloop, h2]

/-- C8 at `merge("k", [1, 2], "append")` against [10, 20]. -/
theorem merge_append_witness :
    ((merge .real "k" ([1, 2] : List Int) "append"
        ({ _poolReal := [("k", [10, 20])] } : Pool Int Unit Unit)).2.getMulti .real).find "k"
      = some [10, 20, 1, 2] :=
  (merge_append .real "k" ([10, 20] : List Int) [1, 2]
    ({ _poolReal := [("k", [10, 20])] } : Pool Int Unit Unit) rfl).2

/-- C9, refuted as stated: on the pool reached by `add("k",10); add("k",20)`,
`merge("k", [], "replace")` leaves [10, 20] under "k", not the empty incoming
sequence. -/
theorem merge_replace_empty_incoming_keeps_old :
    ((merge .real "k" ([] : List Int) "replace"
      (add .real (fun _ => true) "k" (20 : Int) false
        (add .real (fun _ => true) "k" (10 : Int) false
          (empty : Pool Int Unit Unit)).2).2).2.getMulti .real).find "k" = some [10, 20] ∧
    some ([10, 20] : List Int) ≠ some [] := by
  decide

/-- C9, amended.  `merge` with mode "replace" on an existing key: when the
incoming sequence is non-empty (or the type is `Array2D<Real>`) the call
returns and the key then holds exactly the incoming sequence; for the other
types an empty incoming sequence makes the call return at once, the pool as it
was. -/
theorem merge_replace_substitutes (t : MultiName) (k : String)
    (old new : List (t.type R T A)) (p : Pool R T A)
    (hold : (p.getMulti t).find k = some old) :
    (t = .array2DReal ∨ new ≠ [] →
      (merge t k new "replace" p).1 = .ok ∧
      ((merge t k new "replace" p).2.getMulti t).find k = some new) ∧
    (t ≠ .array2DReal → new = [] → merge t k new "replace" p = (.ok, p)) := by
  have hc : (p.getMulti t).contains k = true := (PMap.contains_eq_true_iff _ _).2 ⟨old, hold⟩
  constructor
  · intro ht
    by_cases ht' : t = .array2DReal
    · subst ht'
      have h0 : (((p.getMulti .array2DReal).erase k).assign k []).find k = some [] :=
        PMap.find_assign_self _ _ _
      obtain ⟨m', h1, h2, _⟩ := forRange_pushAt k new new.length 0 _ [] rfl h0
      have hloop : finishMulti p .array2DReal (forRange 0 new.length (pushAt k new)
          (((p.getMulti .array2DReal).erase k).assign k [])) = (.ok, p.setMulti .array2DReal m') := by
        rw [h1]
        rfl
      rw [merge_array2DReal]
      simp [mergeArray2D, hc, hloop, h2]
    · have hne : new ≠ [] := ht.resolve_left ht'
      rw [merge_of_specialized t ht', specialized_merge_of_present t k new _ p hne hc]
      simp [PMap.find_insert_of_absent _ _ _ (PMap.find_erase_self _ _)]
  · intro ht' hnil
    subst hnil
    rw [merge_of_specialized t ht', specialized_merge_of_empty]

/-- C9 amended, at `merge("k", [1, 2, 3], "replace")` against [10, 20]. -/
theorem merge_replace_substitutes_witness :
    ((merge .real "k" ([1, 2, 3] : List Int) "replace"
        ({ _poolReal := [("k", [10, 20])] } : Pool Int Unit Unit)).2.getMulti .real).find "k"
      = some [1, 2, 3] :=
  ((merge_replace_substitutes .real "k" ([10, 20] : List Int) [1, 2, 3]
    ({ _poolReal := [("k", [10, 20])] } : Pool Int Unit Unit) rfl).1 (Or.inr (by decide))).2

/-- C10, refuted as stated: on the pool reached by `add("k",10); add("k",20)`,
`merge("k", [], "")` and `merge("k", [], "bogus")` return without raising
anything. -/
theorem merge_bad_mode_empty_incoming_returns :
    (merge .real "k" ([] : List Int) ""
      (add .real (fun _ => true) "k" (20 : Int) false
        (add .real (fun _ => true) "k" (10 : Int) false
          (empty : Pool Int Unit Unit)).2).2).1 = .ok ∧
    (merge .real "k" ([] : List Int) "bogus"
      (add .real (fun _ => true) "k" (20 : Int) false
        (add .real (fun _ => true) "k" (10 : Int) false
          (empty : Pool Int Unit Unit)).2).2).1 = .ok := by
  decide

/-- C10, amended.  `merge` on a key that exists under that type, with a mode
that is none of "append", "replace", "interleave": when the incoming sequence
is non-empty (or the type is `Array2D<Real>`) the call throws (the
missing-merge-type error for the empty mode, the unknown-merge-type error
otherwise) and the pool is as it was; for the other types an empty incoming
sequence makes the call return at once, the pool as it was. -/
theorem merge_bad_mode_throws (t : MultiName) (k : String) (new : List (t.type R T A))
    (mode : String) (p : Pool R T A)
    (hc : (p.getMulti t).contains k = true)
    (hmode : mode ≠ "append" ∧ mode ≠ "replace" ∧ mode ≠ "interleave") :
    (t = .array2DReal ∨ new ≠ [] →
      merge t k new mode p =
        (.throws (if mode = "" then .mergeTypeMissing k else .unknownMergeType mode), p)) ∧
    (t ≠ .array2DReal → new = [] → merge t k new mode p = (.ok, p)) := by
  obtain ⟨ha, hr, hi⟩ := hmode
  constructor
  · intro ht
    by_cases ht' : t = .array2DReal
    · subst ht'
      rw [merge_array2DReal]
      by_cases h0 : mode = "" <;> simp [mergeArray2D, hc, ha, hr, hi, h0]
    · have hne : new ≠ [] := ht.resolve_left ht'
      rw [merge_of_specialized t ht', specialized_merge_of_present t k new _ p hne hc]
      by_cases h0 : mode = "" <;> simp [ha, hr, hi, h0]
  · intro ht' hnil
    subst hnil
    rw [merge_of_specialized t ht', specialized_merge_of_empty]

/-- C10 amended, at `merge("k", [1], "")` and at an unknown mode. -/
theorem merge_bad_mode_throws_witness :
    merge .real "k" ([1] : List Int) ""
        ({ _poolReal := [("k", [10, 20])] } : Pool Int Unit Unit)
      = (.throws (.mergeTypeMissing "k"), { _poolReal := [("k", [10, 20])] }) :=
  (merge_bad_mode_throws .real "k" ([1] : List Int) ""
    ({ _poolReal := [("k", [10, 20])] } : Pool Int Unit Unit) (by decide)
    (by decide)).1 (Or.inr (by decide))

/-! ### `remove` and `removeNamespace` -/

/-- C11, evaluated where the code departs from it.  `remove` has no block for
`_poolSingleTensorReal`: after `set("a", tensor)` the call `remove("a")` leaves
the pool as it was, "a" still a key of the single-tensor sub-map. -/
theorem remove_keeps_single_tensor :
    remove "a" (set .tensorReal (fun _ => true) "a" ([7] : List Int) false
        (empty : Pool Int (List Int) Unit)).2
      = { _poolSingleTensorReal := [("a", [7])] } ∧
    ((remove "a" (set .tensorReal (fun _ => true) "a" ([7] : List Int) false
        (empty : Pool Int (List Int) Unit)).2).getSingle .tensorReal).contains "a" = true := by
  constructor <;> rfl

/-- What a call of `add` can leave: the pool as it was, or the value pushed
under the key in its sub-map. -/
theorem add_state (t : MultiName) (isValid : t.type R T A → Bool) (k : String)
    (v : t.type R T A) (vc : Bool) (p : Pool R T A) :
    (add t isValid k v vc p).2 = p ∨
    (add t isValid k v vc p).2 = p.setMulti t ((p.getMulti t).pushBack k v) := by
  unfold add SPECIALIZE_ADD_IMPL
  split
  · exact Or.inl rfl
  · split
    · exact Or.inr rfl
    · split
      · exact Or.inl rfl
      · exact Or.inr rfl

/-- What `remove` does: nothing, or erase the key from one sub-map that holds
it, never `_poolSingleTensorReal`. -/
theorem remove_cases (k : String) (p : Pool R T A) :
    remove k p = p ∨
    (∃ t, (p.getMulti t).contains k = true ∧
      remove k p = p.setMulti t ((p.getMulti t).erase k)) ∨
    (∃ t, t ≠ SingleName.tensorReal ∧ (p.getSingle t).contains k = true ∧
      remove k p = p.setSingle t ((p.getSingle t).erase k)) := by
  unfold remove
  by_cases h0 : p._poolSingleReal.contains k = true
  · rw [if_pos h0]
    exact Or.inr (Or.inr ⟨.real, by decide, h0, rfl⟩)
  rw [if_neg h0]
  by_cases h1 : p._poolReal.contains k = true
  · rw [if_pos h1]
    exact Or.inr (Or.inl ⟨.real, h1, rfl⟩)
  rw [if_neg h1]
  by_cases h2 : p._poolSingleVectorReal.contains k = true
  · rw [if_pos h2]
    exact Or.inr (Or.inr ⟨.vectorReal, by decide, h2, rfl⟩)
  rw [if_neg h2]
  by_cases h3 : p._poolVectorReal.contains k = true
  · rw [if_pos h3]
    exact Or.inr (Or.inl ⟨.vectorReal, h3, rfl⟩)
  rw [if_neg h3]
  by_cases h4 : p._poolSingleString.contains k = true
  · rw [if_pos h4]
    exact Or.inr (Or.inr ⟨.string, by decide, h4, rfl⟩)
  rw [if_neg h4]
  by_cases h5 : p._poolString.contains k = true
  · rw [if_pos h5]
    exact Or.inr (Or.inl ⟨.string, h5, rfl⟩)
  rw [if_neg h5]
  by_cases h6 : p._poolSingleVectorString.contains k = true
  · rw [if_pos h6]
    exact Or.inr (Or.inr ⟨.vectorString, by decide, h6, rfl⟩)
  rw [if_neg h6]
  by_cases h7 : p._poolVectorString.contains k = true
  · rw [if_pos h7]
    exact Or.inr (Or.inl ⟨.vectorString, h7, rfl⟩)
  rw [if_neg h7]
  by_cases h8 : p._poolArray2DReal.contains k = true
  · rw [if_pos h8]
    exact Or.inr (Or.inl ⟨.array2DReal, h8, rfl⟩)
  rw [if_neg h8]
  by_cases h9 : p._poolTensorReal.contains k = true
  · rw [if_pos h9]
    exact Or.inr (Or.inl ⟨.tensorReal, h9, rfl⟩)
  rw [if_neg h9]
  by_cases h10 : p._poolStereoSample.contains k = true
  · rw [if_pos h10]
    exact Or.inr (Or.inl ⟨.stereoSample, h10, rfl⟩)
  rw [if_neg h10]
  exact Or.inl rfl

/-- `remove(k)` leaves every other key of every sub-map as it was. -/
theorem remove_frame (k k' : String) (h : k' ≠ k) (p : Pool R T A) :
    (∀ t', ((remove k p).getMulti t').find k' = (p.getMulti t').find k') ∧
    (∀ t', ((remove k p).getSingle t').find k' = (p.getSingle t').find k') := by
  rcases remove_cases k p with e | ⟨t, _, e⟩ | ⟨t, _, _, e⟩
  · rw [e]
    exact ⟨fun _ => rfl, fun _ => rfl⟩
  · rw [e]
    constructor
    · intro t'
      by_cases ht : t' = t
      · subst ht
        rw [getMulti_setMulti, PMap.find_erase_of_ne _ _ _ h]
      · rw [getMulti_setMulti_of_ne _ _ _ _ ht]
    · intro t'
      rw [getSingle_setMulti]
  · rw [e]
    constructor
    · intro t'
      rw [getMulti_setSingle]
    · intro t'
      by_cases ht : t' = t
      · subst ht
        rw [getSingle_setSingle, PMap.find_erase_of_ne _ _ _ h]
      · rw [getSingle_setSingle_of_ne _ _ _ _ ht]

/-- C12. `add` and `remove` touch only their own key: for `k' ≠ k`, whatever
`add(k, v)` does (return or throw) and whatever `remove(k)` does, every
sub-map holds under `k'` what it held before (so `k'` keeps its type and its
whole sequence, or stays absent). -/
theorem add_remove_frame (k k' : String) (h : k' ≠ k) (p : Pool R T A) :
    (∀ (t : MultiName) (isValid : t.type R T A → Bool) (v : t.type R T A) (vc : Bool),
      (∀ t', ((add t isValid k v vc p).2.getMulti t').find k' = (p.getMulti t').find k') ∧
      (∀ t', ((add t isValid k v vc p).2.getSingle t').find k'
        = (p.getSingle t').find k')) ∧
    (∀ t', ((remove k p).getMulti t').find k' = (p.getMulti t').find k') ∧
    (∀ t', ((remove k p).getSingle t').find k' = (p.getSingle t').find k') := by
  refine ⟨?_, (remove_frame k k' h p).1, (remove_frame k k' h p).2⟩
  intro t isValid v vc
  rcases add_state t isValid k v vc p with e | e
  · rw [e]
    exact ⟨fun _ => rfl, fun _ => rfl⟩
  · rw [e]
    constructor
    · intro t'
      by_cases ht : t' = t
      · subst ht
        rw [getMulti_setMulti, PMap.find_pushBack_of_ne _ _ _ _ h]
      · rw [getMulti_setMulti_of_ne _ _ _ _ ht]
    · intro t'
      rw [getSingle_setMulti]

/-- C12 at the input of `TEST(Pool, Remove)`: after `remove("foo.bar")` the
key "foo.rab" still holds its sequence. -/
theorem add_remove_frame_witness :
    ((remove "foo.bar" ({ _poolReal := [("foo.bar", [0, 1111]), ("foo.rab", [123])] } :
        Pool Int Unit Unit)).getMulti .real).find "foo.rab" = some [123] :=
  ((add_remove_frame "foo.bar" "foo.rab" (by decide)
    ({ _poolReal := [("foo.bar", [0, 1111]), ("foo.rab", [123])] } :
      Pool Int Unit Unit)).2.1 .real).trans rfl

/-- The loop of `SEARCH_AND_DESTROY`, started behind a run `kept` of entries
that stay, with enough iterations left, erases from the rest exactly the
entries whose key starts with `pre`. -/
theorem removeNamespaceLoop_spec {α : Type} (pre : String) (rest : PMap α) :
    ∀ (fuel : Nat) (kept : PMap α) (pos tmpIt : Nat),
      (∀ e ∈ kept, findAtZero e.1 pre = false) →
      (pos = 0 → kept = []) → (pos ≠ 0 → tmpIt + 1 = kept.length) →
      2 * rest.length + 1 ≤ fuel →
      removeNamespaceLoop pre fuel (kept ++ rest) kept.length pos tmpIt
        = kept ++ rest.filter (fun e => !findAtZero e.1 pre) := by
  induction rest with
  | nil =>
    intro fuel kept pos tmpIt _ _ _ hf
    obtain ⟨f, rfl⟩ : ∃ f, fuel = f + 1 := ⟨fuel - 1, by omega⟩
    simp [removeNamespaceLoop]
  | cons e r ih =>
    intro fuel kept pos tmpIt hkept hpos0 hpos hf
    simp only [List.length_cons] at hf
    obtain ⟨f, rfl⟩ : ∃ f, fuel = f + 1 := ⟨fuel - 1, by omega⟩
    have hget : (kept ++ e :: r)[kept.length]? = some e := by
      rw [List.getElem?_append_right (Nat.le_refl _)]
      simp
    have herase : (kept ++ e :: r).eraseIdx kept.length = kept ++ r := by
      rw [List.eraseIdx_append_of_length_le (Nat.le_refl _)]
      simp
    unfold removeNamespaceLoop
    rw [hget]
    by_cases hm : findAtZero e.1 pre = true
    · simp only [hm, if_true, herase]
      by_cases hp : pos = 0
      · have hk := hpos0 hp
        subst hk
        simp only [hp, if_true]
        have := ih f [] 0 tmpIt (by simp) (fun _ => rfl) (fun h => absurd rfl h) (by omega)
        simpa [hm] using this
      · simp only [hp, if_false]
        have hlen := hpos hp
        obtain ⟨f', rfl⟩ : ∃ f', f = f' + 1 := ⟨f - 1, by omega⟩
        have hlt : tmpIt < kept.length := by omega
        have hget' : (kept ++ r)[tmpIt]? = some kept[tmpIt] := by
          rw [List.getElem?_append_left hlt, List.getElem?_eq_getElem hlt]
        have hk : findAtZero (kept[tmpIt]).1 pre = false :=
          hkept _ (List.getElem_mem hlt)
        unfold removeNamespaceLoop
        rw [hget']
        simp only [hk, Bool.false_eq_true, if_false, hlen]
        have := ih f' kept (pos + 1) tmpIt hkept (fun h => absurd h (Nat.succ_ne_zero _))
          (fun _ => hlen) (by omega)
        simpa [hm] using this
    · have hm' : findAtZero e.1 pre = false := by simpa using hm
      simp only [hm', Bool.false_eq_true, if_false]
      have hk' : ∀ x ∈ kept ++ [e], findAtZero x.1 pre = false := by
        intro x hx
        rcases List.mem_append.1 hx with h | h
        · exact hkept x h
        · have : x = e := by simpa using h
          rw [this]
          exact hm'
      have := ih f (kept ++ [e]) (pos + 1) kept.length hk'
        (fun h => absurd h (Nat.succ_ne_zero _)) (fun _ => by simp) (by omega)
      simpa [hm'] using this

/-- One block of `removeNamespace` removes from its sub-map exactly the entries
whose key starts with `ns + "."`. -/
theorem SEARCH_AND_DESTROY_eq_filter {α : Type} (ns : String) (m : PMap α) :
    SEARCH_AND_DESTROY ns m = m.filter (fun e => !findAtZero e.1 (ns ++ ".")) := by
  have := removeNamespaceLoop_spec (ns ++ ".") m (2 * m.size + 1) [] 0 0
    (by simp) (fun _ => rfl) (fun h => absurd rfl h) (by simp [PMap.size])
  simpa [SEARCH_AND_DESTROY] using this

/-- C13, evaluated where the code departs from it.  `removeNamespace` has no
block for `_poolSingleTensorReal`: after `set("a.b", tensor)` the call
`removeNamespace("a")` leaves the pool as it was, the key "a.b", which starts
with "a.", still stored. -/
theorem removeNamespace_keeps_single_tensor :
    removeNamespace "a" (set .tensorReal (fun _ => true) "a.b" ([7] : List Int) false
        (empty : Pool Int (List Int) Unit)).2
      = { _poolSingleTensorReal := [("a.b", [7])] } ∧
    findAtZero "a.b" ("a" ++ ".") = true := by
  constructor <;> rfl

/-! ### `descriptorNames` -/

theorem ADD_DESC_NAMES_RESIZE_spec (keys pre : List String) :
    ADD_DESC_NAMES_RESIZE keys (pre, pre.length) = (pre ++ keys, (pre ++ keys).length) := by
  have h := ADD_DESC_NAMES_replicate keys pre keys.length (Nat.le_refl _)
  simpa [ADD_DESC_NAMES_RESIZE] using h

/-- What `descriptorNames()` returns: the keys of the twelve sub-maps, one
sub-map after the other. -/
theorem descriptorNames_eq (p : Pool R T A) :
    p.descriptorNames =
      p._poolSingleReal.keys ++ p._poolReal.keys ++ p._poolSingleVectorReal.keys ++
      p._poolVectorReal.keys ++ p._poolSingleString.keys ++ p._poolString.keys ++
      p._poolSingleVectorString.keys ++ p._poolVectorString.keys ++
      p._poolArray2DReal.keys ++ p._poolTensorReal.keys ++ p._poolSingleTensorReal.keys ++
      p._poolStereoSample.keys := by
  unfold descriptorNames
  simp only []
  have start : (([] : List String), 0) = (([] : List String), ([] : List String).length) := rfl
  rw [start]
  simp only [ADD_DESC_NAMES_RESIZE_spec]
  simp

theorem contains_iff_mem_keys {α : Type} (m : PMap α) (k : String) :
    m.contains k = true ↔ k ∈ m.keys := by
  constructor
  · exact mem_keys_of_contains m k
  · intro h
    induction m with
    | nil => simp [PMap.keys] at h
    | cons e r ih =>
      obtain ⟨k1, v1⟩ := e
      by_cases hk : k = k1
      · simp [PMap.contains, PMap.find, hk]
      · have hr : k ∈ PMap.keys r := by
          simpa [PMap.keys, hk] using h
        have := ih hr
        simpa [PMap.contains, PMap.find, hk] using this

/-- In a `std::map` (keys strictly increasing) a key occurs once if the map
holds it, and not at all otherwise. -/
theorem count_keys {α : Type} (m : PMap α) (k : String)
    (h : (m.keys.map String.data).Pairwise (fun a b => a < b)) :
    m.keys.count k = if m.contains k = true then 1 else 0 := by
  have hnd : m.keys.Nodup := by
    have h1 : (m.keys.map String.data).Nodup := h.imp (fun hab => ne_of_lt hab)
    exact List.Nodup.of_map _ h1
  by_cases hc : m.contains k = true
  · rw [if_pos hc]
    exact List.count_eq_one_of_mem hnd ((contains_iff_mem_keys m k).1 hc)
  · rw [if_neg hc]
    exact List.count_eq_zero_of_not_mem (fun hm => hc ((contains_iff_mem_keys m k).2 hm))

theorem subMapsHolding_eq (p : Pool R T A) (k : String) :
    p.subMapsHolding k =
      (if p._poolSingleReal.contains k = true then 1 else 0) +
      (if p._poolReal.contains k = true then 1 else 0) +
      (if p._poolSingleVectorReal.contains k = true then 1 else 0) +
      (if p._poolVectorReal.contains k = true then 1 else 0) +
      (if p._poolSingleString.contains k = true then 1 else 0) +
      (if p._poolString.contains k = true then 1 else 0) +
      (if p._poolSingleVectorString.contains k = true then 1 else 0) +
      (if p._poolVectorString.contains k = true then 1 else 0) +
      (if p._poolArray2DReal.contains k = true then 1 else 0) +
      (if p._poolTensorReal.contains k = true then 1 else 0) +
      (if p._poolSingleTensorReal.contains k = true then 1 else 0) +
      (if p._poolStereoSample.contains k = true then 1 else 0) := by
  unfold subMapsHolding
  rw [← List.countP_eq_length_filter, ← List.countP_eq_length_filter]
  simp only [List.countP_cons, List.countP_nil, getMulti, getSingle]
  omega

/-- In a well-formed pool a name occurs in `descriptorNames()` as many times
as there are sub-maps holding it. -/
theorem count_descriptorNames (p : Pool R T A) (hwf : p.wellFormed) (k : String) :
    p.descriptorNames.count k = p.subMapsHolding k := by
  rw [descriptorNames_eq, subMapsHolding_eq]
  simp only [List.count_append]
  have h1 := count_keys p._poolSingleReal k (hwf.2 .real)
  have h2 := count_keys p._poolReal k (hwf.1 .real)
  have h3 := count_keys p._poolSingleVectorReal k (hwf.2 .vectorReal)
  have h4 := count_keys p._poolVectorReal k (hwf.1 .vectorReal)
  have h5 := count_keys p._poolSingleString k (hwf.2 .string)
  have h6 := count_keys p._poolString k (hwf.1 .string)
  have h7 := count_keys p._poolSingleVectorString k (hwf.2 .vectorString)
  have h8 := count_keys p._poolVectorString k (hwf.1 .vectorString)
  have h9 := count_keys p._poolArray2DReal k (hwf.1 .array2DReal)
  have h10 := count_keys p._poolTensorReal k (hwf.1 .tensorReal)
  have h11 := count_keys p._poolSingleTensorReal k (hwf.2 .tensorReal)
  have h12 := count_keys p._poolStereoSample k (hwf.1 .stereoSample)
  rw [h1, h2, h3, h4, h5, h6, h7, h8, h9, h10, h11, h12]

/-- C14. `descriptorNames()` lists the keys completely and without repetition:
in a pool whose sub-maps are `std::map`s and in which no key is held by two
sub-maps, a name is in the returned list iff some sub-map holds it, no name is
listed twice, and the length of the list is the number of entries of the
twelve sub-maps together. -/
theorem descriptorNames_complete (p : Pool R T A) (hwf : p.wellFormed)
    (hinv : p.oneSubMapPerKey) :
    (∀ k, k ∈ p.descriptorNames ↔
      ((∃ t, (p.getMulti t).contains k = true) ∨ (∃ t, (p.getSingle t).contains k = true))) ∧
    p.descriptorNames.Nodup ∧
    p.descriptorNames.length =
      p._poolReal.size + p._poolVectorReal.size + p._poolString.size +
      p._poolVectorString.size + p._poolArray2DReal.size + p._poolTensorReal.size +
      p._poolStereoSample.size + p._poolSingleReal.size + p._poolSingleString.size +
      p._poolSingleVectorReal.size + p._poolSingleVectorString.size +
      p._poolSingleTensorReal.size := by
  refine ⟨?_, ?_, ?_⟩
  · intro k
    rw [descriptorNames_eq]
    simp only [List.mem_append, ← contains_iff_mem_keys]
    constructor
    · intro h
      rcases h with ((((((((((h | h) | h) | h) | h) | h) | h) | h) | h) | h) | h) | h
      · exact Or.inr ⟨.real, h⟩
      · exact Or.inl ⟨.real, h⟩
      · exact Or.inr ⟨.vectorReal, h⟩
      · exact Or.inl ⟨.vectorReal, h⟩
      · exact Or.inr ⟨.string, h⟩
      · exact Or.inl ⟨.string, h⟩
      · exact Or.inr ⟨.vectorString, h⟩
      · exact Or.inl ⟨.vectorString, h⟩
      · exact Or.inl ⟨.array2DReal, h⟩
      · exact Or.inl ⟨.tensorReal, h⟩
      · exact Or.inr ⟨.tensorReal, h⟩
      · exact Or.inl ⟨.stereoSample, h⟩
    · rintro (⟨t, h⟩ | ⟨t, h⟩) <;> cases t <;> simp only [getMulti, getSingle] at h <;>
        simp [h]
  · rw [List.nodup_iff_count_le_one]
    intro k
    rw [count_descriptorNames p hwf k]
    exact hinv k
  · rw [descriptorNames_eq]
    simp only [List.length_append, keys_length]
    omega

/-- C14 at the input of `TEST(Pool, DescriptorNames)`: the pool holding
"bar.foo" and "foo.bar" lists exactly these two names. -/
theorem descriptorNames_complete_witness :
    (({ _poolReal := [("bar.foo", [2009]), ("foo.bar", [2008])] } :
      Pool Int Unit Unit).descriptorNames).Nodup ∧
    (({ _poolReal := [("bar.foo", [2009]), ("foo.bar", [2008])] } :
      Pool Int Unit Unit).descriptorNames).length = 2 := by
  have hwf : ({ _poolReal := [("bar.foo", [2009]), ("foo.bar", [2008])] } :
      Pool Int Unit Unit).wellFormed := by
    constructor
    · intro t
      cases t <;> simp [getMulti, PMap.keys]
      decide
    · intro t
      cases t <;> simp [getSingle, PMap.keys]
  have hinv : ({ _poolReal := [("bar.foo", [2009]), ("foo.bar", [2008])] } :
      Pool Int Unit Unit).oneSubMapPerKey := by
    intro k
    rw [subMapsHolding_eq]
    simp only [PMap.contains, PMap.find, Option.isSome_none, Bool.false_eq_true, if_false,
      Nat.zero_add, Nat.add_zero]
    have hle : ∀ (c : Prop) [Decidable c], (if c then 1 else 0) ≤ 1 := by
      intro c _
      split <;> omega
    exact hle _
  have h := descriptorNames_complete _ hwf hinv
  exact ⟨h.2.1, h.2.2⟩

/-! ### Failing calls -/

theorem finishMulti_isThrow (p : Pool R T A) (t : MultiName)
    (m : Option (PMap (List (t.type R T A)))) :
    (finishMulti p t m).1.isThrow = false := by
  cases m <;> rfl

theorem add_throw_unchanged (t : MultiName) (isValid : t.type R T A → Bool) (k : String)
    (v : t.type R T A) (vc : Bool) (p : Pool R T A)
    (h : (add t isValid k v vc p).1.isThrow = true) : (add t isValid k v vc p).2 = p := by
  unfold add SPECIALIZE_ADD_IMPL at h ⊢
  split
  · rfl
  · rename_i h1
    split
    · rename_i h2
      simp [h1, h2, Outcome.isThrow] at h
    · rename_i h2
      split
      · rfl
      · rename_i h3
        simp [h1, h2, h3, Outcome.isThrow] at h

theorem set_throw_unchanged (t : SingleName) (isValid : t.type R T → Bool) (k : String)
    (v : t.type R T) (vc : Bool) (p : Pool R T A)
    (h : (set t isValid k v vc p).1.isThrow = true) : (set t isValid k v vc p).2 = p := by
  unfold set SPECIALIZE_SET_IMPL at h ⊢
  split
  · rfl
  · rename_i h1
    split
    · rename_i h2
      simp [h1, h2, Outcome.isThrow] at h
    · rename_i h2
      split
      · rfl
      · rename_i h3
        simp [h1, h2, h3, Outcome.isThrow] at h

theorem mergeSingle_throw_unchanged (t : SingleName) (k : String) (v : t.type R T)
    (mode : String) (p : Pool R T A)
    (h : (mergeSingle t k v mode p).1.isThrow = true) : (mergeSingle t k v mode p).2 = p := by
  unfold mergeSingle SPECIALIZE_MERGE_SINGLE_IMPL at h ⊢
  split
  · rename_i h1
    split
    · rename_i h2
      simp [h1, h2, Outcome.isThrow] at h
    · rfl
  · rename_i h1
    split
    · rfl
    · rename_i h3
      simp [h1, h3, Outcome.isThrow] at h

theorem mergeNewKey_throw_unchanged (t : MultiName) (k : String)
    (v : List (t.type R T A)) (p : Pool R T A) :
    (mergeNewKey t k v p).1.isThrow = true → (mergeNewKey t k v p).2 = p := by
  unfold mergeNewKey
  split
  · intro _; rfl
  · intro h
    rw [finishMulti_isThrow] at h
    exact absurd h (by decide)

theorem mergeInterleave_throw_unchanged (t : MultiName) (k : String)
    (v : List (t.type R T A)) (p : Pool R T A) :
    (mergeInterleave t k v p).1.isThrow = true → (mergeInterleave t k v p).2 = p := by
  unfold mergeInterleave
  intro h
  simp only [finishMulti_isThrow] at h
  exact absurd h (by decide)

theorem specialized_merge_throw_unchanged (t : MultiName) (k : String)
    (v : List (t.type R T A)) (mode : String) (p : Pool R T A) :
    (SPECIALIZE_MERGE_IMPL t k v mode p).1.isThrow = true →
      (SPECIALIZE_MERGE_IMPL t k v mode p).2 = p := by
  unfold SPECIALIZE_MERGE_IMPL
  repeat' split
  all_goals first
    | (intro _; rfl)
    | exact mergeNewKey_throw_unchanged t k v p
    | exact mergeInterleave_throw_unchanged t k v p
    | (intro h; rw [finishMulti_isThrow] at h; exact absurd h (by decide))
    | (intro h; simp [Outcome.isThrow] at h)

theorem mergeArray2D_throw_unchanged (k : String) (v : List A) (mode : String)
    (p : Pool R T A) :
    (mergeArray2D k v mode p).1.isThrow = true → (mergeArray2D k v mode p).2 = p := by
  unfold mergeArray2D
  repeat' split
  all_goals first
    | (intro _; rfl)
    | exact mergeNewKey_throw_unchanged .array2DReal k v p
    | exact mergeInterleave_throw_unchanged .array2DReal k v p
    | (intro h; rw [finishMulti_isThrow] at h; exact absurd h (by decide))

theorem merge_throw_unchanged (t : MultiName) (k : String)
    (v : List (t.type R T A)) (mode : String) (p : Pool R T A)
    (h : (merge t k v mode p).1.isThrow = true) : (merge t k v mode p).2 = p := by
  by_cases ht : t = .array2DReal
  · subst ht
    rw [merge_array2DReal] at h ⊢
    exact mergeArray2D_throw_unchanged k v mode p h
  · rw [merge_of_specialized t ht] at h ⊢
    exact specialized_merge_throw_unchanged t k v mode p h

/-- C15. Failing calls are atomic: when a call of `add`, `set`,
`merge(name, values, mode)` or `mergeSingle` throws, whatever the cause, the
pool after the call is the pool before it, all twelve sub-maps included. -/
theorem failing_call_atomic (c : Call R T A) (p : Pool R T A)
    (h : (c.run p).1.isThrow = true) : (c.run p).2 = p := by
  cases c with
  | add t isValid name value validityCheck =>
    exact add_throw_unchanged t isValid name value validityCheck p h
  | set t isValid name value validityCheck =>
    exact set_throw_unchanged t isValid name value validityCheck p h
  | merge t name value mergeType => exact merge_throw_unchanged t name value mergeType p h
  | mergeSingle t name value mergeType =>
    exact mergeSingle_throw_unchanged t name value mergeType p h

/-- C15 at a value rejected by the validity check (here: negative numbers are
the invalid ones): `add("k", -1, true)` on the empty pool throws and the key
is not created. -/
theorem failing_call_atomic_witness :
    ((Call.add .real (fun x => decide (0 ≤ x)) "k" (-1 : Int) true).run
        (empty : Pool Int Unit Unit)).1 = .throws .invalidNumbers ∧
    ((Call.add .real (fun x => decide (0 ≤ x)) "k" (-1 : Int) true).run
        (empty : Pool Int Unit Unit)).2 = empty :=
  ⟨rfl, failing_call_atomic (Call.add .real (fun x => decide (0 ≤ x)) "k" (-1 : Int) true)
    (empty : Pool Int Unit Unit) rfl⟩

end Pool

/-! ## `VectorEx` in view mode -/

namespace VectorExT
variable {T : Type}

/-- C16. View mode never resizes the aliased range.  For a vector set by
`setReferenceData(data, m)` (as the `RogueVector(tab, size)` constructor does)
on an external range of length `m > 0` lying in the memory: `resize(n)` with
`n <= m` only sets the length of the view to `n`, so that `size()` is `n`, the
elements are the first `n` external ones and nothing is owned; `resize(n)` with
`n > m` and `push_back` first copy the `m` external elements into `vec_` and
drop the view; in every case the memory is as before. -/
theorem view_resize_keeps_memory (dflt : T) (mem : List T) (data m : Nat)
    (v0 : VectorExT T) (hm : 0 < m) (hrange : data + m ≤ mem.length) :
    (setReferenceData (some data) m mem v0).2
      = { vec_ := [], view_ := { ptr_ := some data, len_ := m } } ∧
    (RogueVector.ofData (some data) m mem).2.toVectorExT
      = (setReferenceData (some data) m mem v0).2 ∧
    (∀ n, n ≤ m →
      resize dflt n mem (setReferenceData (some data) m mem v0).2
        = (mem, { vec_ := [], view_ := { ptr_ := some data, len_ := n } }) ∧
      size (resize dflt n mem (setReferenceData (some data) m mem v0).2).2 = n ∧
      toList mem (resize dflt n mem (setReferenceData (some data) m mem v0).2).2
        = (mem.drop data).take n) ∧
    (∀ n, m < n →
      resize dflt n mem (setReferenceData (some data) m mem v0).2
        = (mem, { vec_ := (mem.drop data).take m ++ List.replicate (n - m) dflt,
                  view_ := { ptr_ := none, len_ := 0 } })) ∧
    (∀ x, push_back x mem (setReferenceData (some data) m mem v0).2
        = (mem, { vec_ := (mem.drop data).take m ++ [x],
                  view_ := { ptr_ := none, len_ := 0 } })) := by
  have hm0 : m ≠ 0 := Nat.pos_iff_ne_zero.1 hm
  have hlen : ((mem.drop data).take m).length = m := by
    rw [List.length_take, List.length_drop]
    omega
  refine ⟨rfl, rfl, ?_, ?_, ?_⟩
  · intro n hn
    have e : resize dflt n mem (setReferenceData (some data) m mem v0).2
        = (mem, { vec_ := [], view_ := { ptr_ := some data, len_ := n } }) := by
      simp [resize, setReferenceData, hn]
    rw [e]
    refine ⟨rfl, ?_, ?_⟩
    · by_cases h0 : n = 0 <;> simp [size, h0]
    · by_cases h0 : n = 0 <;> simp [toList, array_view.elems, h0]
  · intro n hn
    have hn' : ¬ n ≤ m := by omega
    simp [resize, setReferenceData, hn', make_vector, hm0, array_view.elems,
      array_view.clear, vectorResize, hlen]
    omega
  · intro x
    simp [push_back, setReferenceData, make_vector, hm0, array_view.elems, array_view.clear]

/-- C16 on the memory 5, 6, 7, 8 with the view on 6, 7, 8: `resize(2)` keeps
the view on 6, 7 and `resize(5)` owns 6, 7, 8, 0, 0; the memory is
untouched. -/
theorem view_resize_keeps_memory_witness :
    resize (0 : Int) 2 [5, 6, 7, 8] (setReferenceData (some 1) 3 [5, 6, 7, 8] {}).2
      = ([5, 6, 7, 8], { vec_ := [], view_ := { ptr_ := some 1, len_ := 2 } }) ∧
    resize (0 : Int) 5 [5, 6, 7, 8] (setReferenceData (some 1) 3 [5, 6, 7, 8] {}).2
      = ([5, 6, 7, 8], { vec_ := [6, 7, 8, 0, 0], view_ := { ptr_ := none, len_ := 0 } }) :=
  ⟨((view_resize_keeps_memory (0 : Int) [5, 6, 7, 8] 1 3 {} (by decide) (by decide)).2.2.1 2
      (by decide)).1,
    (view_resize_keeps_memory (0 : Int) [5, 6, 7, 8] 1 3 {} (by decide) (by decide)).2.2.2.1 5
      (by decide)⟩

end VectorExT

/-! ## The streaming network -/

namespace Streaming
variable {α : Type}

theorem activate_not_ok (cap : Nat) (n : Node) (s : Net α)
    (h : (activate cap n s).1 ≠ .OK) : (activate cap n s).2 = s := by
  cases n with
  | vectorInput =>
    cases hp : s.pending with
    | nil => simp [activate, hp]
    | cons x rest =>
      by_cases hc : s.buf1.length < cap
      · simp [activate, hp, hc] at h
      · simp [activate, hp, hc]
  | copy =>
    cases hp : s.buf1 with
    | nil => simp [activate, hp]
    | cons x rest =>
      by_cases hc : s.buf2.length < cap
      · simp [activate, hp, hc] at h
      · simp [activate, hp, hc]
  | output b =>
    cases b
    · cases hp : s.buf1 with
      | nil => simp [activate, hp]
      | cons x rest => simp [activate, hp] at h
    · cases hp : s.buf2 with
      | nil => simp [activate, hp]
      | cons x rest => simp [activate, hp] at h

theorem activate_ok_work (cap : Nat) (n : Node) (s : Net α)
    (h : (activate cap n s).1 = .OK) : (activate cap n s).2.work < s.work := by
  cases n with
  | vectorInput =>
    cases hp : s.pending with
    | nil => simp [activate, hp] at h
    | cons x rest =>
      by_cases hc : s.buf1.length < cap
      · simp [activate, hp, hc, Net.work]
        omega
      · simp [activate, hp, hc] at h
  | copy =>
    cases hp : s.buf1 with
    | nil => simp [activate, hp] at h
    | cons x rest =>
      by_cases hc : s.buf2.length < cap
      · simp [activate, hp, hc, Net.work]
        omega
      · simp [activate, hp, hc] at h
  | output b =>
    cases b
    · cases hp : s.buf1 with
      | nil => simp [activate, hp] at h
      | cons x rest => simp [activate, hp, Net.work]
    · cases hp : s.buf2 with
      | nil => simp [activate, hp] at h
      | cons x rest => simp [activate, hp, Net.work]

/-- What draining one node does, for an invariant `I` that its `OK`
activations keep. -/
theorem drain_spec (cap : Nat) (n : Node) (I : Net α → Prop)
    (hI : ∀ s, I s → (activate cap n s).1 = .OK → I (activate cap n s).2) :
    ∀ (bound : Nat) (s : Net α), I s →
      I (drain cap n bound s).2 ∧ (drain cap n bound s).2.work ≤ s.work ∧
      ((drain cap n bound s).1 = true → (drain cap n bound s).2.work < s.work) ∧
      ((drain cap n bound s).1 = false →
        (drain cap n bound s).2 = s ∧ (0 < bound → (activate cap n s).1 ≠ .OK)) := by
  intro bound
  induction bound with
  | zero =>
    intro s hs
    exact ⟨hs, Nat.le_refl _, fun h => by simp [drain] at h,
      fun _ => ⟨rfl, fun h => absurd h (Nat.lt_irrefl 0)⟩⟩
  | succ b ih =>
    intro s hs
    by_cases hok : (activate cap n s).1 = .OK
    · have hlt := activate_ok_work cap n s hok
      have hs' := hI s hs hok
      obtain ⟨i1, i2, _, _⟩ := ih (activate cap n s).2 hs'
      have e : drain cap n (b + 1) s = (true, (drain cap n b (activate cap n s).2).2) := by
        cases hact : activate cap n s with
        | mk st s' =>
          rw [hact] at hok
          simp only at hok
          subst hok
          simp [drain, hact]
      rw [e]
      dsimp only
      exact ⟨i1, by omega, fun _ => by omega, fun h => by simp at h⟩
    · have e : drain cap n (b + 1) s = (false, s) := by
        cases hact : activate cap n s with
        | mk st s' =>
          rw [hact] at hok
          simp only at hok
          cases st <;> first | exact absurd rfl hok | simp [drain, hact]
      rw [e]
      exact ⟨hs, Nat.le_refl _, fun h => by simp at h, fun _ => ⟨rfl, fun _ => hok⟩⟩

/-- What one pass does. -/
theorem pass_spec (cap bound : Nat) (I : Net α → Prop) :
    ∀ (nodes : List Node),
      (∀ n ∈ nodes, ∀ s, I s → (activate cap n s).1 = .OK → I (activate cap n s).2) →
      ∀ (s : Net α), I s →
        I (pass cap bound nodes s).2 ∧ (pass cap bound nodes s).2.work ≤ s.work ∧
        ((pass cap bound nodes s).1 = true → (pass cap bound nodes s).2.work < s.work) ∧
        ((pass cap bound nodes s).1 = false →
          (pass cap bound nodes s).2 = s ∧
          (0 < bound → ∀ n ∈ nodes, (activate cap n s).1 ≠ .OK)) := by
  intro nodes
  induction nodes with
  | nil =>
    intro _ s hs
    exact ⟨hs, Nat.le_refl _, fun h => by simp [pass] at h,
      fun _ => ⟨rfl, fun _ n hn => by simp at hn⟩⟩
  | cons n ns ih =>
    intro hI s hs
    obtain ⟨d1, d2, d3, d4⟩ := drain_spec cap n I (hI n (List.mem_cons_self _ _)) bound s hs
    obtain ⟨p1, p2, p3, p4⟩ := ih (fun m hm => hI m (List.mem_cons_of_mem _ hm))
      (drain cap n bound s).2 d1
    have e : pass cap bound (n :: ns) s
        = ((drain cap n bound s).1 || (pass cap bound ns (drain cap n bound s).2).1,
            (pass cap bound ns (drain cap n bound s).2).2) := rfl
    rw [e]
    dsimp only
    refine ⟨p1, by omega, ?_, ?_⟩
    · intro h
      simp only [Bool.or_eq_true] at h
      rcases h with h | h
      · have := d3 h
        omega
      · have := p3 h
        omega
    · intro h
      simp only [Bool.or_eq_false_iff] at h
      obtain ⟨h1, h2⟩ := h
      obtain ⟨ds, dq⟩ := d4 h1
      obtain ⟨ps, pq⟩ := p4 h2
      rw [ds] at ps pq
      refine ⟨by rw [ds]; exact ps, fun hb m hm => ?_⟩
      rcases List.mem_cons.1 hm with rfl | hm'
      · exact dq hb
      · exact pq hb m hm'

/-- With more passes allowed than there is work left, the run ends, in a state
that keeps the invariant and in which no node can report `OK`. -/
theorem run_spec (cap bound : Nat) (hbound : 0 < bound) (I : Net α → Prop)
    (nodes : List Node)
    (hI : ∀ n ∈ nodes, ∀ s, I s → (activate cap n s).1 = .OK → I (activate cap n s).2) :
    ∀ (fuel : Nat) (s : Net α), I s → s.work < fuel →
      ∃ s', I s' ∧ (∀ n ∈ nodes, (activate cap n s').1 ≠ .OK) ∧
        run cap bound nodes fuel s
          = some (if s'.pending.isEmpty then .finished s' else .stalled s') := by
  intro fuel
  induction fuel with
  | zero => intro s _ h; exact absurd h (Nat.not_lt_zero _)
  | succ f ih =>
    intro s hs hw
    obtain ⟨p1, _, p3, p4⟩ := pass_spec cap bound I nodes hI s hs
    by_cases hp : (pass cap bound nodes s).1 = true
    · have hlt := p3 hp
      obtain ⟨s', h1, h2, h3⟩ := ih (pass cap bound nodes s).2 p1 (by omega)
      refine ⟨s', h1, h2, ?_⟩
      simp only [run, hp, if_true]
      exact h3
    · have hp' : (pass cap bound nodes s).1 = false := by simpa using hp
      obtain ⟨e, q⟩ := p4 hp'
      refine ⟨s, hs, q hbound, ?_⟩
      simp only [run, hp', Bool.false_eq_true, if_false, e]
      split <;> simp_all

theorem withCopy_invariant (cap : Nat) (xs : List α) :
    ∀ n ∈ withCopy, ∀ s : Net α, s.output ++ s.buf2 ++ s.buf1 ++ s.pending = xs →
      (activate cap n s).1 = .OK →
      (activate cap n s).2.output ++ (activate cap n s).2.buf2 ++ (activate cap n s).2.buf1
        ++ (activate cap n s).2.pending = xs := by
  intro n hn s hs h
  simp only [withCopy, List.mem_cons, List.mem_singleton, List.mem_nil_iff, or_false] at hn
  rcases hn with rfl | rfl | rfl
  · cases hp : s.pending with
    | nil => simp [activate, hp] at h
    | cons x rest =>
      by_cases hc : s.buf1.length < cap
      · rw [hp] at hs
        simpa [activate, hp, hc] using hs
      · simp [activate, hp, hc] at h
  · cases hp : s.buf1 with
    | nil => simp [activate, hp] at h
    | cons x rest =>
      by_cases hc : s.buf2.length < cap
      · rw [hp] at hs
        simpa [activate, hp, hc] using hs
      · simp [activate, hp, hc] at h
  · cases hp : s.buf2 with
    | nil => simp [activate, hp] at h
    | cons x rest =>
      rw [hp] at hs
      simpa [activate, hp] using hs

theorem direct_invariant (cap : Nat) (xs : List α) :
    ∀ n ∈ direct, ∀ s : Net α, (s.buf2 = [] ∧ s.output ++ s.buf1 ++ s.pending = xs) →
      (activate cap n s).1 = .OK →
      ((activate cap n s).2.buf2 = [] ∧
        (activate cap n s).2.output ++ (activate cap n s).2.buf1
          ++ (activate cap n s).2.pending = xs) := by
  intro n hn s hs h
  obtain ⟨hb, hs⟩ := hs
  simp only [direct, List.mem_cons, List.mem_singleton, List.mem_nil_iff, or_false] at hn
  rcases hn with rfl | rfl
  · cases hp : s.pending with
    | nil => simp [activate, hp] at h
    | cons x rest =>
      by_cases hc : s.buf1.length < cap
      · rw [hp] at hs
        simpa [activate, hp, hc, hb] using hs
      · simp [activate, hp, hc] at h
  · cases hp : s.buf1 with
    | nil => simp [activate, hp] at h
    | cons x rest =>
      rw [hp] at hs
      simpa [activate, hp, hb] using hs

theorem vectorInput_blocked (cap : Nat) (s : Net α)
    (h : (activate cap .vectorInput s).1 ≠ .OK) (hroom : s.buf1.length < cap) :
    s.pending = [] := by
  cases hp : s.pending with
  | nil => rfl
  | cons x rest => simp [activate, hp, hroom] at h

theorem copy_blocked (cap : Nat) (s : Net α)
    (h : (activate cap .copy s).1 ≠ .OK) (hroom : s.buf2.length < cap) :
    s.buf1 = [] := by
  cases hp : s.buf1 with
  | nil => rfl
  | cons x rest => simp [activate, hp, hroom] at h

theorem output_blocked (cap : Nat) (s : Net α) (b : Bool)
    (h : (activate cap (.output b) s).1 ≠ .OK) :
    (if b then s.buf2 else s.buf1) = [] := by
  cases b
  · cases hp : s.buf1 with
    | nil => simp
    | cons x rest => simp [activate, hp] at h
  · cases hp : s.buf2 with
    | nil => simp
    | cons x rest => simp [activate, hp] at h

/-- C17. A network `VectorInput -> Copy -> output`, or `VectorInput -> output`,
run by the scheduler with more passes allowed than three times the input
length, ends cleanly (not stalled) and leaves the output container equal to
the input sequence, for every element type, every buffer capacity `cap > 0`
and every retry bound `bound > 0`. -/
theorem network_output_eq_input (xs : List α) (cap bound fuel : Nat)
    (hcap : 0 < cap) (hbound : 0 < bound) (hfuel : 3 * xs.length < fuel) :
    (∃ s, run cap bound withCopy fuel { pending := xs } = some (.finished s) ∧
      s.output = xs) ∧
    (∃ s, run cap bound direct fuel { pending := xs } = some (.finished s) ∧
      s.output = xs) := by
  constructor
  · obtain ⟨s, hI, hq, hr⟩ := run_spec cap bound hbound
      (fun s : Net α => s.output ++ s.buf2 ++ s.buf1 ++ s.pending = xs) withCopy
      (withCopy_invariant cap xs) fuel { pending := xs } (by simp)
      (by simpa [Net.work] using hfuel)
    have h2 : s.buf2 = [] := by
      simpa using output_blocked cap s true (hq _ (by simp [withCopy]))
    have h1 : s.buf1 = [] :=
      copy_blocked cap s (hq _ (by simp [withCopy])) (by simpa [h2] using hcap)
    have h0 : s.pending = [] :=
      vectorInput_blocked cap s (hq _ (by simp [withCopy])) (by simpa [h1] using hcap)
    refine ⟨s, ?_, ?_⟩
    · rw [hr]
      simp [h0]
    · simpa [h0, h1, h2] using hI
  · obtain ⟨s, hI, hq, hr⟩ := run_spec cap bound hbound
      (fun s : Net α => s.buf2 = [] ∧ s.output ++ s.buf1 ++ s.pending = xs) direct
      (direct_invariant cap xs) fuel { pending := xs } (by simp)
      (by simpa [Net.work] using hfuel)
    have h1 : s.buf1 = [] := by
      simpa using output_blocked cap s false (hq _ (by simp [direct]))
    have h0 : s.pending = [] :=
      vectorInput_blocked cap s (hq _ (by simp [direct])) (by simpa [h1] using hcap)
    refine ⟨s, ?_, ?_⟩
    · rw [hr]
      simp [h0]
    · simpa [h0, h1] using hI.2

/-- C17 at the input of `TEST(Copy, Integer)`: the array 1, 2, 3, 4. -/
theorem network_output_eq_input_witness :
    ∃ s, run 1 1 withCopy 13 ({ pending := [1, 2, 3, 4] } : Net Int) = some (.finished s) ∧
      s.output = [1, 2, 3, 4] :=
  (network_output_eq_input ([1, 2, 3, 4] : List Int) 1 1 13 (by decide) (by decide)
    (by decide)).1

end Streaming

/-! ## Standard algorithms -/

theorem foldl_add_eq_sum (xs : List ℚ) (a : ℚ) :
    xs.foldl (fun acc m => acc + m) a = a + xs.sum := by
  induction xs generalizing a with
  | nil => simp
  | cons x r ih => simp [ih, add_assoc]

namespace Tristimulus

/-- C18, refuted as stated: with the two peaks (100, 1) and (200, 1) the total
magnitude is 2 and the outputs are 1/2, 0, 0: the second output is not the
weight 1/2 of harmonic 2, and the three do not add up to 1. -/
theorem two_peaks_second_is_zero :
    compute [100, 200] [1, 1] = .ok [1 / 2, 0, 0] ∧
    (0 : ℚ) ≠ 1 / (1 + 1) ∧ (1 / 2 + 0 + 0 : ℚ) ≠ 1 := by
  refine ⟨?_, by norm_num, by norm_num⟩
  simp [compute, notOrdered, readAt, Computed.bind]
  norm_num

/-- C18, amended.  For equal sizes, ascending frequencies and a non-zero total
magnitude `S`, `compute` returns three outputs, the first being (magnitude of
harmonic 1)/S.  With one peak, or with four peaks or more, the second is (sum
of the magnitudes of harmonics 2 to 4 that are present)/S and the third (sum
of the remaining magnitudes)/S, and the three add up to 1.  With two or three
peaks the second and the third output are 0. -/
theorem outputs_relative_weights (frequencies magnitudes : List ℚ)
    (hsize : magnitudes.length = frequencies.length)
    (hord : notOrdered frequencies = false)
    (hS : magnitudes.sum ≠ 0) :
    ∃ t0 t1 t2, compute frequencies magnitudes = .ok [t0, t1, t2] ∧
      t0 = magnitudes.headD 0 / magnitudes.sum ∧
      (magnitudes.length = 1 ∨ 4 ≤ magnitudes.length →
        t1 = ((magnitudes.drop 1).take 3).sum / magnitudes.sum ∧
        t2 = (magnitudes.drop 4).sum / magnitudes.sum ∧
        t0 + t1 + t2 = 1) ∧
      (magnitudes.length = 2 ∨ magnitudes.length = 3 → t1 = 0 ∧ t2 = 0) := by
  have hsum : magnitudes.foldl (fun acc m => acc + m) 0 = magnitudes.sum := by
    rw [foldl_add_eq_sum, zero_add]
  have hcomp : compute frequencies magnitudes =
      (readAt magnitudes 0).bind fun m0 =>
      if magnitudes.length < 4 then .ok [m0 / magnitudes.sum, 0, 0]
      else
        (readAt magnitudes 1).bind fun m1 =>
        (readAt magnitudes 2).bind fun m2 =>
        (readAt magnitudes 3).bind fun m3 =>
        if magnitudes.length < 5 then
          .ok [m0 / magnitudes.sum, (m1 + m2 + m3) / magnitudes.sum, 0]
        else
          .ok [m0 / magnitudes.sum, (m1 + m2 + m3) / magnitudes.sum,
            (magnitudes.drop 4).sum / magnitudes.sum] := by
    unfold compute
    rw [if_neg (by simpa using hsize), if_neg (by simp [hord])]
    simp only [hsum, if_neg hS, ← hsize]
    congr
    funext m0
    split
    · rfl
    · congr
      funext m1
      congr
      funext m2
      congr
      funext m3
      rw [foldl_add_eq_sum, zero_add]
  rw [hcomp]
  match magnitudes, hS with
  | [], hS => exact absurd rfl hS
  | [a], hS =>
    refine ⟨a / [a].sum, 0, 0, by simp [readAt, Computed.bind], by simp, ?_, ?_⟩
    · intro _
      have ha : a ≠ 0 := by simpa using hS
      simp [ha]
    · intro h
      simp at h
  | [a, b], hS =>
    refine ⟨a / [a, b].sum, 0, 0, by simp [readAt, Computed.bind], by simp, ?_, ?_⟩
    · intro h
      simp at h
    · intro _
      exact ⟨rfl, rfl⟩
  | [a, b, c], hS =>
    refine ⟨a / [a, b, c].sum, 0, 0, by simp [readAt, Computed.bind], by simp, ?_, ?_⟩
    · intro h
      simp at h
    · intro _
      exact ⟨rfl, rfl⟩
  | [a, b, c, d], hS =>
    refine ⟨a / [a, b, c, d].sum, (b + c + d) / [a, b, c, d].sum, 0,
      by simp [readAt, Computed.bind], by simp, ?_, ?_⟩
    · intro _
      refine ⟨by simp [add_assoc], by simp, ?_⟩
      have hS' : a + (b + (c + d)) ≠ 0 := by simpa using hS
      simp only [List.sum_cons, List.sum_nil, add_zero]
      field_simp
      ring
    · intro h
      simp at h
  | a :: b :: c :: d :: e :: rest, hS =>
    refine ⟨a / (a :: b :: c :: d :: e :: rest).sum,
      (b + c + d) / (a :: b :: c :: d :: e :: rest).sum,
      (e :: rest).sum / (a :: b :: c :: d :: e :: rest).sum, ?_, by simp, ?_, ?_⟩
    · have h4 : ¬ rest.length + 1 + 1 + 1 + 1 + 1 < 4 := by omega
      have h5 : ¬ rest.length + 1 + 1 + 1 + 1 + 1 < 5 := by omega
      simp [readAt, Computed.bind, h4, h5]
    · intro _
      refine ⟨by simp [add_assoc], by simp, ?_⟩
      have hS' : a + (b + (c + (d + (e + rest.sum)))) ≠ 0 := by simpa using hS
      simp only [List.sum_cons]
      field_simp
      ring
    · intro h
      simp at h

/-- C18 amended, at five peaks of magnitude 1: the outputs are 1/5, 3/5 and
1/5. -/
theorem outputs_relative_weights_witness :
    ∃ t0 t1 t2 : ℚ,
      compute [100, 200, 300, 400, 500] [1, 1, 1, 1, 1] = .ok [t0, t1, t2] ∧
      t0 + t1 + t2 = 1 := by
  obtain ⟨t0, t1, t2, h, _, h4, _⟩ := outputs_relative_weights [100, 200, 300, 400, 500]
    [1, 1, 1, 1, 1] rfl (by simp [notOrdered]; norm_num) (by norm_num)
  exact ⟨t0, t1, t2, h, (h4 (Or.inr (by decide))).2.2⟩

end Tristimulus

namespace PitchSalienceFunction

/-- C19, evaluated where the code departs from it.  The description says the
inputs "must not contain negative magnitudes", and the sanity loop tests
`magnitudes[i] <= 0`: the single peak of frequency 100 and magnitude 0 makes
`compute` throw.  (Two empty inputs do give `numberBins` zeros.) -/
theorem zero_magnitude_throws (numberBins : Nat) (salience : List ℚ → List ℚ → List ℚ) :
    compute numberBins salience [100] [0]
      = .throws "PitchSalienceFunction: spectral peak magnitudes must be positive" ∧
    compute numberBins salience [] [] = .ok (List.replicate numberBins 0) := by
  constructor
  · have h : ¬ ((100 : ℚ) ≤ 0) := by norm_num
    simp [compute, sanityChecks, h]
  · simp [compute]

theorem sanityChecks_isSome_iff :
    ∀ (f m : List ℚ), m.length = f.length →
      ((sanityChecks f m).isSome = true ↔ (∃ x ∈ f, x ≤ 0) ∨ (∃ y ∈ m, y ≤ 0)) := by
  intro f
  induction f with
  | nil =>
    intro m hm
    have : m = [] := List.length_eq_zero.1 (by simpa using hm)
    subst this
    simp [sanityChecks]
  | cons x fs ih =>
    intro m hm
    cases m with
    | nil => simp at hm
    | cons y ms =>
      have hlen : ms.length = fs.length := by simpa using hm
      have := ih ms hlen
      unfold sanityChecks
      by_cases hx : x ≤ 0
      · simp [hx]
      · by_cases hy : y ≤ 0
        · simp [hx, hy]
        · simp [hx, hy, this]

/-- When `compute` throws: the sizes differ, or some frequency is not positive,
or some magnitude is not positive (zero included). -/
theorem compute_isThrow_iff (numberBins : Nat) (salience : List ℚ → List ℚ → List ℚ)
    (frequencies magnitudes : List ℚ) :
    (compute numberBins salience frequencies magnitudes).isThrow = true ↔
      magnitudes.length ≠ frequencies.length ∨
      (magnitudes.length = frequencies.length ∧
        ((∃ x ∈ frequencies, x ≤ 0) ∨ (∃ y ∈ magnitudes, y ≤ 0))) := by
  unfold compute
  by_cases hlen : magnitudes.length = frequencies.length
  · rw [if_neg (by simpa using hlen)]
    have hiff := sanityChecks_isSome_iff frequencies magnitudes hlen
    cases frequencies with
    | nil =>
      have : magnitudes = [] := List.length_eq_zero.1 (by simpa using hlen)
      subst this
      simp [Computed.isThrow]
    | cons x fs =>
      simp only [List.isEmpty_cons, Bool.false_eq_true, if_false]
      cases hs : sanityChecks (x :: fs) magnitudes with
      | none =>
        rw [hs] at hiff
        simp only [Computed.isThrow, Option.isSome_none, Bool.false_eq_true, false_iff] at hiff ⊢
        intro h
        rcases h with h | ⟨_, h⟩
        · exact h hlen
        · exact hiff h
      | some msg =>
        rw [hs] at hiff
        simp only [Computed.isThrow, Option.isSome_some, true_iff] at hiff ⊢
        exact Or.inr ⟨hlen, hiff⟩
  · rw [if_pos (by simpa using hlen)]
    simp [Computed.isThrow, hlen]

end PitchSalienceFunction

namespace PitchContoursMonoMelody

theorem cround_zero : cround 0 = 0 := by
  unfold cround
  rw [if_pos (le_refl _), Int.floor_eq_iff]
  norm_num

theorem frameIndex_zero (frameDuration : ℚ) : frameIndex frameDuration 0 = .ok 0 := by
  have h : cround (0 / frameDuration) = 0 := by rw [zero_div]; exact cround_zero
  unfold frameIndex
  rw [h, if_neg]
  · rfl
  · intro hc
    rcases hc with hc | hc
    · exact absurd hc (by decide)
    · exact absurd hc (by norm_num)

/-- The second loop on a single contour that starts at time 0 returns. -/
theorem indexLoop_one (frameDuration : ℚ) (bins sal : List ℚ)
    (restBins restSal : List (List ℚ)) (restTimes : List ℚ) (st : Stats) :
    ∃ st', indexLoop frameDuration (bins :: restBins) (sal :: restSal) (0 :: restTimes) 1 0 st
      = .ok st' := by
  refine ⟨{ st with
      _contoursStartIndices := st._contoursStartIndices ++ [0]
      _contoursEndIndices :=
        st._contoursEndIndices ++ [(0 + bins.length + (2 ^ 64 - 1)) % 2 ^ 64]
      _contoursSaliencesTotal :=
        st._contoursSaliencesTotal ++ [sal.foldl (fun acc x => acc + x) 0]
      _contoursSelected := st._contoursSelected ++ [0] }, ?_⟩
  unfold indexLoop
  simp only [readAt, List.getElem?_cons_zero, Computed.bind, frameIndex_zero]
  unfold indexLoop
  rfl

/-- C20, evaluated where the code departs from it.  With helpers `mean` and
`stddev` that return normally: (1) one contour of bins, two of saliences and
one start time, duration 0: only `contoursSaliences` differs in size, the test
`a != b && a != c` is false and `compute` returns without throwing; (2) one
contour of bins and saliences and no start time: the second loop reads
`contoursStartTimes[0]` out of range before the size test is reached. -/
theorem size_test_misses_single_mismatch {Out : Type} (frameDuration : ℚ)
    (mean : List ℚ → ℚ) (stddev : List ℚ → ℚ → ℚ)
    (resizeOutputs : Nat → Out → Out) (rest : Nat → Stats → Out → Computed Out)
    (b s s' : ℚ) (out : Out) :
    compute frameDuration (fun xs => .ok (mean xs)) (fun xs m => .ok (stddev xs m))
        resizeOutputs rest [[b]] [[s], [s']] [0] 0 out = .ok (resizeOutputs 0 out) ∧
    compute frameDuration (fun xs => .ok (mean xs)) (fun xs m => .ok (stddev xs m))
        resizeOutputs rest [[b]] [[s]] [] 0 out = .undefinedBehaviour := by
  constructor
  · unfold compute
    rw [frameIndex_zero]
    simp only [Computed.bind, List.length_singleton, statsLoop, readAt,
      List.getElem?_cons_zero]
    obtain ⟨st', h⟩ := indexLoop_one frameDuration [b] [s] [] [[s']] []
      { _contoursBinsMean := [] ++ [mean [b]],
        _contoursBinsStddev := [] ++ [stddev [b] (mean [b])],
        _contoursSaliencesMean := [] ++ [mean [s]] }
    rw [h]
    simp
  · unfold compute
    rw [frameIndex_zero]
    simp only [Computed.bind, List.length_singleton, statsLoop, readAt,
      List.getElem?_cons_zero, indexLoop, List.getElem?_nil]

end PitchContoursMonoMelody

/-! ## `checkIntegrity`, and `resize` and `insert` of `VectorEx` -/

namespace Pool

/-- C24, evaluated where the code departs from it.  `checkIntegrity` reads the
names from `descriptorNamesNoLocking`, which holds one empty name per
single-tensor key.  After `set("a", t); set("b", u)` (two single tensors) the
stored names "a" and "b" are distinct and each is held by one sub-map, yet
`checkIntegrity` throws, naming "" as the repeated descriptor; and after
`set("a", t); add("a", 1)` the name "a" is held by two sub-maps, yet
`checkIntegrity` returns. -/
theorem checkIntegrity_misled_by_single_tensor :
    (descriptorNames
        (set .tensorReal (fun _ => true) "b" ([8] : List Int) false
          (set .tensorReal (fun _ => true) "a" ([7] : List Int) false
            (empty : Pool Int (List Int) Unit)).2).2 = ["a", "b"] ∧
      checkIntegrity
        (set .tensorReal (fun _ => true) "b" ([8] : List Int) false
          (set .tensorReal (fun _ => true) "a" ([7] : List Int) false
            (empty : Pool Int (List Int) Unit)).2).2 = .throws (.twoTypesOfData "")) ∧
    (subMapsHolding
        (add .real (fun _ => true) "a" (1 : Int) false
          (set .tensorReal (fun _ => true) "a" ([7] : List Int) false
            (empty : Pool Int (List Int) Unit)).2).2 "a" = 2 ∧
      checkIntegrity
        (add .real (fun _ => true) "a" (1 : Int) false
          (set .tensorReal (fun _ => true) "a" ([7] : List Int) false
            (empty : Pool Int (List Int) Unit)).2).2 = .ok) := by
  decide

end Pool

namespace VectorExT

/-- C25, evaluated where the code departs from it.  `resize(0)` on the owning
vector `[1, 2, 3]` (no view, so `view_.size()` is 0) takes the branch
`new_size <= view_.size()`, which only rewrites the view: `vec_` keeps its
three elements and `size()` is still 3. -/
theorem resize_zero_keeps_owned_elements :
    (resize (0 : Int) 0 [] { vec_ := [1, 2, 3] }).2.vec_ = [1, 2, 3] ∧
    (resize (0 : Int) 0 [] { vec_ := [1, 2, 3] }).2.size = 3 ∧
    toList [] (resize (0 : Int) 0 [] { vec_ := [1, 2, 3] }).2 = [1, 2, 3] := by
  decide

/-- C26, evaluated where the code departs from it.  `resize(5, 9)` on the
owning vector `[1, 2, 3]` clears the vector before `vec_.resize(5, 9)`: the
result is `[9, 9, 9, 9, 9]`, where `std::vector::resize` gives
`[1, 2, 3, 9, 9]`; and `resize(2, 9)` gives `[9, 9]`, not `[1, 2]`. -/
theorem resize_val_discards_old_elements :
    (resize_val 5 (9 : Int) [] { vec_ := [1, 2, 3] }).2.vec_ = [9, 9, 9, 9, 9] ∧
    vectorResize (9 : Int) 5 [1, 2, 3] = [1, 2, 3, 9, 9] ∧
    (resize_val 2 (9 : Int) [] { vec_ := [1, 2, 3] }).2.vec_ = [9, 9] ∧
    vectorResize (9 : Int) 2 [1, 2, 3] = [1, 2] := by
  decide

/-- C27, evaluated where the code departs from it.  Inserting `[9]` at
`begin() + 1` into the owning vector `[1, 2, 3]` gives `[1, 9, 2, 3]`; into a
vector that aliases the memory `[1, 2, 3]` it gives `[1, 9, 3]` (the element
at the position is dropped, the size stays 3).  Inserting at `end()` gives
`[1, 2, 3, 9]` for the owning vector, and for the aliasing one the copied
range starts one past the end of the view. -/
theorem insert_in_view_drops_element :
    (insert 1 [(9 : Int)] [] { vec_ := [1, 2, 3] }).map (fun r => toList r.1 r.2)
      = some [1, 9, 2, 3] ∧
    (insert 1 [(9 : Int)] [1, 2, 3] (setReferenceData (some 0) 3 [1, 2, 3] {}).2).map
      (fun r => toList r.1 r.2) = some [1, 9, 3] ∧
    toList [1, 2, 3] (setReferenceData (some 0) 3 [(1 : Int), 2, 3] {}).2 = [1, 2, 3] ∧
    (insert 3 [(9 : Int)] [] { vec_ := [1, 2, 3] }).map (fun r => toList r.1 r.2)
      = some [1, 2, 3, 9] ∧
    (insert 3 [(9 : Int)] [1, 2, 3] (setReferenceData (some 0) 3 [1, 2, 3] {}).2).map
      (fun r => toList r.1 r.2) = none := by
  decide

end VectorExT

/-! ## Viterbi: the returned path is a most likely one -/

namespace Viterbi

theorem readAtInt_ok (xs : List ℚ) (s : Int) (h : inRange xs.length s) :
    readAtInt xs s = .ok (val xs s) := by
  obtain ⟨h0, h1⟩ := h
  have hlt : s.toNat < xs.length := by omega
  unfold readAtInt readAt val
  rw [if_pos h0, List.getD_eq_getElem?_getD, List.getElem?_eq_getElem hlt]
  rfl

theorem readAtInt_state_ok (xs : List Int) (s : Int) (h : inRange xs.length s) :
    readAtInt xs s = .ok (stateAt xs s) := by
  obtain ⟨h0, h1⟩ := h
  have hlt : s.toNat < xs.length := by omega
  unfold readAtInt readAt stateAt
  rw [if_pos h0, List.getD_eq_getElem?_getD, List.getElem?_eq_getElem hlt]
  rfl

theorem val_set (xs : List ℚ) (t j : Int) (v : ℚ) (ht : inRange xs.length t)
    (hj : inRange xs.length j) :
    val (xs.set t.toNat v) j = if j = t then v else val xs j := by
  obtain ⟨h0, h1⟩ := ht
  obtain ⟨h2, h3⟩ := hj
  unfold val
  rw [List.getD_eq_getElem?_getD, List.getD_eq_getElem?_getD, List.getElem?_set]
  by_cases h : j = t
  · subst h
    have hlt : j.toNat < xs.length := by omega
    simp [hlt]
  · have hne : t.toNat ≠ j.toNat := by omega
    simp [hne, h]

theorem stateAt_set (xs : List Int) (t j : Int) (v : Int) (ht : inRange xs.length t)
    (hj : inRange xs.length j) :
    stateAt (xs.set t.toNat v) j = if j = t then v else stateAt xs j := by
  obtain ⟨h0, h1⟩ := ht
  obtain ⟨h2, h3⟩ := hj
  unfold stateAt
  rw [List.getD_eq_getElem?_getD, List.getD_eq_getElem?_getD, List.getElem?_set]
  by_cases h : j = t
  · subst h
    have hlt : j.toNat < xs.length := by omega
    simp [hlt]
  · have hne : t.toNat ≠ j.toNat := by omega
    simp [hne, h]

theorem val_replicate_zero (n : Nat) (j : Int) : val (List.replicate n 0) j = 0 := by
  unfold val
  rw [List.getD_eq_getElem?_getD, List.getElem?_replicate]
  split_ifs <;> rfl

theorem stateAt_replicate_zero (n : Nat) (j : Int) : stateAt (List.replicate n 0) j = 0 := by
  unfold stateAt
  rw [List.getD_eq_getElem?_getD, List.getElem?_replicate]
  split_ifs <;> rfl

theorem val_replicate (n : Nat) (x : ℚ) (j : Int) (h : inRange n j) :
    val (List.replicate n x) j = x := by
  obtain ⟨h0, h1⟩ := h
  have hlt : j.toNat < n := by omega
  unfold val
  rw [List.getD_eq_getElem?_getD, List.getElem?_replicate, if_pos hlt]
  rfl

theorem val_map (xs : List ℚ) (f : ℚ → ℚ) (j : Int) (h : inRange xs.length j) :
    val (xs.map f) j = f (val xs j) := by
  obtain ⟨h0, h1⟩ := h
  have hlt : j.toNat < xs.length := by omega
  unfold val
  rw [List.getD_eq_getElem?_getD, List.getD_eq_getElem?_getD, List.getElem?_map,
    List.getElem?_eq_getElem hlt]
  rfl

theorem timesObs_spec (xs ys : List ℚ) (h : xs.length ≤ ys.length) :
    timesObs xs ys = .ok (List.zipWith (fun a b => a * b) xs ys) := by
  induction xs generalizing ys with
  | nil => cases ys <;> rfl
  | cons x xs ih =>
    cases ys with
    | nil => simp at h
    | cons y ys =>
      simp only [List.length_cons, Nat.add_le_add_iff_right] at h
      simp only [timesObs, ih ys h, Computed.bind, List.zipWith_cons_cons]

theorem val_zipWith (xs ys : List ℚ) (j : Int) (h : inRange xs.length j)
    (hlen : xs.length = ys.length) :
    val (List.zipWith (fun a b => a * b) xs ys) j = val xs j * val ys j := by
  obtain ⟨h0, h1⟩ := h
  have hlt : j.toNat < xs.length := by omega
  have hlt2 : j.toNat < ys.length := by omega
  unfold val
  rw [List.getD_eq_getElem?_getD, List.getD_eq_getElem?_getD, List.getD_eq_getElem?_getD,
    List.getElem?_zipWith, List.getElem?_eq_getElem hlt, List.getElem?_eq_getElem hlt2]
  rfl

theorem transOf_nonneg (es : List (Int × Int × ℚ)) (a b : Int) : 0 ≤ transOf es a b := by
  induction es with
  | nil => exact le_refl _
  | cons e rest ih =>
    unfold transOf
    split_ifs
    · exact le_trans ih (le_max_right _ _)
    · exact ih

theorem le_transOf_of_mem (es : List (Int × Int × ℚ)) (e : Int × Int × ℚ) (h : e ∈ es) :
    e.2.2 ≤ transOf es e.1 e.2.1 := by
  induction es with
  | nil => cases h
  | cons e2 rest ih =>
    unfold transOf
    rcases List.mem_cons.1 h with h1 | h1
    · subst h1
      rw [if_pos ⟨rfl, rfl⟩]
      exact le_max_left _ _
    · split_ifs
      · exact le_trans (ih h1) (le_max_right _ _)
      · exact ih h1

theorem transOf_eq (es : List (Int × Int × ℚ)) (a b : Int) :
    transOf es a b = 0 ∨ ∃ e ∈ es, e.1 = a ∧ e.2.1 = b ∧ transOf es a b = e.2.2 := by
  induction es with
  | nil => exact Or.inl rfl
  | cons e2 rest ih =>
    unfold transOf
    split_ifs with hc
    · rcases le_total e2.2.2 (transOf rest a b) with hle | hle
      · rw [max_eq_right hle]
        rcases ih with h0 | ⟨e, he, h1, h2, h3⟩
        · exact Or.inl h0
        · exact Or.inr ⟨e, List.mem_cons_of_mem _ he, h1, h2, h3⟩
      · rw [max_eq_left hle]
        exact Or.inr ⟨e2, List.mem_cons_self _ _, hc.1, hc.2, rfl⟩
    · rcases ih with h0 | ⟨e, he, h1, h2, h3⟩
      · exact Or.inl h0
      · exact Or.inr ⟨e, List.mem_cons_of_mem _ he, h1, h2, h3⟩



theorem sparseLoop_spec (od : List ℚ) (n : Nat) (hod : od.length = n) :
    ∀ (fs ts : List Int) (ps : List ℚ) (d0 : List ℚ) (y0 : List Int),
      fs.length = ts.length → ts.length = ps.length → d0.length = n → y0.length = n →
      (∀ f ∈ fs, inRange n f) → (∀ t ∈ ts, inRange n t) →
      ∃ d y, sparseLoop od fs ts ps (d0, y0) = .ok (d, y) ∧ d.length = n ∧ y.length = n ∧
        (∀ j, inRange n j → val d0 j ≤ val d j) ∧
        (∀ e ∈ List.zip fs (List.zip ts ps), val od e.1 * e.2.2 ≤ val d e.2.1) ∧
        (∀ j, inRange n j → (val d j = val d0 j ∧ stateAt y j = stateAt y0 j) ∨
          ∃ e ∈ List.zip fs (List.zip ts ps),
            e.2.1 = j ∧ val d j = val od e.1 * e.2.2 ∧ stateAt y j = e.1) := by
  intro fs
  induction fs with
  | nil =>
    intro ts ps d0 y0 h1 h2 hd hy _ _
    cases ts with
    | nil =>
      cases ps with
      | nil =>
        refine ⟨d0, y0, rfl, hd, hy, fun j _ => le_refl _, ?_, fun j _ => Or.inl ⟨rfl, rfl⟩⟩
        intro e he
        simp at he
      | cons p ps => simp at h2
    | cons t ts => simp at h1
  | cons f fs ih =>
    intro ts ps d0 y0 h1 h2 hd hy hf ht
    cases ts with
    | nil => simp at h1
    | cons t ts =>
      cases ps with
      | nil => simp at h2
      | cons p ps =>
        simp only [List.length_cons, Nat.add_right_cancel_iff] at h1 h2
        have hfr : inRange n f := hf f (List.mem_cons_self _ _)
        have htr : inRange n t := ht t (List.mem_cons_self _ _)
        have hf2 : ∀ g ∈ fs, inRange n g := fun g hg => hf g (List.mem_cons_of_mem _ hg)
        have ht2 : ∀ g ∈ ts, inRange n g := fun g hg => ht g (List.mem_cons_of_mem _ hg)
        have hr1 : readAtInt od f = .ok (val od f) := readAtInt_ok od f (by rw [hod]; exact hfr)
        have hr2 : readAtInt d0 t = .ok (val d0 t) := readAtInt_ok d0 t (by rw [hd]; exact htr)
        by_cases hc : val od f * p > val d0 t
        · obtain ⟨d, y, hrun, hdl, hyl, ha, hb, hcc⟩ :=
            ih ts ps (d0.set t.toNat (val od f * p)) (y0.set t.toNat f) h1 h2
              (by rw [List.length_set]; exact hd) (by rw [List.length_set]; exact hy) hf2 ht2
          have hv : ∀ j, inRange n j →
              val (d0.set t.toNat (val od f * p)) j
                = if j = t then val od f * p else val d0 j :=
            fun j hj => val_set d0 t j _ (by rw [hd]; exact htr) (by rw [hd]; exact hj)
          have hs : ∀ j, inRange n j →
              stateAt (y0.set t.toNat f) j = if j = t then f else stateAt y0 j :=
            fun j hj => stateAt_set y0 t j _ (by rw [hy]; exact htr) (by rw [hy]; exact hj)
          refine ⟨d, y, ?_, hdl, hyl, ?_, ?_, ?_⟩
          · simp only [sparseLoop, hr1, hr2, Computed.bind]
            rw [if_pos hc]
            exact hrun
          · intro j hj
            refine le_trans ?_ (ha j hj)
            rw [hv j hj]
            split_ifs with hjt
            · rw [hjt]; exact le_of_lt hc
            · exact le_refl _
          · intro e he
            rcases List.mem_cons.1 he with he1 | he1
            · subst he1
              have := ha t htr
              rw [hv t htr, if_pos rfl] at this
              exact this
            · exact hb e he1
          · intro j hj
            rcases hcc j hj with ⟨e1, e2⟩ | ⟨e, he, e1, e2, e3⟩
            · by_cases hjt : j = t
              · refine Or.inr ⟨(f, t, p), List.mem_cons_self _ _, hjt.symm, ?_, ?_⟩
                · rw [e1, hv j hj, if_pos hjt]
                · rw [e2, hs j hj, if_pos hjt]
              · refine Or.inl ⟨?_, ?_⟩
                · rw [e1, hv j hj, if_neg hjt]
                · rw [e2, hs j hj, if_neg hjt]
            · exact Or.inr ⟨e, List.mem_cons_of_mem _ he, e1, e2, e3⟩
        · obtain ⟨d, y, hrun, hdl, hyl, ha, hb, hcc⟩ := ih ts ps d0 y0 h1 h2 hd hy hf2 ht2
          refine ⟨d, y, ?_, hdl, hyl, ha, ?_, ?_⟩
          · simp only [sparseLoop, hr1, hr2, Computed.bind]
            rw [if_neg hc]
            exact hrun
          · intro e he
            rcases List.mem_cons.1 he with he1 | he1
            · subst he1
              exact le_trans (not_lt.1 hc) (ha t htr)
            · exact hb e he1
          · intro j hj
            rcases hcc j hj with h | ⟨e, he, e1, e2, e3⟩
            · exact Or.inl h
            · exact Or.inr ⟨e, List.mem_cons_of_mem _ he, e1, e2, e3⟩

theorem mem_zip_from (fs ts : List Int) (ps : List ℚ) (e : Int × Int × ℚ)
    (h : e ∈ List.zip fs (List.zip ts ps)) : e.1 ∈ fs := by
  have h2 : (e.1, e.2) ∈ List.zip fs (List.zip ts ps) := h
  exact (List.of_mem_zip h2).1

/-- The sparse loop started on zeros: `delta[j]` is the largest
`oldDelta[a] * trans(a, j)`, reached at `a = psi[iFrame][j]` when positive. -/
theorem sparseLoop_from_zero (od : List ℚ) (n : Nat) (hod : od.length = n)
    (hodnn : ∀ a, inRange n a → 0 ≤ val od a)
    (fs ts : List Int) (ps : List ℚ)
    (h1 : fs.length = ts.length) (h2 : ts.length = ps.length)
    (hf : ∀ f ∈ fs, inRange n f) (ht : ∀ t ∈ ts, inRange n t) :
    ∃ d y, sparseLoop od fs ts ps (List.replicate n 0, List.replicate n 0) = .ok (d, y) ∧
      d.length = n ∧ y.length = n ∧
      (∀ j, inRange n j → 0 ≤ val d j) ∧
      (∀ a j, inRange n j → val od a * trans fs ts ps a j ≤ val d j) ∧
      (∀ j, inRange n j → inRange n (stateAt y j)) ∧
      (∀ j, inRange n j → 0 < val d j →
        val d j = val od (stateAt y j) * trans fs ts ps (stateAt y j) j) := by
  obtain ⟨d, y, hrun, hdl, hyl, ha, hb, hc⟩ :=
    sparseLoop_spec od n hod fs ts ps (List.replicate n 0) (List.replicate n 0) h1 h2
      (List.length_replicate _ _) (List.length_replicate _ _) hf ht
  have hnn : ∀ j, inRange n j → 0 ≤ val d j := by
    intro j hj
    have := ha j hj
    rw [val_replicate_zero] at this
    exact this
  have hP1 : ∀ a j, inRange n j → val od a * trans fs ts ps a j ≤ val d j := by
    intro a j hj
    unfold trans
    rcases transOf_eq (List.zip fs (List.zip ts ps)) a j with h0 | ⟨e, he, e1, e2, e3⟩
    · rw [h0, mul_zero]; exact hnn j hj
    · rw [e3, ← e1, ← e2]; exact hb e he
  refine ⟨d, y, hrun, hdl, hyl, hnn, hP1, ?_, ?_⟩
  · intro j hj
    rcases hc j hj with ⟨_, e2⟩ | ⟨e, he, _, _, e3⟩
    · rw [e2, stateAt_replicate_zero]
      exact ⟨le_refl _, lt_of_le_of_lt hj.1 hj.2⟩
    · rw [e3]; exact hf _ (mem_zip_from fs ts ps e he)
  · intro j hj hpos
    rcases hc j hj with ⟨e1, _⟩ | ⟨e, he, e1, e2, e3⟩
    · rw [e1, val_replicate_zero] at hpos
      exact absurd hpos (lt_irrefl _)
    · rw [e3]
      apply le_antisymm
      · rw [e2]
        have hle := le_transOf_of_mem _ e he
        rw [e1] at hle
        exact mul_le_mul_of_nonneg_left hle
          (hodnn _ (hf _ (mem_zip_from fs ts ps e he)))
      · exact hP1 e.1 j hj

theorem pathProductFrom_snoc (tr : Int → Int → ℚ) (r : List ℚ) (j a : Int) :
    ∀ (ss : List Int) (previous : Int) (rows : List (List ℚ)),
      ss.length + 1 = rows.length →
      pathProductFrom tr previous (ss ++ [a] ++ [j]) (rows ++ [r])
        = pathProductFrom tr previous (ss ++ [a]) rows * tr a j * val r j := by
  intro ss
  induction ss with
  | nil =>
    intro previous rows h
    cases rows with
    | nil => simp at h
    | cons row rows =>
      cases rows with
      | nil =>
        simp only [List.nil_append, List.cons_append, pathProductFrom]
        ring
      | cons row2 rows => simp at h
  | cons s ss ih =>
    intro previous rows h
    cases rows with
    | nil => simp at h
    | cons row rows =>
      simp only [List.length_cons, Nat.add_right_cancel_iff] at h
      show tr previous s * val row s * pathProductFrom tr s (ss ++ [a] ++ [j]) (rows ++ [r])
        = tr previous s * val row s * pathProductFrom tr s (ss ++ [a]) rows * tr a j * val r j
      rw [ih s rows h]
      ring

theorem pathProduct_snoc (init : List ℚ) (tr : Int → Int → ℚ) (done : List (List ℚ))
    (r : List ℚ) (q : List Int) (a j : Int) (h : q.length + 1 = done.length) :
    pathProduct init (done ++ [r]) tr (q ++ [a] ++ [j])
      = pathProduct init done tr (q ++ [a]) * tr a j * val r j := by
  cases done with
  | nil => simp at h
  | cons row0 rows =>
    simp only [List.length_cons, Nat.add_right_cancel_iff] at h
    cases q with
    | nil =>
      have hr : rows = [] := List.length_eq_zero.1 h.symm
      subst hr
      simp only [List.nil_append, List.cons_append, pathProduct, List.headD_cons,
        List.tail_cons, pathProductFrom]
      ring
    | cons s0 q =>
      simp only [List.length_cons] at h
      show val init s0 * val row0 s0 * pathProductFrom tr s0 (q ++ [a] ++ [j]) (rows ++ [r])
        = val init s0 * val row0 s0 * pathProductFrom tr s0 (q ++ [a]) rows * tr a j * val r j
      rw [pathProductFrom_snoc tr r j a q s0 rows h]
      ring

theorem val_nonneg_of_forall (xs : List ℚ) (h : ∀ x ∈ xs, 0 ≤ x) (s : Int) :
    0 ≤ val xs s := by
  unfold val
  rw [List.getD_eq_getElem?_getD]
  cases hx : xs[s.toNat]? with
  | none => exact le_refl _
  | some x => exact h x (List.getElem?_mem hx)

theorem pathProductFrom_nonneg (tr : Int → Int → ℚ) (htr : ∀ a b, 0 ≤ tr a b) :
    ∀ (ss : List Int) (previous : Int) (rows : List (List ℚ)),
      (∀ row ∈ rows, ∀ x ∈ row, 0 ≤ x) → 0 ≤ pathProductFrom tr previous ss rows := by
  intro ss
  induction ss with
  | nil => intro previous rows _; cases rows <;> simp [pathProductFrom]
  | cons s ss ih =>
    intro previous rows h
    cases rows with
    | nil => simp [pathProductFrom]
    | cons row rows =>
      simp only [pathProductFrom]
      have h1 := htr previous s
      have h2 := val_nonneg_of_forall row (h row (List.mem_cons_self _ _)) s
      have h3 := ih s rows (fun r hr => h r (List.mem_cons_of_mem _ hr))
      positivity

theorem pathProduct_nonneg (init : List ℚ) (obs : List (List ℚ)) (tr : Int → Int → ℚ)
    (htr : ∀ a b, 0 ≤ tr a b) (hinit : ∀ x ∈ init, 0 ≤ x)
    (hobs : ∀ row ∈ obs, ∀ x ∈ row, 0 ≤ x) (p : List Int) :
    0 ≤ pathProduct init obs tr p := by
  cases p with
  | nil => simp [pathProduct]
  | cons s0 rest =>
    simp only [pathProduct]
    have h1 := val_nonneg_of_forall init hinit s0
    have h2 : 0 ≤ val (obs.headD []) s0 := by
      cases obs with
      | nil => simp [val]
      | cons row rows => exact val_nonneg_of_forall row (hobs row (List.mem_cons_self _ _)) s0
    have h3 := pathProductFrom_nonneg tr htr rest s0 obs.tail
      (fun r hr => hobs r (List.mem_of_mem_tail hr))
    positivity

theorem backLoop_cons (n : Nat) (y : List Int) (rest : List (List Int)) (j : Int)
    (hy : y.length = n) (hj : inRange n j) :
    backLoop (y :: rest) j
      = (backLoop rest (stateAt y j)).bind fun before => .ok (before ++ [stateAt y j]) := by
  simp only [backLoop, readAtInt_state_ok y j (by rw [hy]; exact hj), Computed.bind]

theorem drop_one_append (psi : List (List Int)) (y : List Int) (h : psi ≠ []) :
    ((psi ++ [y]).drop 1).reverse = y :: (psi.drop 1).reverse := by
  cases psi with
  | nil => exact absurd rfl h
  | cons a rest => simp

theorem bestLoop_spec :
    ∀ (vs : List ℚ) (i : Nat) (best : ℚ) (last : Int),
      (bestLoop vs i best last = last ∧ ∀ v ∈ vs, v ≤ best) ∨
      ∃ k, k < vs.length ∧ bestLoop vs i best last = ((i + k : Nat) : Int) ∧
        best < vs.getD k 0 ∧ ∀ m, m < vs.length → vs.getD m 0 ≤ vs.getD k 0 := by
  intro vs
  induction vs with
  | nil => intro i best last; exact Or.inl ⟨rfl, by simp⟩
  | cons v vs ih =>
    intro i best last
    unfold bestLoop
    split_ifs with hc
    · rcases ih (i + 1) v i with ⟨h1, h2⟩ | ⟨k, hk, h1, h2, h3⟩
      · refine Or.inr ⟨0, by simp, ?_, ?_, ?_⟩
        · rw [h1]; simp
        · simpa using hc
        · intro m hm
          cases m with
          | zero => simp
          | succ m =>
            simp only [List.length_cons, Nat.add_lt_add_iff_right] at hm
            simp only [List.getD_cons_succ, List.getD_cons_zero]
            rw [List.getD_eq_getElem?_getD, List.getElem?_eq_getElem hm]
            exact h2 _ (List.getElem_mem _)
      · refine Or.inr ⟨k + 1, by simp [hk], ?_, ?_, ?_⟩
        · rw [h1]; congr 1; omega
        · simp only [List.getD_cons_succ]; exact lt_trans hc h2
        · intro m hm
          cases m with
          | zero => simp only [List.getD_cons_zero, List.getD_cons_succ]; exact le_of_lt h2
          | succ m =>
            simp only [List.length_cons, Nat.add_lt_add_iff_right] at hm
            simp only [List.getD_cons_succ]
            exact h3 m hm
    · rcases ih (i + 1) best last with ⟨h1, h2⟩ | ⟨k, hk, h1, h2, h3⟩
      · refine Or.inl ⟨h1, ?_⟩
        intro w hw
        rcases List.mem_cons.1 hw with h | h
        · rw [h]; exact not_lt.1 hc
        · exact h2 w h
      · refine Or.inr ⟨k + 1, by simp [hk], ?_, ?_, ?_⟩
        · rw [h1]; congr 1; omega
        · simp only [List.getD_cons_succ]; exact h2
        · intro m hm
          cases m with
          | zero =>
            simp only [List.getD_cons_zero, List.getD_cons_succ]
            exact le_trans (not_lt.1 hc) (le_of_lt h2)
          | succ m =>
            simp only [List.length_cons, Nat.add_lt_add_iff_right] at hm
            simp only [List.getD_cons_succ]
            exact h3 m hm

/-- The initialisation of the backward step picks a state whose `oldDelta` is
the largest, when some `oldDelta` is positive. -/
theorem bestLoop_argmax (od : List ℚ) (n : Nat) (hlen : od.length = n) (last : Int)
    (hpos : ∃ a, inRange n a ∧ 0 < val od a) :
    inRange n (bestLoop od 0 0 last) ∧ 0 < val od (bestLoop od 0 0 last) ∧
      ∀ a, inRange n a → val od a ≤ val od (bestLoop od 0 0 last) := by
  rcases bestLoop_spec od 0 0 last with ⟨_, h2⟩ | ⟨k, hk, h1, h2, h3⟩
  · obtain ⟨a, ha, hpa⟩ := hpos
    have hlt : a.toNat < od.length := by
      have := ha.1; have := ha.2; omega
    have hmem : val od a ∈ od := by
      unfold val
      rw [List.getD_eq_getElem?_getD, List.getElem?_eq_getElem hlt]
      exact List.getElem_mem _
    exact absurd (h2 _ hmem) (not_le.2 hpa)
  · have hv : val od (bestLoop od 0 0 last) = od.getD k 0 := by
      rw [h1]; unfold val; simp
    refine ⟨?_, ?_, ?_⟩
    · rw [h1]; constructor
      · exact Int.natCast_nonneg _
      · simp only [Nat.zero_add]; rw [← hlen]; exact_mod_cast hk
    · rw [hv]; exact h2
    · intro a ha
      rw [hv]
      have hlt : a.toNat < od.length := by
        have := ha.1; have := ha.2; omega
      exact h3 a.toNat hlt

theorem sum_nonneg_of_forall (xs : List ℚ) (h : ∀ x ∈ xs, 0 ≤ x) : 0 ≤ xs.sum := by
  induction xs with
  | nil => simp
  | cons x xs ih =>
    rw [List.sum_cons]
    have := h x (List.mem_cons_self _ _)
    have := ih (fun y hy => h y (List.mem_cons_of_mem _ hy))
    linarith

theorem le_sum_of_mem (xs : List ℚ) (h : ∀ x ∈ xs, 0 ≤ x) (x : ℚ) (hx : x ∈ xs) :
    x ≤ xs.sum := by
  induction xs with
  | nil => cases hx
  | cons y ys ih =>
    rw [List.sum_cons]
    rcases List.mem_cons.1 hx with h1 | h1
    · have := sum_nonneg_of_forall ys (fun z hz => h z (List.mem_cons_of_mem _ hz))
      rw [h1]; linarith
    · have := ih (fun z hz => h z (List.mem_cons_of_mem _ hz)) h1
      have := h y (List.mem_cons_self _ _)
      linarith

theorem exists_pos_of_sum_pos (xs : List ℚ) (h : 0 < xs.sum) : ∃ x ∈ xs, 0 < x := by
  induction xs with
  | nil => simp at h
  | cons y ys ih =>
    rw [List.sum_cons] at h
    by_cases hy : 0 < y
    · exact ⟨y, List.mem_cons_self _ _, hy⟩
    · obtain ⟨x, hx, hp⟩ := ih (by linarith)
      exact ⟨x, List.mem_cons_of_mem _ hx, hp⟩

theorem val_mem (xs : List ℚ) (a : Int) (h : inRange xs.length a) : val xs a ∈ xs := by
  have hlt : a.toNat < xs.length := by
    have := h.1; have := h.2; omega
  unfold val
  rw [List.getD_eq_getElem?_getD, List.getElem?_eq_getElem hlt]
  exact List.getElem_mem _

theorem exists_val_of_mem (xs : List ℚ) (x : ℚ) (h : x ∈ xs) :
    ∃ a, inRange xs.length a ∧ val xs a = x := by
  obtain ⟨k, hk, he⟩ := List.getElem_of_mem h
  refine ⟨(k : Int), ⟨Int.natCast_nonneg _, by exact_mod_cast hk⟩, ?_⟩
  unfold val
  rw [List.getD_eq_getElem?_getD, Int.toNat_ofNat, List.getElem?_eq_getElem hk]
  exact he

theorem exists_concat_of_length (q2 : List Int) (k : Nat) (h : q2.length = k + 1) :
    ∃ q a, q2 = q ++ [a] ∧ q.length = k := by
  rcases List.eq_nil_or_concat q2 with h0 | ⟨q, a, hq⟩
  · rw [h0] at h; simp at h
  · rw [List.concat_eq_append] at hq
    refine ⟨q, a, hq, ?_⟩
    rw [hq] at h
    simp at h
    exact h

theorem forwardInv_step (n : Nat) (init : List ℚ) (tr : Int → Int → ℚ)
    (htr : ∀ a b, 0 ≤ tr a b)
    (done : List (List ℚ)) (od : List ℚ) (psi : List (List Int))
    (hinv : ForwardInv n init tr done od psi)
    (r : List ℚ) (hr : r.length = n) (hrnn : ∀ x ∈ r, 0 ≤ x)
    (hinit : ∀ x ∈ init, 0 ≤ x) (hdone : ∀ row ∈ done, ∀ x ∈ row, 0 ≤ x)
    (d : List ℚ) (y : List Int) (hdl : d.length = n) (hyl : y.length = n)
    (hdnn : ∀ j, inRange n j → 0 ≤ val d j)
    (hP1 : ∀ a j, inRange n j → val od a * tr a j ≤ val d j)
    (hP3 : ∀ j, inRange n j → inRange n (stateAt y j))
    (hP2 : ∀ j, inRange n j → 0 < val d j →
      val d j = val od (stateAt y j) * tr (stateAt y j) j) :
    ForwardInv n init tr (done ++ [r])
      (if (List.zipWith (fun a b => a * b) d r).sum > 0 then
        (List.zipWith (fun a b => a * b) d r).map
          (fun x => x / (List.zipWith (fun a b => a * b) d r).sum)
       else List.replicate n (1 / (n : ℚ)))
      (psi ++ [y]) := by
  obtain ⟨hodl, hodnn, ⟨a0, ha0, hpa0⟩, hpsil, hback, hscore⟩ := hinv
  have hn : 0 < n := by
    have := ha0.1; have := ha0.2; omega
  have hnq : (0 : ℚ) < (n : ℚ) := by exact_mod_cast hn
  have hdone1 : 1 ≤ done.length := by
    obtain ⟨q, _, hq, _⟩ := hback a0 ha0
    omega
  have hpsi_ne : psi ≠ [] := by
    intro h
    rw [h] at hpsil
    simp at hpsil
    omega
  have hDl : (List.zipWith (fun a b => a * b) d r).length = n := by
    rw [List.length_zipWith, hdl, hr, Nat.min_self]
  have hDv : ∀ j, inRange n j →
      val (List.zipWith (fun a b => a * b) d r) j = val d j * val r j :=
    fun j hj => val_zipWith d r j (by rw [hdl]; exact hj) (by rw [hdl, hr])
  have hrj : ∀ j, 0 ≤ val r j := fun j => val_nonneg_of_forall r hrnn j
  have hDnn : ∀ x ∈ List.zipWith (fun a b => a * b) d r, 0 ≤ x := by
    intro x hx
    obtain ⟨a, ha, hax⟩ := exists_val_of_mem _ x hx
    rw [hDl] at ha
    rw [← hax, hDv a ha]
    exact mul_nonneg (hdnn a ha) (hrj a)
  have hPnn : ∀ p, 0 ≤ pathProduct init done tr p :=
    fun p => pathProduct_nonneg init done tr htr hinit hdone p
  have hback2 : ∀ a, inRange n a → ∃ q, backLoop (psi.drop 1).reverse (stateAt y a) = .ok q ∧
      backLoop ((psi ++ [y]).drop 1).reverse a = .ok (q ++ [stateAt y a]) ∧
      q.length + 1 = done.length ∧ ∀ s ∈ q, inRange n s := by
    intro a ha
    obtain ⟨q, hq, hql, hqr⟩ := hback (stateAt y a) (hP3 a ha)
    refine ⟨q, hq, ?_, hql, hqr⟩
    rw [drop_one_append psi y hpsi_ne, backLoop_cons n y _ a hyl ha, hq]
    rfl
  have hlen2 : (psi ++ [y]).length = (done ++ [r]).length := by
    simp [hpsil]
  have hbackNew : ∀ a, inRange n a → ∃ q, backLoop ((psi ++ [y]).drop 1).reverse a = .ok q ∧
      q.length + 1 = (done ++ [r]).length ∧ ∀ s ∈ q, inRange n s := by
    intro a ha
    obtain ⟨q, _, hq2, hql, hqr⟩ := hback2 a ha
    refine ⟨q ++ [stateAt y a], hq2, by simp [hql], ?_⟩
    intro s hs
    rcases List.mem_append.1 hs with h | h
    · exact hqr s h
    · rw [List.mem_singleton.1 h]; exact hP3 a ha
  -- every longer sequence is a shorter one with one more state
  have hsplit : ∀ q2 : List Int, q2.length + 1 = (done ++ [r]).length →
      (∀ s ∈ q2, inRange n s) →
      ∃ q a, q2 = q ++ [a] ∧ q.length + 1 = done.length ∧ (∀ s ∈ q, inRange n s) ∧
        inRange n a := by
    intro q2 hl hq2
    have hl2 : q2.length = (done.length - 1) + 1 := by
      simp at hl; omega
    obtain ⟨q, a, hqa, hql⟩ := exists_concat_of_length q2 _ hl2
    refine ⟨q, a, hqa, by omega, ?_, ?_⟩
    · intro s hs; exact hq2 s (by rw [hqa]; exact List.mem_append_left _ hs)
    · exact hq2 a (by rw [hqa]; simp)
  by_cases hds : (List.zipWith (fun a b => a * b) d r).sum > 0
  · rw [if_pos hds]
    have hval : ∀ j, inRange n j →
        val ((List.zipWith (fun a b => a * b) d r).map
          (fun x => x / (List.zipWith (fun a b => a * b) d r).sum)) j
          = val d j * val r j / (List.zipWith (fun a b => a * b) d r).sum := by
      intro j hj
      rw [val_map _ _ j (by rw [hDl]; exact hj), hDv j hj]
    refine ⟨by rw [List.length_map, hDl], ?_, ?_, hlen2, hbackNew, ?_⟩
    · intro a ha
      rw [hval a ha]
      exact div_nonneg (mul_nonneg (hdnn a ha) (hrj a)) (le_of_lt hds)
    · obtain ⟨x, hx, hxp⟩ := exists_pos_of_sum_pos _ hds
      obtain ⟨a, ha, hax⟩ := exists_val_of_mem _ x hx
      rw [hDl] at ha
      refine ⟨a, ha, ?_⟩
      rw [hval a ha, ← hDv a ha, hax]
      exact div_pos hxp hds
    · rcases hscore with hdead | ⟨c, hc, halive⟩
      · left
        intro q2 j hl hq2 hj
        obtain ⟨q, a, hqa, hql, hqr, har⟩ := hsplit q2 hl hq2
        rw [hqa, pathProduct_snoc init tr done r q a j hql, hdead q a hql hqr har]
        ring
      · right
        refine ⟨c / (List.zipWith (fun a b => a * b) d r).sum, div_pos hc hds, ?_⟩
        intro j hj
        constructor
        · intro q2 hl hq2
          obtain ⟨q, a, hqa, hql, hqr, har⟩ := hsplit q2 hl hq2
          rw [hqa, pathProduct_snoc init tr done r q a j hql, hval j hj]
          have hA := (halive a har).1 q hql hqr
          have h1 : c * pathProduct init done tr (q ++ [a]) * tr a j ≤ val od a * tr a j :=
            mul_le_mul_of_nonneg_right hA (htr _ _)
          have h3 : c * pathProduct init done tr (q ++ [a]) * tr a j * val r j
              ≤ val d j * val r j :=
            mul_le_mul_of_nonneg_right (le_trans h1 (hP1 a j hj)) (hrj j)
          have e : c / (List.zipWith (fun a b => a * b) d r).sum
              * (pathProduct init done tr (q ++ [a]) * tr a j * val r j)
              = c * pathProduct init done tr (q ++ [a]) * tr a j * val r j
                / (List.zipWith (fun a b => a * b) d r).sum := by ring
          rw [e]
          exact div_le_div_of_nonneg_right h3 (le_of_lt hds)
        · intro hpos q2 hq2
          rw [hval j hj] at hpos ⊢
          have hnum : 0 < val d j * val r j := by
            by_contra hcon
            have hz : val d j * val r j = 0 :=
              le_antisymm (not_lt.1 hcon) (mul_nonneg (hdnn j hj) (hrj j))
            rw [hz, zero_div] at hpos
            exact lt_irrefl _ hpos
          have hdpos : 0 < val d j := by
            rcases lt_or_eq_of_le (hdnn j hj) with h | h
            · exact h
            · rw [← h, zero_mul] at hnum; exact absurd hnum (lt_irrefl _)
          have hd := hP2 j hj hdpos
          have hfr := hP3 j hj
          have hodpos : 0 < val od (stateAt y j) := by
            rcases lt_or_eq_of_le (hodnn _ hfr) with h | h
            · exact h
            · rw [← h, zero_mul] at hd; rw [hd] at hdpos; exact absurd hdpos (lt_irrefl _)
          obtain ⟨q, hq, hq2', hql, hqr⟩ := hback2 j hj
          rw [hq2'] at hq2
          have hq2e : q ++ [stateAt y j] = q2 := by
            injection hq2
          rw [← hq2e, pathProduct_snoc init tr done r q _ j hql]
          have hB := (halive _ hfr).2 hodpos q hq
          have e : c / (List.zipWith (fun a b => a * b) d r).sum
              * (pathProduct init done tr (q ++ [stateAt y j]) * tr (stateAt y j) j * val r j)
              = c * pathProduct init done tr (q ++ [stateAt y j]) * tr (stateAt y j) j
                * val r j / (List.zipWith (fun a b => a * b) d r).sum := by ring
          rw [e, hB, ← hd]
  · rw [if_neg hds]
    have hDz : ∀ j, inRange n j → val d j * val r j = 0 := by
      intro j hj
      rw [← hDv j hj]
      have hm := val_mem (List.zipWith (fun a b => a * b) d r) j (by rw [hDl]; exact hj)
      exact le_antisymm (le_trans (le_sum_of_mem _ hDnn _ hm) (not_lt.1 hds)) (hDnn _ hm)
    refine ⟨List.length_replicate _ _, ?_, ?_, hlen2, hbackNew, ?_⟩
    · intro a ha
      rw [val_replicate n _ a ha]
      exact le_of_lt (div_pos one_pos hnq)
    · refine ⟨a0, ha0, ?_⟩
      rw [val_replicate n _ a0 ha0]
      exact div_pos one_pos hnq
    · left
      intro q2 j hl hq2 hj
      obtain ⟨q, a, hqa, hql, hqr, har⟩ := hsplit q2 hl hq2
      rw [hqa, pathProduct_snoc init tr done r q a j hql]
      rcases hscore with hdead | ⟨c, hc, halive⟩
      · rw [hdead q a hql hqr har]
        ring
      · have hA := (halive a har).1 q hql hqr
        have h1 : c * pathProduct init done tr (q ++ [a]) * tr a j ≤ val od a * tr a j :=
          mul_le_mul_of_nonneg_right hA (htr _ _)
        have h3 : c * pathProduct init done tr (q ++ [a]) * tr a j * val r j
            ≤ val d j * val r j :=
          mul_le_mul_of_nonneg_right (le_trans h1 (hP1 a j hj)) (hrj j)
        rw [hDz j hj] at h3
        have h4 : 0 ≤ pathProduct init done tr (q ++ [a]) * tr a j * val r j :=
          mul_nonneg (mul_nonneg (hPnn _) (htr _ _)) (hrj j)
        have h5 : c * (pathProduct init done tr (q ++ [a]) * tr a j * val r j) ≤ 0 := by
          have e : c * (pathProduct init done tr (q ++ [a]) * tr a j * val r j)
              = c * pathProduct init done tr (q ++ [a]) * tr a j * val r j := by ring
          rw [e]; exact h3
        have h6 : pathProduct init done tr (q ++ [a]) * tr a j * val r j ≤ 0 := by
          by_contra hcon
          have := mul_pos hc (not_le.1 hcon)
          exact absurd h5 (not_le.2 this)
        exact le_antisymm h6 h4

theorem forwardLoop_spec (n : Nat) (init : List ℚ) (fs ts : List Int) (ps : List ℚ)
    (h1 : fs.length = ts.length) (h2 : ts.length = ps.length)
    (hf : ∀ f ∈ fs, inRange n f) (ht : ∀ t ∈ ts, inRange n t)
    (hinit : ∀ x ∈ init, 0 ≤ x) :
    ∀ (rows done : List (List ℚ)) (od : List ℚ) (psi : List (List Int)),
      ForwardInv n init (trans fs ts ps) done od psi →
      (∀ row ∈ rows, row.length = n ∧ ∀ x ∈ row, 0 ≤ x) →
      (∀ row ∈ done, ∀ x ∈ row, 0 ≤ x) →
      ∃ st, forwardLoop n fs ts ps rows (List.replicate n 0, od, psi) = .ok st ∧
        ForwardInv n init (trans fs ts ps) (done ++ rows) st.2.1 st.2.2 := by
  intro rows
  induction rows with
  | nil =>
    intro done od psi hinv _ _
    refine ⟨_, rfl, ?_⟩
    rw [List.append_nil]
    exact hinv
  | cons r rows ih =>
    intro done od psi hinv hrows hdone
    obtain ⟨hrl, hrnn⟩ := hrows r (List.mem_cons_self _ _)
    obtain ⟨d, y, hrun, hdl, hyl, hdnn, hP1, hP3, hP2⟩ :=
      sparseLoop_from_zero od n hinv.1 hinv.2.1 fs ts ps h1 h2 hf ht
    have hstep := forwardInv_step n init (trans fs ts ps)
      (fun a b => transOf_nonneg _ a b) done od psi hinv r hrl hrnn hinit hdone
      d y hdl hyl hdnn hP1 hP3 hP2
    obtain ⟨st, hst, hinv2⟩ := ih (done ++ [r]) _ _ hstep
      (fun row hrow => hrows row (List.mem_cons_of_mem _ hrow))
      (by
        intro row hrow
        rcases List.mem_append.1 hrow with h | h
        · exact hdone row h
        · rw [List.mem_singleton.1 h]; exact hrnn)
    refine ⟨st, ?_, ?_⟩
    · simp only [forwardLoop, hrun, Computed.bind,
        timesObs_spec d r (by rw [hdl, hrl])]
      exact hst
    · rw [List.append_assoc] at hinv2
      exact hinv2

theorem forwardInv_first (n : Nat) (init : List ℚ) (tr : Int → Int → ℚ) (row0 : List ℚ)
    (hn : init.length = n) (hr : row0.length = n)
    (hinit : ∀ x ∈ init, 0 ≤ x) (hrow : ∀ x ∈ row0, 0 ≤ x)
    (hsum : 0 < (List.zipWith (fun a b => a * b) init row0).sum) :
    ForwardInv n init tr [row0]
      ((List.zipWith (fun a b => a * b) init row0).map
        (fun x => x / (List.zipWith (fun a b => a * b) init row0).sum))
      [List.replicate n 0] := by
  have hDl : (List.zipWith (fun a b => a * b) init row0).length = n := by
    rw [List.length_zipWith, hn, hr, Nat.min_self]
  have hDv : ∀ j, inRange n j →
      val (List.zipWith (fun a b => a * b) init row0) j = val init j * val row0 j :=
    fun j hj => val_zipWith init row0 j (by rw [hn]; exact hj) (by rw [hn, hr])
  have hval : ∀ j, inRange n j →
      val ((List.zipWith (fun a b => a * b) init row0).map
        (fun x => x / (List.zipWith (fun a b => a * b) init row0).sum)) j
        = val init j * val row0 j / (List.zipWith (fun a b => a * b) init row0).sum := by
    intro j hj
    rw [val_map _ _ j (by rw [hDl]; exact hj), hDv j hj]
  have hpp : ∀ a, pathProduct init [row0] tr ([] ++ [a]) = val init a * val row0 a := by
    intro a
    simp [pathProduct, pathProductFrom]
  refine ⟨by rw [List.length_map, hDl], ?_, ?_, rfl, ?_, ?_⟩
  · intro a ha
    rw [hval a ha]
    exact div_nonneg (mul_nonneg (val_nonneg_of_forall init hinit a)
      (val_nonneg_of_forall row0 hrow a)) (le_of_lt hsum)
  · obtain ⟨x, hx, hxp⟩ := exists_pos_of_sum_pos _ hsum
    obtain ⟨a, ha, hax⟩ := exists_val_of_mem _ x hx
    rw [hDl] at ha
    refine ⟨a, ha, ?_⟩
    rw [hval a ha, ← hDv a ha, hax]
    exact div_pos hxp hsum
  · intro a _
    exact ⟨[], rfl, rfl, by simp⟩
  · right
    refine ⟨1 / (List.zipWith (fun a b => a * b) init row0).sum, div_pos one_pos hsum, ?_⟩
    intro a ha
    constructor
    · intro q hq _
      have hq0 : q = [] := by
        apply List.length_eq_zero.1
        simp only [List.length_singleton] at hq
        omega
      rw [hq0, hpp a, hval a ha]
      apply le_of_eq
      ring
    · intro _ q hq
      have hq0 : q = [] := by
        have : backLoop (([List.replicate n (0 : Int)]).drop 1).reverse a = .ok [] := rfl
        rw [this] at hq
        injection hq with h
        exact h.symm
      rw [hq0, hpp a, hval a ha]
      ring

theorem bind_isThrow_false {α β : Type} (c : Computed α) (f : α → Computed β)
    (hc : c.isThrow = false) (hf : ∀ a, (f a).isThrow = false) :
    (c.bind f).isThrow = false := by
  cases c with
  | ok a => exact hf a
  | throws msg => simp [Computed.isThrow] at hc
  | undefinedBehaviour => rfl

theorem readAt_isThrow_false {α : Type} (xs : List α) (i : Nat) :
    (readAt xs i).isThrow = false := by
  unfold readAt
  cases xs[i]? <;> rfl

theorem readAtInt_isThrow_false {α : Type} (xs : List α) (i : Int) :
    (readAtInt xs i).isThrow = false := by
  unfold readAtInt
  split_ifs
  · exact readAt_isThrow_false _ _
  · rfl

theorem timesObs_isThrow_false (xs ys : List ℚ) : (timesObs xs ys).isThrow = false := by
  induction xs generalizing ys with
  | nil => rfl
  | cons x xs ih =>
    cases ys with
    | nil => rfl
    | cons y ys =>
      simp only [timesObs]
      exact bind_isThrow_false _ _ (ih ys) (fun _ => rfl)

theorem sparseLoop_isThrow_false (od : List ℚ) :
    ∀ (ps : List ℚ) (fs ts : List Int) (st : List ℚ × List Int),
      (sparseLoop od fs ts ps st).isThrow = false := by
  intro ps
  induction ps with
  | nil =>
    intro fs ts st
    cases fs <;> cases ts <;> rfl
  | cons p ps ih =>
    intro fs ts st
    cases fs with
    | nil => cases ts <;> rfl
    | cons f fs =>
      cases ts with
      | nil => rfl
      | cons t ts =>
        obtain ⟨delta, psiRow⟩ := st
        simp only [sparseLoop]
        refine bind_isThrow_false _ _ (readAtInt_isThrow_false _ _) (fun a => ?_)
        refine bind_isThrow_false _ _ (readAtInt_isThrow_false _ _) (fun b => ?_)
        split_ifs
        · exact ih _ _ _
        · exact ih _ _ _

theorem forwardLoop_isThrow_false (n : Nat) (fs ts : List Int) (ps : List ℚ) :
    ∀ (rows : List (List ℚ)) (st : List ℚ × List ℚ × List (List Int)),
      (forwardLoop n fs ts ps rows st).isThrow = false := by
  intro rows
  induction rows with
  | nil => intro st; rfl
  | cons r rows ih =>
    intro st
    obtain ⟨delta, oldDelta, psi⟩ := st
    simp only [forwardLoop]
    refine bind_isThrow_false _ _ (sparseLoop_isThrow_false _ _ _ _ _) (fun a => ?_)
    refine bind_isThrow_false _ _ (timesObs_isThrow_false _ _) (fun b => ?_)
    exact ih _

theorem backLoop_isThrow_false :
    ∀ (rows : List (List Int)) (s : Int), (backLoop rows s).isThrow = false := by
  intro rows
  induction rows with
  | nil => intro s; rfl
  | cons r rows ih =>
    intro s
    simp only [backLoop]
    refine bind_isThrow_false _ _ (readAtInt_isThrow_false _ _) (fun a => ?_)
    exact bind_isThrow_false _ _ (ih a) (fun _ => rfl)

theorem throws_iff_empty_input (_tempPath : List Int) (obs : List (List ℚ)) (init : List ℚ)
    (fromIndex toIndex : List Int) (transProb : List ℚ) :
    (compute _tempPath obs init fromIndex toIndex transProb).isThrow = true ↔
      (obs = [] ∨ init = [] ∨ fromIndex = [] ∨ toIndex = [] ∨ transProb = []) := by
  unfold compute
  simp only [List.length_eq_zero]
  split_ifs with h
  · simp [Computed.isThrow, h]
  · have hfalse : ∀ c : Computed (List Int), c.isThrow = false → (c.isThrow = true ↔
        (obs = [] ∨ init = [] ∨ fromIndex = [] ∨ toIndex = [] ∨ transProb = [])) := by
      intro c hc
      rw [hc]
      simp [h]
    apply hfalse
    refine bind_isThrow_false _ _ (readAt_isThrow_false _ _) (fun row0 => ?_)
    refine bind_isThrow_false _ _ (timesObs_isThrow_false _ _) (fun products => ?_)
    split_ifs
    · rfl
    · refine bind_isThrow_false _ _ (forwardLoop_isThrow_false _ _ _ _ _ _) (fun st => ?_)
      exact bind_isThrow_false _ _ (backLoop_isThrow_false _ _) (fun _ => rfl)

/-- C22.  `compute` throws exactly when one of the five inputs is empty.  For
non-empty inputs with `fromIndex`, `toIndex` and `transProb` of one length,
every observation row as long as `init`, state indices in
`0 .. nState-1`, non-negative probabilities and a first frame whose products
`init[s] * obs[0][s]` are not all zero, `compute` returns a path with one
state per frame, each in range, and no state sequence has a larger product
than the returned one. -/
theorem most_likely_path (_tempPath : List Int) (obs : List (List ℚ)) (init : List ℚ)
    (fromIndex toIndex : List Int) (transProb : List ℚ) :
    ((compute _tempPath obs init fromIndex toIndex transProb).isThrow = true ↔
      (obs = [] ∨ init = [] ∨ fromIndex = [] ∨ toIndex = [] ∨ transProb = [])) ∧
    (obs ≠ [] → init ≠ [] → fromIndex ≠ [] → toIndex ≠ [] → transProb ≠ [] →
      fromIndex.length = toIndex.length → toIndex.length = transProb.length →
      (∀ row ∈ obs, row.length = init.length) →
      (∀ s ∈ fromIndex, inRange init.length s) → (∀ s ∈ toIndex, inRange init.length s) →
      (∀ x ∈ init, 0 ≤ x) → (∀ row ∈ obs, ∀ x ∈ row, 0 ≤ x) → (∀ x ∈ transProb, 0 ≤ x) →
      (∃ s, inRange init.length s ∧ val init s * val (obs.headD []) s ≠ 0) →
      ∃ path, compute _tempPath obs init fromIndex toIndex transProb = .ok path ∧
        path.length = obs.length ∧ (∀ s ∈ path, inRange init.length s) ∧
        ∀ q : List Int, q.length = obs.length → (∀ s ∈ q, inRange init.length s) →
          pathProduct init obs (trans fromIndex toIndex transProb) q
            ≤ pathProduct init obs (trans fromIndex toIndex transProb) path) := by
  refine ⟨throws_iff_empty_input _ _ _ _ _ _, ?_⟩
  intro hobs hinit hfrom hto htp h1 h2 hrows hf ht hinn hobsnn _ hfirst
  cases obs with
  | nil => exact absurd rfl hobs
  | cons row0 rows =>
    have hr0 : row0.length = init.length := hrows row0 (List.mem_cons_self _ _)
    have hr0nn : ∀ x ∈ row0, 0 ≤ x := hobsnn row0 (List.mem_cons_self _ _)
    have hDl : (List.zipWith (fun a b => a * b) init row0).length = init.length := by
      rw [List.length_zipWith, hr0, Nat.min_self]
    have hDnn : ∀ x ∈ List.zipWith (fun a b => a * b) init row0, 0 ≤ x := by
      intro x hx
      obtain ⟨a, ha, hax⟩ := exists_val_of_mem _ x hx
      rw [hDl] at ha
      rw [← hax, val_zipWith init row0 a ha hr0.symm]
      exact mul_nonneg (val_nonneg_of_forall init hinn a) (val_nonneg_of_forall row0 hr0nn a)
    have hsum : 0 < (List.zipWith (fun a b => a * b) init row0).sum := by
      obtain ⟨s, hs, hne⟩ := hfirst
      simp only [List.headD_cons] at hne
      have hm := val_mem (List.zipWith (fun a b => a * b) init row0) s (by rw [hDl]; exact hs)
      rw [val_zipWith init row0 s hs hr0.symm] at hm
      have hpos : 0 < val init s * val row0 s := lt_of_le_of_ne (hDnn _ hm) (Ne.symm hne)
      exact lt_of_lt_of_le hpos (le_sum_of_mem _ hDnn _ hm)
    have hfirstInv := forwardInv_first init.length init (trans fromIndex toIndex transProb)
      row0 rfl hr0 hinn hr0nn hsum
    obtain ⟨st, hst, hinv⟩ := forwardLoop_spec init.length init fromIndex toIndex transProb
      h1 h2 hf ht hinn rows [row0] _ _ hfirstInv
      (fun row hrow => ⟨hrows row (List.mem_cons_of_mem _ hrow),
        hobsnn row (List.mem_cons_of_mem _ hrow)⟩)
      (by
        intro row hrow
        rw [List.mem_singleton.1 hrow]
        exact hr0nn)
    rw [List.singleton_append] at hinv
    obtain ⟨hodl, hodnn, hpos, hpsil, hback, hscore⟩ := hinv
    obtain ⟨hlr, hlpos, hlmax⟩ := bestLoop_argmax st.2.1 init.length hodl
      ((VectorExT.vectorResize 0 (row0 :: rows).length _tempPath).getD
        ((row0 :: rows).length - 1) 0) hpos
    obtain ⟨q, hq, hql, hqr⟩ := hback _ hlr
    have hcompute : compute _tempPath (row0 :: rows) init fromIndex toIndex transProb
        = .ok (q ++ [bestLoop st.2.1 0 0
            ((VectorExT.vectorResize 0 (row0 :: rows).length _tempPath).getD
              ((row0 :: rows).length - 1) 0)]) := by
      unfold compute
      have hne : ¬ ((row0 :: rows).length = 0 ∨ init.length = 0 ∨ fromIndex.length = 0
          ∨ toIndex.length = 0 ∨ transProb.length = 0) := by
        simp only [List.length_eq_zero]
        intro h
        rcases h with h | h | h | h | h
        · exact hobs h
        · exact hinit h
        · exact hfrom h
        · exact hto h
        · exact htp h
      rw [if_neg hne]
      have hread : readAt (row0 :: rows) 0 = .ok row0 := by
        simp [readAt]
      simp only [hread, Computed.bind, timesObs_spec init row0 (le_of_eq hr0.symm)]
      rw [if_neg (ne_of_gt hsum)]
      simp only [List.drop_succ_cons, List.drop_zero, hst, Computed.bind, hq]
    refine ⟨_, hcompute, ?_, ?_, ?_⟩
    · simp [hql]
    · intro s hs
      rcases List.mem_append.1 hs with h | h
      · exact hqr s h
      · rw [List.mem_singleton.1 h]; exact hlr
    · intro p hpl hpr
      have hpl2 : p.length = ((row0 :: rows).length - 1) + 1 := by
        rw [hpl]; simp
      obtain ⟨q2, a, hpa, hq2l⟩ := exists_concat_of_length p _ hpl2
      have hq2l2 : q2.length + 1 = (row0 :: rows).length := by
        rw [hq2l]; simp
      have hq2r : ∀ s ∈ q2, inRange init.length s :=
        fun s hs => hpr s (by rw [hpa]; exact List.mem_append_left _ hs)
      have har : inRange init.length a := hpr a (by rw [hpa]; simp)
      rw [hpa]
      rcases hscore with hdead | ⟨c, hc, halive⟩
      · rw [hdead q2 a hq2l2 hq2r har, hdead q _ hql hqr hlr]
      · have hA := (halive a har).1 q2 hq2l2 hq2r
        have hB := (halive _ hlr).2 hlpos q hq
        have hle := le_trans hA (hlmax a har)
        rw [← hB] at hle
        exact le_of_mul_le_mul_left hle hc

theorem most_likely_path_witness :
    ([[1, 0], [0, 1]] : List (List ℚ)) ≠ [] ∧ ([1, 1] : List ℚ) ≠ [] ∧
    ([0] : List Int) ≠ [] ∧ ([1] : List Int) ≠ [] ∧ ([1] : List ℚ) ≠ [] ∧
    ([0] : List Int).length = ([1] : List Int).length ∧
    ([1] : List Int).length = ([1] : List ℚ).length ∧
    (∀ row ∈ ([[1, 0], [0, 1]] : List (List ℚ)), row.length = ([1, 1] : List ℚ).length) ∧
    (∀ s ∈ ([0] : List Int), inRange ([1, 1] : List ℚ).length s) ∧
    (∀ s ∈ ([1] : List Int), inRange ([1, 1] : List ℚ).length s) ∧
    (∃ s, inRange ([1, 1] : List ℚ).length s ∧
      val [1, 1] s * val (([[1, 0], [0, 1]] : List (List ℚ)).headD []) s ≠ 0) ∧
    ∃ path, compute [] [[1, 0], [0, 1]] [1, 1] [0] [1] [1] = .ok path ∧
      path.length = ([[1, 0], [0, 1]] : List (List ℚ)).length ∧
      (∀ s ∈ path, inRange ([1, 1] : List ℚ).length s) ∧
      ∀ q : List Int, q.length = ([[1, 0], [0, 1]] : List (List ℚ)).length →
        (∀ s ∈ q, inRange ([1, 1] : List ℚ).length s) →
        pathProduct [1, 1] [[1, 0], [0, 1]] (trans [0] [1] [1]) q
          ≤ pathProduct [1, 1] [[1, 0], [0, 1]] (trans [0] [1] [1]) path :=
  have hrange0 : ∀ s ∈ ([0] : List Int), inRange ([1, 1] : List ℚ).length s := by
    intro s hs
    rw [List.mem_singleton.1 hs]
    exact ⟨by decide, by decide⟩
  have hrange1 : ∀ s ∈ ([1] : List Int), inRange ([1, 1] : List ℚ).length s := by
    intro s hs
    rw [List.mem_singleton.1 hs]
    exact ⟨by decide, by decide⟩
  have hrows : ∀ row ∈ ([[1, 0], [0, 1]] : List (List ℚ)),
      row.length = ([1, 1] : List ℚ).length := by
    intro row hrow
    simp only [List.mem_cons, List.mem_singleton, List.not_mem_nil, or_false] at hrow
    rcases hrow with h | h <;> rw [h] <;> rfl
  have hfirst : ∃ s, inRange ([1, 1] : List ℚ).length s ∧
      val [1, 1] s * val (([[1, 0], [0, 1]] : List (List ℚ)).headD []) s ≠ 0 :=
    ⟨0, ⟨by decide, by decide⟩, by simp [val]⟩
  ⟨by simp, by simp, by simp, by simp, by simp, rfl, rfl, hrows, hrange0, hrange1, hfirst,
    (most_likely_path [] [[1, 0], [0, 1]] [1, 1] [0] [1] [1]).2
      (by simp) (by simp) (by simp) (by simp) (by simp) rfl rfl hrows hrange0 hrange1
      (by simp) (by
        intro row hrow x hx
        simp only [List.mem_cons, List.mem_singleton, List.not_mem_nil, or_false] at hrow
        rcases hrow with h | h <;> rw [h] at hx <;>
          simp only [List.mem_cons, List.mem_singleton, List.not_mem_nil, or_false] at hx <;>
          rcases hx with h2 | h2 <;> rw [h2] <;> norm_num)
      (by simp) hfirst⟩

end Viterbi

end Essentia
